import Mathlib

/-!
Verification development for the `sr` (ShowReverse) bulk reverse-DNS tool.

The Go source represents an IP address as a byte slice (`net.IP`, 4 bytes for
IPv4 and 16 for IPv6, network byte order).  We embed an address as its length
in bytes together with its big-endian numeric value; machine arithmetic on the
byte array corresponds to arithmetic on the value modulo `2 ^ (8 * len)`.
Operations that genuinely look at raw bytes (`bytes.Compare` across families)
are modelled on the extracted byte list.
-/

namespace SR

/-- An address as stored in a `net.IP` slice: `len` bytes (4 or 16), value `v`
read big-endian, `v < 2 ^ (8 * len)`. -/
structure IPd where
  len : Nat
  v : Nat
  deriving DecidableEq, Repr

/-- Bit width of an address (`len(ip) * 8` in the Go source). -/
def IPd.bits (a : IPd) : Nat := 8 * a.len

/-- `incIP` increments an IP address in place (byte-wise add-1 with carry;
overflow of the last byte carries left, overflow of the whole array wraps to
all zeros).  On the big-endian value this is exactly `+1` modulo `2 ^ bits`. -/
def incIP (a : IPd) : IPd := ⟨a.len, (a.v + 1) % 2 ^ a.bits⟩

/-- Number of trailing zero bits of a positive number (the inner
`for b&1 == 0 { count++; b >>= 1 }` loop of `trailingZeroBits`). -/
def tzNat (v : Nat) : Nat :=
  if h : v = 0 then 0
  else if v % 2 = 1 then 0
  else tzNat (v / 2) + 1
decreasing_by exact Nat.div_lt_self (Nat.pos_of_ne_zero h) one_lt_two

/-- `trailingZeroBits` counts trailing zero bits in an IP address; an all-zero
address of `n` bytes yields `8*n` (the loop adds 8 per zero byte and stops in
the first nonzero byte). -/
def trailingZeroBits (a : IPd) : Nat :=
  if a.v = 0 then a.bits else tzNat a.v

/-- The big-endian byte list of `n` bytes of value `v` (how a `net.IP` slice
stores the value). -/
def ipBytes (n v : Nat) : List Nat :=
  (List.range n).map fun i => v / 256 ^ (n - 1 - i) % 256

/-- `bytes.Compare`: lexicographic order on byte slices; a strict prefix
compares less than the longer slice. -/
def bytesCmp : List Nat → List Nat → Ordering
  | [], [] => .eq
  | [], _ :: _ => .lt
  | _ :: _, [] => .gt
  | x :: xs, y :: ys =>
    if x < y then .lt else if y < x then .gt else bytesCmp xs ys

/-- Byte comparison of two addresses, `bytes.Compare(a, b)` on the raw
underlying slices (lengths may differ for mixed families). -/
def ipCmp (a b : IPd) : Ordering := bytesCmp (ipBytes a.len a.v) (ipBytes b.len b.v)

/-- `a` is v4-mapped: a 16-byte address of the form `::ffff:a.b.c.d`. -/
def isV4mapped (a : IPd) : Bool := a.len == 16 && a.v / 2 ^ 32 == 0xffff

/-- `net.IP.To4` as a normalization: a 4-byte address stays, a v4-mapped
16-byte address is rewritten to its 4-byte form, anything else is `none`. -/
def to4 (a : IPd) : Option IPd :=
  if a.len = 4 then some a
  else if isV4mapped a then some ⟨4, a.v % 2 ^ 32⟩ else none

/-- Normalize to the 4-byte form when possible, otherwise keep (the
`if x4 := x.To4(); x4 != nil { x = x4 }` idiom). -/
def to4norm (a : IPd) : IPd := (to4 a).getD a

/-- `net.IP.Equal`: equal as byte slices, or one side is the 4-byte form and
the other the v4-mapped 16-byte form of the same value. -/
def ipEqual (a b : IPd) : Bool := to4norm a == to4norm b

/-- A `net.IPNet` as built by this program: `nlen` bytes of stored base IP
(value `base`), and a CIDR mask of `ones` leading one bits over `8*nlen`
bytes (the program always builds the mask with the same byte length as the
stored IP). -/
structure NetB where
  nlen : Nat
  base : Nat
  ones : Nat
  deriving DecidableEq, Repr

/-- `net.IPNet.Contains`: both the probe and the network number are
normalized with `To4` when possible; when the network number shrinks to 4
bytes, the low 4 bytes of the 16-byte mask are used (`m = m[12:]`), which
drops 96 leading mask bits.  Masking a value with a CIDR mask of `ones` one
bits over width `w` clears the low `w - ones` bits, so the byte-wise
`(x AND m) == (nn AND m)` test is division agreement at `2 ^ (w - ones)`. -/
def netContains (n : NetB) (x : IPd) : Bool :=
  let nn := to4norm ⟨n.nlen, n.base⟩
  let xx := to4norm x
  let ones := if nn.len < n.nlen then n.ones - 96 else n.ones
  let h := 8 * nn.len - ones
  xx.len == nn.len && xx.v / 2 ^ h == nn.v / 2 ^ h

/-- An address in the canonical representation the enumerator produces:
4-byte IPv4, or 16-byte IPv6 that is not v4-mapped, value in range. -/
def Canon (a : IPd) : Prop :=
  (a.len = 4 ∨ (a.len = 16 ∧ ¬ isV4mapped a)) ∧ a.v < 2 ^ a.bits

instance : DecidablePred Canon := fun a => by unfold Canon; infer_instance

/-! ## CIDR enumerator (cidr.go) -/

/-- A command-line CIDR argument after `net.ParseCIDR`: either well-formed,
carrying `(nlen, ones, base)` — byte length, prefix length, raw address
value — or malformed, carrying the original string. -/
inductive CIDRArg where
  | ok (nlen ones base : Nat)
  | bad (s : String)
  deriving DecidableEq, Repr

/-- `SentinelSize = math.MaxUint64`. -/
def SentinelSize : Nat := 2 ^ 64 - 1

/-- `CIDRSize`: the number of addresses in the block, `SentinelSize` for
ranges with ≥ 64 host bits.  A malformed CIDR yields the
`fmt.Errorf("invalid CIDR %q: %w", cidr, err)` error text. -/
def CIDRSize : CIDRArg → Except String Nat
  | .bad s => .error ("invalid CIDR \"" ++ s ++ "\": invalid CIDR address: " ++ s)
  | .ok nlen ones _ =>
    let hostBits := 8 * nlen - ones
    if 64 ≤ hostBits then .ok SentinelSize else .ok (2 ^ hostBits)

/-- The `for ip := ip.Mask(ipnet.Mask); ipnet.Contains(ip); incIP(ip)` loop of
`ExpandCIDR`.  `h` is the number of host bits; `start` is the masked base, so
`ipnet.Contains(cur)` is `cur / 2^h = start / 2^h`.  The loop appends a copy
of the cursor, breaks once `maxIPs > 0` addresses have been collected, and
otherwise increments the cursor (wrapping modulo `2^(8*nlen)`).  The Go loop
can diverge (a `/0` block with no budget): `fuel` bounds the number of
iterations we unfold, and exhausting it yields `none` (divergence). -/
def expandLoop (nlen h start maxIPs : Nat) : Nat → Nat → List IPd → Option (List IPd)
  | 0, _, _ => none
  | fuel + 1, cur, acc =>
    if cur / 2 ^ h = start / 2 ^ h then
      let acc2 := acc ++ [⟨nlen, cur⟩]
      if 0 < maxIPs ∧ maxIPs ≤ acc2.length then some acc2
      else expandLoop nlen h start maxIPs fuel ((cur + 1) % 2 ^ (8 * nlen)) acc2
    else some acc

/-- The outcome of `ExpandCIDR` past argument validation: a normal address
list, a deterministic `makeslice` panic from the pre-allocation, or a loop
that never terminates. -/
inductive ExpandResult where
  | ips (l : List IPd)
  | panics
  | diverges
  deriving DecidableEq, Repr

/-- The largest capacity `make([]T, 0, c)` accepts: a capacity that does not
fit in a signed 64-bit `int` makes Go panic with
`makeslice: cap out of range`.  (Still-representable huge capacities can
additionally abort the runtime with out-of-memory, which is not modelled.) -/
def MaxSliceCap : Nat := 2 ^ 63 - 1

/-- The `allocSize` local of `ExpandCIDR`: the block size, clamped to the
budget only when `maxIPs > 0`
(`if maxIPs > 0 && (size == SentinelSize || size > maxIPs)`). -/
def expandAllocSize (nlen ones maxIPs : Nat) : Nat :=
  let h := 8 * nlen - ones
  let size := if 64 ≤ h then SentinelSize else 2 ^ h
  if 0 < maxIPs ∧ (size = SentinelSize ∨ maxIPs < size) then maxIPs else size

/-- `ExpandCIDR(cidr, maxIPs)`.  After validation the Go code computes
`size := CIDRSize(cidr)`, clamps the allocation size to the budget only when
`maxIPs > 0`, and runs `make([]net.IP, 0, allocSize)` — which panics when
the capacity exceeds `MaxSliceCap`; with no budget and ≥ 64 host bits
`allocSize` stays `SentinelSize`, so this panic is reached before any
expansion.  Only then does the cursor loop run.  The fuel `maxIPs + 2^h + 1`
covers every terminating run of the loop; exhausting it (a `/0` block with
no budget) models divergence. -/
def ExpandCIDR (c : CIDRArg) (maxIPs : Nat) : Except String ExpandResult :=
  match c with
  | .bad s => .error ("invalid CIDR \"" ++ s ++ "\": invalid CIDR address: " ++ s)
  | .ok nlen ones base =>
    if MaxSliceCap < expandAllocSize nlen ones maxIPs then .ok .panics
    else
      let h := 8 * nlen - ones
      let start := base / 2 ^ h * 2 ^ h
      .ok (match expandLoop nlen h start maxIPs (maxIPs + 2 ^ h + 1) start [] with
        | some l => .ips l
        | none => .diverges)

/-- First pass of `ParseCIDRs`: validate every argument and accumulate the
total size with the uint64 overflow check
(`newTotal := totalSize + size; if newTotal < totalSize { hasHugeRange = true }`).
The resulting total and flag feed only the slice allocation capacity. -/
def sizePass : List CIDRArg → Nat → Bool → Except String (Nat × Bool)
  | [], total, huge => .ok (total, huge)
  | c :: rest, total, huge => do
    let size ← CIDRSize c
    if size = SentinelSize then sizePass rest total true
    else if huge then sizePass rest total huge
    else
      let newTotal := (total + size) % 2 ^ 64
      if newTotal < total then sizePass rest total true
      else sizePass rest newTotal huge

/-- Second pass of `ParseCIDRs`: expand each block with a per-block limit
equal to the remaining budget, breaking when the budget is exhausted.
A panic or divergence of an `ExpandCIDR` call propagates. -/
def expandPass (maxIPs : Nat) : List CIDRArg → Nat → List IPd → Except String ExpandResult
  | [], _, acc => .ok (.ips acc)
  | c :: rest, remaining, acc =>
    if 0 < maxIPs ∧ remaining = 0 then .ok (.ips acc)
    else do
      let limit := if 0 < maxIPs then remaining else 0
      match ← ExpandCIDR c limit with
      | .panics => .ok .panics
      | .diverges => .ok .diverges
      | .ips ips =>
        let remaining2 := if 0 < maxIPs then remaining - ips.length else remaining
        expandPass maxIPs rest remaining2 (acc ++ ips)

/-- The `allocCap` local of `ParseCIDRs`: the accumulated total, clamped to
the budget, or the 65,536 default capacity with no budget and a huge range
(a capacity only, not an expansion cap). -/
def parseAllocCap (total : Nat) (huge : Bool) (maxIPs : Nat) : Nat :=
  if huge = true ∨ (0 < maxIPs ∧ maxIPs < total) then
    (if 0 < maxIPs then maxIPs else 65536) else total

/-- `ParseCIDRs(cidrs, maxIPs)`: validate and size every block first, clamp
the allocation capacity, run `make([]net.IP, 0, allocCap)` — panicking when
the capacity exceeds `MaxSliceCap` — then expand under the budget. -/
def ParseCIDRs (cidrs : List CIDRArg) (maxIPs : Nat) : Except String ExpandResult := do
  let st ← sizePass cidrs 0 false
  if MaxSliceCap < parseAllocCap st.1 st.2 maxIPs then .ok ExpandResult.panics
  else expandPass maxIPs cidrs maxIPs []

/-! ## Coalescing sorted addresses into CIDR blocks -/

/-- The `for blockBits < alignment && (1<<(blockBits+1)) <= remaining`
search of `ContiguousIPsToNetworks`, starting from `b`. -/
def pickBitsFrom (alignment remaining : Nat) (b : Nat) : Nat :=
  if b < alignment ∧ 2 ^ (b + 1) ≤ remaining then
    pickBitsFrom alignment remaining (b + 1)
  else b
termination_by alignment - b
decreasing_by omega

/-- The block size exponent chosen at one position of the greedy cover. -/
def pickBits (alignment remaining : Nat) : Nat := pickBitsFrom alignment remaining 0

/-- `ContiguousIPsToNetworks`: greedy cover of a sorted contiguous run.
`tb` is `totalBits`, fixed from the first element of the run.  At each
position the largest aligned power-of-two block that fits is emitted and
`2^blockBits` addresses are consumed (the Go code advances an index; we drop
from the list). -/
def contigLoop (tb : Nat) : List IPd → List NetB
  | [] => []
  | ip :: rest =>
    let remaining := rest.length + 1
    let alignment := trailingZeroBits ip
    let blockBits := pickBits alignment remaining
    ⟨ip.len, ip.v, tb - blockBits⟩ :: contigLoop tb (rest.drop (2 ^ blockBits - 1))
termination_by l => l.length
decreasing_by
  simp only [List.length_cons]
  exact Nat.lt_succ_of_le (List.length_drop _ _ ▸ Nat.sub_le _ _)

/-- `ContiguousIPsToNetworks(ips)`; `totalBits` is `len(ips[0]) * 8`. -/
def ContiguousIPsToNetworks : List IPd → List NetB
  | [] => []
  | ip :: rest => contigLoop (8 * ip.len) (ip :: rest)

/-- `findContiguousRuns`: split a sorted slice into maximal runs of
consecutive addresses; the boundary test is `prev := copy(ips[i-1]);
incIP(prev); !prev.Equal(ips[i])`.  The Go code slices between boundary
indices; this right fold breaks at exactly the same adjacent pairs. -/
def findContiguousRuns : List IPd → List (List IPd)
  | [] => []
  | [x] => [[x]]
  | x :: y :: rest =>
    match findContiguousRuns (y :: rest) with
    | [] => [[x]]
    | run :: more =>
      if ipEqual (incIP x) y then (x :: run) :: more else [x] :: run :: more

/-- `IPsToNetworks`: split into contiguous runs, cover each greedily. -/
def IPsToNetworks (sortedIPs : List IPd) : List NetB :=
  (findContiguousRuns sortedIPs).flatMap ContiguousIPsToNetworks

/-- `singleIPNet`: a `/32` or `/128` network for one IP, normalizing
v4-mapped addresses to their 4-byte form first. -/
def singleIPNet (ip : IPd) : NetB :=
  match to4 ip with
  | some ip4 => ⟨4, ip4.v, 32⟩
  | none => ⟨16, ip.v, 128⟩

/-! ## Results, filtering and consolidation (output.go) -/

/-- A lookup result: address, PTR name (empty for NXDOMAIN) and error. -/
structure LookupResult where
  IP : IPd
  PTR : String
  Error : Option String
  deriving DecidableEq, Repr

/-- Output options; only the filter flags matter to consolidation. -/
structure OutputOptions where
  Format : String
  ResolvedOnly : Bool
  NXDomainOnly : Bool
  SortFlag : Bool
  Expand : Bool
  deriving DecidableEq, Repr

/-- `FilterResults`: keep results with a PTR under `ResolvedOnly`, results
with no PTR and no error under `NXDomainOnly`, everything otherwise. -/
def FilterResults (results : List LookupResult) (opts : OutputOptions) : List LookupResult :=
  if ¬ opts.ResolvedOnly ∧ ¬ opts.NXDomainOnly then results
  else results.filter fun r =>
    (opts.ResolvedOnly && r.PTR != "") ||
      (opts.NXDomainOnly && r.PTR == "" && r.Error == none)

/-- A consolidated entry: a network, a PTR (possibly a `*.` pattern, empty
for NXDOMAIN) and an error (set only on single-address error entries). -/
structure ConsolidatedResult where
  Network : NetB
  PTR : String
  Error : Option String
  deriving DecidableEq, Repr

/-- The `sort.Slice` order on addresses: `bytes.Compare(a, b) < 0`, as a
total `≤` test for merge sort. -/
def ipLe (a b : IPd) : Bool := ipCmp a b != Ordering.gt

/-- The final `sort.Slice` order on consolidated entries: byte comparison of
the stored network base addresses. -/
def netIPLe (a b : ConsolidatedResult) : Bool :=
  bytesCmp (ipBytes a.Network.nlen a.Network.base) (ipBytes b.Network.nlen b.Network.base)
    != Ordering.gt

/-- `extractPTRPattern`: detect an IPv4 address embedded in its PTR record
and return `*.<suffix>`; IPv6 addresses and empty PTRs yield `""`.
The four dotted/dashed encodings and the early returns mirror the source. -/
def extractPTRPattern (ip : IPd) (ptr : String) : String :=
  match to4 ip with
  | none => ""
  | some ip4 =>
    if ptr = "" then ""
    else
      let a := toString (ip4.v / 2 ^ 24 % 256)
      let b := toString (ip4.v / 2 ^ 16 % 256)
      let c := toString (ip4.v / 2 ^ 8 % 256)
      let d := toString (ip4.v % 256)
      let fwdDots := a ++ "." ++ b ++ "." ++ c ++ "." ++ d ++ "."
      let revDots := d ++ "." ++ c ++ "." ++ b ++ "." ++ a ++ "."
      if fwdDots.data.isPrefixOf ptr.data then
        let suffix := ptr.data.drop fwdDots.data.length
        if suffix.contains '.' then "*." ++ String.mk suffix else ""
      else if revDots.data.isPrefixOf ptr.data then
        let suffix := ptr.data.drop revDots.data.length
        if suffix.contains '.' then "*." ++ String.mk suffix else ""
      else if ptr.data.contains '.' then
        let firstLabel := ptr.data.takeWhile (fun ch => ch != '.')
        let suffix := (ptr.data.dropWhile (fun ch => ch != '.')).drop 1
        if ¬ suffix.contains '.' then ""
        else
          let fwdDashes := a ++ "-" ++ b ++ "-" ++ c ++ "-" ++ d
          let revDashes := d ++ "-" ++ c ++ "-" ++ b ++ "-" ++ a
          if firstLabel = fwdDashes.data then "*." ++ String.mk suffix
          else if firstLabel = revDashes.data then "*." ++ String.mk suffix
          else if ('-' :: fwdDashes.data).isSuffixOf firstLabel then "*." ++ String.mk suffix
          else if ('-' :: revDashes.data).isSuffixOf firstLabel then "*." ++ String.mk suffix
          else ""
      else ""

/-- Append a value to the bucket of key `k`, creating the bucket at the end
on first use (models a Go `map[string][]net.IP` in key insertion order; the
final sort makes the iteration order unobservable). -/
def groupAdd (groups : List (String × List IPd)) (k : String) (ip : IPd) :
    List (String × List IPd) :=
  match groups with
  | [] => [(k, [ip])]
  | (k2, ips) :: rest =>
    if k2 = k then (k2, ips ++ [ip]) :: rest else (k2, ips) :: groupAdd rest k ip

/-- The error-bearing results, in order (`ConsolidateResults` first pass). -/
def consErrors (results : List LookupResult) : List LookupResult :=
  results.filter fun r => r.Error.isSome

/-- The PTR buckets of the non-error results (`groups[r.PTR] = append(...)`). -/
def consGroups (results : List LookupResult) : List (String × List IPd) :=
  (results.filter fun r => r.Error.isNone).foldl (fun g r => groupAdd g r.PTR r.IP) []

/-- Sort a bucket's addresses by `bytes.Compare` (`sort.Slice` does not fix an
algorithm; any sort consistent with the comparator refines it). -/
def sortIPs (ips : List IPd) : List IPd :=
  List.insertionSort (fun a b => ipLe a b = true) ips

/-- Drop an element equal (as `net.IP.Equal`) to its predecessor in the
original list; `prev` is the previous original element. -/
def dedupGo (prev : IPd) : List IPd → List IPd
  | [] => []
  | y :: ys => if ipEqual y prev then dedupGo y ys else y :: dedupGo y ys

/-- The `deduped := []net.IP{ips[0]}; ...` consecutive-duplicate removal. -/
def dedupAdj : List IPd → List IPd
  | [] => []
  | x :: xs => x :: dedupGo x xs

/-- One step of pass 1: a bucket is either deferred (single address after
dedup, non-empty PTR) or emitted as greedy-cover networks. -/
def pass1Step (acc : List ConsolidatedResult × List (IPd × String))
    (g : String × List IPd) : List ConsolidatedResult × List (IPd × String) :=
  let deduped := dedupAdj (sortIPs g.2)
  if deduped.length = 1 ∧ g.1 ≠ "" then
    (acc.1, acc.2 ++ [(deduped.headD ⟨0, 0⟩, g.1)])
  else
    (acc.1 ++ (IPsToNetworks deduped).map fun n => ⟨n, g.1, none⟩, acc.2)

/-- Pass 1 of `ConsolidateResults`: emit networks for every bucket except
single-address buckets with a PTR, which are deferred as `singles`. -/
def pass1 (groups : List (String × List IPd)) :
    List ConsolidatedResult × List (IPd × String) :=
  groups.foldl pass1Step ([], [])

/-- One step of pass 2 grouping: a deferred single joins its pattern bucket,
or stays unmatched when it has no pattern. -/
def pass2GStep (acc : List (String × List IPd) × List (IPd × String))
    (s : IPd × String) : List (String × List IPd) × List (IPd × String) :=
  let pat := extractPTRPattern s.1 s.2
  if pat ≠ "" then (groupAdd acc.1 pat s.1, acc.2) else (acc.1, acc.2 ++ [s])

/-- Pass 2 grouping: bucket the deferred singles by extracted pattern; those
with no pattern stay unmatched. -/
def pass2Groups (singles : List (IPd × String)) :
    List (String × List IPd) × List (IPd × String) :=
  singles.foldl pass2GStep ([], [])

/-- One step of pass 2 emission: a pattern bucket of one address is emitted
with the original exact PTR found by a linear search of `singles`; a larger
bucket is sorted and coalesced under the pattern. -/
def pass2EStep (singles : List (IPd × String)) (acc : List ConsolidatedResult)
    (pg : String × List IPd) : List ConsolidatedResult :=
  if pg.2.length < 2 then
    match singles.find? (fun s => ipEqual s.1 (pg.2.headD ⟨0, 0⟩)) with
    | some s => acc ++ [⟨singleIPNet s.1, s.2, none⟩]
    | none => acc
  else acc ++ (IPsToNetworks (sortIPs pg.2)).map fun n => ⟨n, pg.1, none⟩

/-- Pass 2 emission over all pattern buckets. -/
def pass2Emit (singles : List (IPd × String)) (pgs : List (String × List IPd)) :
    List ConsolidatedResult :=
  pgs.foldl (pass2EStep singles) []

/-- `ConsolidateResults`: exact-PTR pass, pattern pass, unmatched singles,
error entries, then the global sort by network base bytes. -/
def ConsolidateResults (results : List LookupResult) : List ConsolidatedResult :=
  let errs := consErrors results
  let p1 := pass1 (consGroups results)
  let p2 := pass2Groups p1.2
  let entries2 := pass2Emit p1.2 p2.1
  let entries3 := p2.2.map fun s => ⟨singleIPNet s.1, s.2, none⟩
  let entries4 := errs.map fun r => ⟨singleIPNet r.IP, "", r.Error⟩
  List.insertionSort (fun a b => netIPLe a b = true)
    (p1.1 ++ entries2 ++ entries3 ++ entries4)

/-! ## IPv6 PTR patterns

The IPv6 pattern extractor is referenced by the repository's tests
(`extractIPv6PTRPattern` in the output tests) but its definition is not
among the sources; the definitions below are modelled from the spec. -/

/-- Lowercase hex digit for a nibble. -/
def hexChar (n : Nat) : Char := Char.ofNat (if n < 10 then 48 + n else 87 + n)

/-- Hex digits of a number, most significant first (`[]` for zero); the
first argument is structural fuel, always at least the value. -/
def hexDigitsAux : Nat → Nat → List Char
  | 0, _ => []
  | fuel + 1, n => if n = 0 then [] else hexDigitsAux fuel (n / 16) ++ [hexChar (n % 16)]

/-- Lowercase hex of a number without padding (`0` for zero). -/
def hexStr (n : Nat) : String := if n = 0 then "0" else ⟨hexDigitsAux n n⟩

/-- One 16-bit group as four zero-padded lowercase hex digits. -/
def hexGroup4 (g : Nat) : String :=
  ⟨[hexChar (g / 4096 % 16), hexChar (g / 256 % 16), hexChar (g / 16 % 16), hexChar (g % 16)]⟩

/-- The eight 16-bit groups of an IPv6 value, most significant first. -/
def v6Fields (v : Nat) : List Nat :=
  (List.range 8).map fun i => v / 2 ^ (16 * (7 - i)) % 2 ^ 16

/-- Modelled from the spec: the full zero-padded dashed form
`h1-h2-…-h8` (eight 4-hex-digit groups). -/
def fullDashForm (v : Nat) : String :=
  String.intercalate "-" ((v6Fields v).map hexGroup4)

/-- Length of the zero-group run starting at index `i`. -/
def zeroRunAt (fs : List Nat) (i : Nat) : Nat :=
  ((fs.drop i).takeWhile fun g => g == 0).length

/-- The leftmost longest run of ≥ 2 zero groups (the `::` compression rule
of the canonical IPv6 text). -/
def bestZeroRun (fs : List Nat) : Option (Nat × Nat) :=
  let best := (List.range fs.length).foldl
    (fun acc i => if 2 ≤ zeroRunAt fs i ∧ acc.2 < zeroRunAt fs i then (i, zeroRunAt fs i) else acc)
    (0, 0)
  if 2 ≤ best.2 then some best else none

/-- Modelled from the spec: the compressed dashed form, the address's
canonical text with `:` replaced by `-` (so the `::` compression becomes
`--`). -/
def compDashForm (v : Nat) : String :=
  let fs := v6Fields v
  match bestZeroRun fs with
  | none => String.intercalate "-" (fs.map hexStr)
  | some (s, l) =>
    String.intercalate "-" ((fs.take s).map hexStr) ++ "--" ++
      String.intercalate "-" ((fs.drop (s + l)).map hexStr)

/-- Modelled from the spec: the reversed nibble-dash form (32 single hex
nibbles, least significant first, dash-separated). -/
def revNibbleForm (v : Nat) : String :=
  String.intercalate "-" ((List.range 32).map fun i => ⟨[hexChar (v / 16 ^ i % 16)]⟩)

/-- Split a character list at its first `.`; `none` when there is none
(the `strings.IndexByte(ptr, '.')` idiom). -/
def splitFirstDot : List Char → Option (List Char × List Char)
  | [] => none
  | c :: cs =>
    if c = '.' then some ([], cs)
    else
      match splitFirstDot cs with
      | none => none
      | some (a, b) => some (c :: a, b)

/-- Modelled from the spec: `extractIPv6PTRPattern` is absent from the
sources (only its tests remain).  An IPv6 PTR embedding the address in the
full dashed, compressed dashed, or reversed nibble-dash encoding — each also
accepted as a dash-preceded suffix of the first label — yields the wildcard
of the suffix after the first dot, provided that suffix has at least two
labels.  Recognition is case-insensitive; IPv4 and v4-mapped addresses are
skipped. -/
def extractIPv6PTRPattern (ip : IPd) (ptr : String) : String :=
  if (to4 ip).isSome then ""
  else if ip.len ≠ 16 then ""
  else if ptr = "" then ""
  else
    match splitFirstDot ptr.data with
    | none => ""
    | some (first, suffix) =>
      if ¬ suffix.contains '.' then ""
      else
        let fl := first.map Char.toLower
        let forms := [(fullDashForm ip.v).data, (compDashForm ip.v).data, (revNibbleForm ip.v).data]
        if forms.any (fun f => fl == f || ('-' :: f).isSuffixOf fl) then
          "*." ++ String.mk suffix
        else ""

/-! ## Worker pool

`lookup.go` is absent from the sources (only its tests remain); the worker
pool and per-address lookup below are modelled from the spec: `K` workers
consume an `N`-capacity job queue filled with the addresses in order, each
job produces exactly one `LookupResult` published to an `N`-capacity result
channel, and the channel is closed only once every worker has exited — so an
observed result stream is a complete interleaving of the workers' output
sequences. -/

/-- Modelled from the spec: a resolver call returns candidate names, an
authoritative not-found, or a transport failure. -/
inductive ResolverOutcome where
  | ok (names : List String)
  | notFound
  | fail (msg : String)
  deriving DecidableEq, Repr

/-- Strip one trailing dot. -/
def stripTrailingDot (s : String) : String :=
  if s.endsWith "." then s.dropRight 1 else s

/-- Modelled from the spec: one lookup uses the first returned name with any
trailing dot removed, maps not-found to NXDOMAIN and keeps other failures in
the error field. -/
def lookupIP (resolve : IPd → ResolverOutcome) (ip : IPd) : LookupResult :=
  match resolve ip with
  | .ok names => ⟨ip, stripTrailingDot (names.headD ""), none⟩
  | .notFound => ⟨ip, "", none⟩
  | .fail e => ⟨ip, "", some e⟩

/-- Modelled from the spec: the jobs taken by worker `w` when job `j` of the
shared queue is picked up by worker `schedule j`; `i` is the index of the
first job of the remaining queue. -/
def workerJobs (schedule : Nat → Nat) (w : Nat) : List IPd → Nat → List IPd
  | [], _ => []
  | ip :: rest, i =>
    if schedule i = w then ip :: workerJobs schedule w rest (i + 1)
    else workerJobs schedule w rest (i + 1)

/-- The result sequence published by worker `w`, in the order produced. -/
def workerStream (resolve : IPd → ResolverOutcome) (schedule : Nat → Nat)
    (ips : List IPd) (w : Nat) : List LookupResult :=
  (workerJobs schedule w ips 0).map (lookupIP resolve)

/-- `out` is a complete interleaving of the sequences `ls`: the stream ends
only when every sequence is exhausted (the result channel is closed only
after all workers exit). -/
inductive Interleaving {α : Type} : List (List α) → List α → Prop where
  | done (ls : List (List α)) (h : ∀ l ∈ ls, l = []) : Interleaving ls []
  | step (ls : List (List α)) (i : Nat) (x : α) (rest : List α) (out : List α)
      (hi : ls[i]? = some (x :: rest)) (htail : Interleaving (ls.set i rest) out) :
      Interleaving ls (x :: out)

/-- Modelled from the spec: an admissible observed output stream of
`LookupWorkers(ctx, ips, K, resolver)` under job assignment `schedule`. -/
def LookupWorkersRun (resolve : IPd → ResolverOutcome) (ips : List IPd) (K : Nat)
    (schedule : Nat → Nat) (out : List LookupResult) : Prop :=
  Interleaving ((List.range K).map (workerStream resolve schedule ips)) out

/-! ## Semantic vocabulary -/

/-- The contiguous run of `n` addresses of `L` bytes starting at value `s`. -/
def consecRun (L s n : Nat) : List IPd :=
  (List.range n).map fun i => (⟨L, s + i⟩ : IPd)

/-- Two networks are disjoint when no canonical address lies in both. -/
def NetDisjoint (n1 n2 : NetB) : Prop :=
  ∀ x : IPd, Canon x → ¬ (netContains n1 x = true ∧ netContains n2 x = true)

/-- A network `nt` could be merged with its successor into one aligned block
exactly covering both value ranges: there are an aligned base and size whose
value interval is the union of the two blocks' value intervals. -/
def Mergeable (L : Nat) (n1 n2 : NetB) : Prop :=
  ∃ base c, c ≤ 8 * L ∧ 2 ^ c ∣ base ∧
    Set.Ico base (base + 2 ^ c) =
      Set.Ico n1.base (n1.base + 2 ^ (8 * L - n1.ones)) ∪
        Set.Ico n2.base (n2.base + 2 ^ (8 * L - n2.ones))

/-- Every emitted network of a cover is a well-formed aligned block over
width `8*L` whose Go `Contains` test, on canonical addresses, is exactly
membership of the value interval `[base, base + 2^hostbits)`. -/
def NetsIntervals (L : Nat) (nets : List NetB) : Prop :=
  ∀ nt ∈ nets, nt.nlen = L ∧ nt.ones ≤ 8 * L ∧ 2 ^ (8 * L - nt.ones) ∣ nt.base ∧
    ∀ x : IPd, Canon x →
      (netContains nt x = true ↔
        (x.len = L ∧ nt.base ≤ x.v ∧ x.v < nt.base + 2 ^ (8 * L - nt.ones)))

/-! # Theorems -/

/-! ## Trailing zeros and block-size selection -/

theorem tzNat_dvd (v : Nat) : 2 ^ tzNat v ∣ v := by
  induction v using tzNat.induct with
  | case1 => simp [tzNat]
  | case2 v h1 h2 => rw [tzNat]; simp [h1, h2]
  | case3 v h1 h2 ih =>
    rw [tzNat, dif_neg h1, if_neg h2, pow_succ]
    have h5 := mul_dvd_mul_right ih 2
    have h6 : v / 2 * 2 = v := by omega
    rwa [h6] at h5

theorem tzNat_not_dvd (v : Nat) (hv : v ≠ 0) : ¬ 2 ^ (tzNat v + 1) ∣ v := by
  induction v using tzNat.induct with
  | case1 => omega
  | case2 v h1 h2 =>
    rw [tzNat, dif_neg h1, if_pos h2]
    intro hd
    have h3 : (2 : Nat) ∣ v := dvd_trans (by norm_num : (2:Nat) ∣ 2 ^ (0 + 1)) hd
    omega
  | case3 v h1 h2 ih =>
    rw [tzNat, dif_neg h1, if_neg h2]
    intro hd
    refine ih (by omega) ?_
    rw [pow_succ] at hd
    have h4 : 2 ^ (tzNat (v / 2) + 1) * 2 ∣ v / 2 * 2 := by
      have h5 : v / 2 * 2 = v := by omega
      rw [h5]; exact hd
    exact (Nat.mul_dvd_mul_iff_right (by norm_num : (0:Nat) < 2)).mp h4

theorem dvd_of_le_trailingZeroBits (a : IPd) (b : Nat) (h : b ≤ trailingZeroBits a) :
    2 ^ b ∣ a.v := by
  unfold trailingZeroBits at h
  by_cases hz : a.v = 0
  · exact hz ▸ Dvd.intro 0 rfl
  · rw [if_neg hz] at h
    exact dvd_trans (pow_dvd_pow 2 h) (tzNat_dvd a.v)

theorem pickBitsFrom_spec (a r b : Nat) (hb : b ≤ a) (h2 : 2 ^ b ≤ r) :
    b ≤ pickBitsFrom a r b ∧ pickBitsFrom a r b ≤ a ∧ 2 ^ pickBitsFrom a r b ≤ r ∧
      (pickBitsFrom a r b = a ∨ r < 2 ^ (pickBitsFrom a r b + 1)) := by
  induction b using pickBitsFrom.induct a r with
  | case1 b hcond ih =>
    rw [pickBitsFrom, if_pos hcond]
    have := ih (by omega) hcond.2
    exact ⟨by omega, this.2.1, this.2.2.1, this.2.2.2⟩
  | case2 b hcond =>
    rw [pickBitsFrom, if_neg hcond]
    refine ⟨le_refl b, hb, h2, ?_⟩
    by_cases hba : b = a
    · exact Or.inl hba
    · exact Or.inr (by omega)

theorem pickBits_spec (a r : Nat) (hr : 1 ≤ r) :
    pickBits a r ≤ a ∧ 2 ^ pickBits a r ≤ r ∧
      (pickBits a r = a ∨ r < 2 ^ (pickBits a r + 1)) := by
  have := pickBitsFrom_spec a r 0 (Nat.zero_le a) (by simpa using hr)
  exact ⟨this.2.1, this.2.2.1, this.2.2.2⟩

/-! ## The expansion loop -/

theorem expandLoop_length_le (nlen h start maxIPs : Nat) (hm : 0 < maxIPs) :
    ∀ (fuel cur : Nat) (acc l : List IPd), acc.length < maxIPs →
      expandLoop nlen h start maxIPs fuel cur acc = some l → l.length ≤ maxIPs := by
  intro fuel
  induction fuel with
  | zero => intro cur acc l _ hsome; simp [expandLoop] at hsome
  | succ f ih =>
    intro cur acc l hlt hsome
    rw [expandLoop] at hsome
    by_cases hc : cur / 2 ^ h = start / 2 ^ h
    · rw [if_pos hc] at hsome
      simp only [List.length_append, List.length_cons, List.length_nil] at hsome
      by_cases hstop : 0 < maxIPs ∧ maxIPs ≤ acc.length + (0 + 1)
      · rw [if_pos hstop] at hsome
        cases hsome
        simp only [List.length_append, List.length_cons, List.length_nil]
        omega
      · rw [if_neg hstop] at hsome
        refine ih _ _ l ?_ hsome
        simp only [List.length_append, List.length_cons, List.length_nil]
        omega
    · rw [if_neg hc] at hsome
      cases hsome
      omega

theorem ParseCIDRs_of_sizePass_ok (cidrs : List CIDRArg) (maxIPs : Nat) (x : Nat × Bool)
    (h : sizePass cidrs 0 false = .ok x)
    (hcap : ¬ MaxSliceCap < parseAllocCap x.1 x.2 maxIPs) :
    ParseCIDRs cidrs maxIPs = expandPass maxIPs cidrs maxIPs [] := by
  unfold ParseCIDRs
  rw [h]
  show (if MaxSliceCap < parseAllocCap x.1 x.2 maxIPs then Except.ok ExpandResult.panics
    else expandPass maxIPs cidrs maxIPs []) = _
  rw [if_neg hcap]

theorem ExpandCIDR_length_le_limit (c : CIDRArg) (limit : Nat) (ips : List IPd)
    (hl : 0 < limit) (h : ExpandCIDR c limit = .ok (.ips ips)) : ips.length ≤ limit := by
  cases c with
  | bad s => simp [ExpandCIDR] at h
  | ok nlen ones base =>
    by_cases hcap : MaxSliceCap < expandAllocSize nlen ones limit
    · have heq : ExpandCIDR (.ok nlen ones base) limit = .ok ExpandResult.panics := by
        show (if MaxSliceCap < expandAllocSize nlen ones limit then Except.ok ExpandResult.panics
          else _) = _
        rw [if_pos hcap]
      rw [heq] at h
      simp at h
    · have heq : ExpandCIDR (.ok nlen ones base) limit
          = .ok (match expandLoop nlen (8 * nlen - ones)
              (base / 2 ^ (8 * nlen - ones) * 2 ^ (8 * nlen - ones)) limit
              (limit + 2 ^ (8 * nlen - ones) + 1)
              (base / 2 ^ (8 * nlen - ones) * 2 ^ (8 * nlen - ones)) [] with
            | some l => ExpandResult.ips l
            | none => ExpandResult.diverges) := by
        show (if MaxSliceCap < expandAllocSize nlen ones limit then Except.ok ExpandResult.panics
          else _) = _
        rw [if_neg hcap]
      rw [heq] at h
      cases hE : expandLoop nlen (8 * nlen - ones)
          (base / 2 ^ (8 * nlen - ones) * 2 ^ (8 * nlen - ones)) limit
          (limit + 2 ^ (8 * nlen - ones) + 1)
          (base / 2 ^ (8 * nlen - ones) * 2 ^ (8 * nlen - ones)) [] with
      | none => rw [hE] at h; simp at h
      | some l =>
        rw [hE] at h
        simp only [Except.ok.injEq, ExpandResult.ips.injEq] at h
        subst h
        exact expandLoop_length_le nlen (8 * nlen - ones)
          (base / 2 ^ (8 * nlen - ones) * 2 ^ (8 * nlen - ones))
          limit hl _ _ _ l (by simpa using hl) hE

theorem expandPass_length (maxIPs : Nat) (hm : 0 < maxIPs) :
    ∀ (cidrs : List CIDRArg) (remaining : Nat) (acc l : List IPd),
      expandPass maxIPs cidrs remaining acc = .ok (.ips l) →
      l.length ≤ acc.length + remaining := by
  intro cidrs
  induction cidrs with
  | nil =>
    intro remaining acc l h
    unfold expandPass at h
    simp only [Except.ok.injEq, ExpandResult.ips.injEq] at h
    subst h
    exact Nat.le_add_right _ _
  | cons c rest ih =>
    intro remaining acc l h
    unfold expandPass at h
    by_cases hz : 0 < maxIPs ∧ remaining = 0
    · rw [if_pos hz] at h
      simp only [Except.ok.injEq, ExpandResult.ips.injEq] at h
      subst h
      exact Nat.le_add_right _ _
    · rw [if_neg hz] at h
      have hr : remaining ≠ 0 := by
        intro h0; exact hz ⟨hm, h0⟩
      rw [if_pos hm] at h
      cases hE : ExpandCIDR c remaining with
      | error e =>
        simp only [hE, Bind.bind, Except.bind] at h
        simp at h
      | ok r =>
        simp only [hE, Bind.bind, Except.bind] at h
        cases r with
        | panics => simp at h
        | diverges => simp at h
        | ips ips =>
          have h2 : expandPass maxIPs rest
              (if 0 < maxIPs then remaining - ips.length else remaining) (acc ++ ips)
              = Except.ok (.ips l) := h
          rw [if_pos hm] at h2
          have hlen := ExpandCIDR_length_le_limit c remaining ips (by omega) hE
          have := ih (remaining - ips.length) (acc ++ ips) l h2
          simp only [List.length_append] at this
          omega

theorem parseCIDRs_budget_le (cidrs : List CIDRArg) (maxIPs : Nat) (l : List IPd)
    (hm : 0 < maxIPs) (h : ParseCIDRs cidrs maxIPs = .ok (.ips l)) :
    l.length ≤ maxIPs := by
  cases hs : sizePass cidrs 0 false with
  | error e =>
    unfold ParseCIDRs at h
    rw [hs] at h
    simp [Bind.bind, Except.bind] at h
  | ok x =>
    by_cases hcap : MaxSliceCap < parseAllocCap x.1 x.2 maxIPs
    · have heq : ParseCIDRs cidrs maxIPs = .ok ExpandResult.panics := by
        unfold ParseCIDRs
        rw [hs]
        show (if MaxSliceCap < parseAllocCap x.1 x.2 maxIPs then Except.ok ExpandResult.panics
          else expandPass maxIPs cidrs maxIPs []) = _
        rw [if_pos hcap]
      rw [heq] at h
      simp at h
    · rw [ParseCIDRs_of_sizePass_ok cidrs maxIPs x hs hcap] at h
      have := expandPass_length maxIPs hm cidrs maxIPs [] l h
      simpa using this

/-- Claim C3 (code bug): with no budget (`maxIPs = 0`) and a huge range
(`2001:db8::/64`, 64 host bits) the clamp in `ExpandCIDR` is skipped — it
requires `maxIPs > 0` — so `allocSize` stays `SentinelSize = 2^64 - 1` and
`make([]net.IP, 0, allocSize)` at cidr.go:54 panics before any address is
produced; `ParseCIDRs` reaches that call, so the program crashes instead of
applying any safety cap (the 65,536 figure only sizes the outer slice).
With a positive budget the cap does hold: at most `maxIPs` addresses. -/
theorem parseCIDRs_nocap_panics :
    ParseCIDRs [.ok 16 64 (0x20010db8 * 2 ^ 96)] 0 = .ok ExpandResult.panics ∧
      ExpandCIDR (.ok 16 64 (0x20010db8 * 2 ^ 96)) 0 = .ok ExpandResult.panics ∧
      ∀ (cidrs : List CIDRArg) (maxIPs : Nat) (l : List IPd), 0 < maxIPs →
        ParseCIDRs cidrs maxIPs = .ok (.ips l) → l.length ≤ maxIPs := by
  refine ⟨by rfl, by rfl, ?_⟩
  intro cidrs maxIPs l hm h
  exact parseCIDRs_budget_le cidrs maxIPs l hm h

/-- Claim C3, witness: the `/64` run with no budget reaches the panic, and
two `/30` blocks under budget 5 yield exactly 5 addresses, within budget. -/
theorem parseCIDRs_nocap_panics_witness :
    ParseCIDRs [.ok 16 64 (0x20010db8 * 2 ^ 96)] 0 = .ok ExpandResult.panics ∧
      (0 < 5 ∧ ParseCIDRs [.ok 4 30 3232235776, .ok 4 30 167772160] 5
          = .ok (.ips [⟨4, 3232235776⟩, ⟨4, 3232235777⟩, ⟨4, 3232235778⟩, ⟨4, 3232235779⟩,
            ⟨4, 167772160⟩])) ∧
      ([(⟨4, 3232235776⟩ : IPd), ⟨4, 3232235777⟩, ⟨4, 3232235778⟩, ⟨4, 3232235779⟩,
          ⟨4, 167772160⟩]).length ≤ 5 :=
  ⟨parseCIDRs_nocap_panics.1, ⟨by norm_num, by rfl⟩,
    parseCIDRs_nocap_panics.2.2 [.ok 4 30 3232235776, .ok 4 30 167772160] 5 _ (by norm_num)
      (by rfl)⟩

/-! ## Invalid CIDR handling -/

theorem sizePass_invalid :
    ∀ (cidrs : List CIDRArg) (total : Nat) (huge : Bool),
      (∃ s, CIDRArg.bad s ∈ cidrs) →
      ∃ s2, sizePass cidrs total huge
        = .error ("invalid CIDR \"" ++ s2 ++ "\": invalid CIDR address: " ++ s2) := by
  intro cidrs
  induction cidrs with
  | nil => intro total huge h; simp at h
  | cons c rest ih =>
    intro total huge hmem
    cases c with
    | bad s => exact ⟨s, rfl⟩
    | ok nlen ones base =>
      obtain ⟨s, hs⟩ := hmem
      have hrest : ∃ s2, CIDRArg.bad s2 ∈ rest := by
        rcases List.mem_cons.mp hs with h1 | h1
        · cases h1
        · exact ⟨s, h1⟩
      show ∃ s2, (do
        let size ← CIDRSize (.ok nlen ones base)
        if size = SentinelSize then sizePass rest total true
        else if huge then sizePass rest total huge
        else
          let newTotal := (total + size) % 2 ^ 64
          if newTotal < total then sizePass rest total true
          else sizePass rest newTotal huge) = _
      cases hCS : CIDRSize (.ok nlen ones base) with
      | error e =>
        exfalso
        rcases le_or_lt 64 (8 * nlen - ones) with h64 | h64
        · rw [CIDRSize, if_pos h64] at hCS
          exact absurd hCS (by simp)
        · rw [CIDRSize, if_neg (by omega)] at hCS
          exact absurd hCS (by simp)
      | ok size =>
        simp only [hCS, Bind.bind, Except.bind]
        by_cases h1 : size = SentinelSize
        · rw [if_pos h1]; exact ih total true hrest
        · rw [if_neg h1]
          by_cases h2 : huge
          · rw [if_pos h2]; exact ih total huge hrest
          · rw [if_neg h2]
            by_cases h3 : (total + size) % 2 ^ 64 < total
            · rw [if_pos h3]; exact ih total true hrest
            · rw [if_neg h3]; exact ih ((total + size) % 2 ^ 64) huge hrest

/-- Claim C8: one malformed CIDR anywhere in the argument list makes
`ParseCIDRs` fail with an error containing the literal `invalid CIDR`, and
no address list — in particular no partial expansion — is returned. -/
theorem parseCIDRs_invalid_fails (cidrs : List CIDRArg) (maxIPs : Nat) (s : String)
    (hmem : CIDRArg.bad s ∈ cidrs) :
    ∃ msg, ParseCIDRs cidrs maxIPs = .error msg ∧
      ∃ pre post, msg = pre ++ "invalid CIDR" ++ post := by
  obtain ⟨s2, hs2⟩ := sizePass_invalid cidrs 0 false ⟨s, hmem⟩
  refine ⟨"invalid CIDR \"" ++ s2 ++ "\": invalid CIDR address: " ++ s2, ?_,
    "", " \"" ++ s2 ++ "\": invalid CIDR address: " ++ s2, ?_⟩
  · unfold ParseCIDRs
    rw [hs2]
    rfl
  · rw [String.empty_append]
    rw [show "invalid CIDR \"" = "invalid CIDR" ++ " \"" from by decide]
    simp only [String.append_assoc]

/-- Claim C8, witness: a good block followed by a malformed string fails. -/
theorem parseCIDRs_invalid_fails_witness :
    (CIDRArg.bad "not-a-cidr" ∈ [CIDRArg.ok 4 30 3232235776, CIDRArg.bad "not-a-cidr"]) ∧
      ∃ msg, ParseCIDRs [CIDRArg.ok 4 30 3232235776, CIDRArg.bad "not-a-cidr"] 0 = .error msg ∧
        ∃ pre post, msg = pre ++ "invalid CIDR" ++ post :=
  ⟨by decide,
    parseCIDRs_invalid_fails [CIDRArg.ok 4 30 3232235776, CIDRArg.bad "not-a-cidr"] 0
      "not-a-cidr" (by decide)⟩

/-! ## Greedy cover: supporting lemmas -/

theorem to4norm_canon (a : IPd) (h : a.len = 4 ∨ (a.len = 16 ∧ ¬ isV4mapped a)) :
    to4norm a = a := by
  unfold to4norm to4
  rcases h with h4 | ⟨h16, hm⟩
  · rw [if_pos h4]; rfl
  · rw [if_neg (by omega), if_neg (by simpa using hm)]; rfl

theorem div_eq_div_iff_Ico (b s0 x : Nat) (hdvd : 2 ^ b ∣ s0) :
    x / 2 ^ b = s0 / 2 ^ b ↔ (s0 ≤ x ∧ x < s0 + 2 ^ b) := by
  obtain ⟨q, hq⟩ := hdvd
  subst hq
  have hp : 0 < 2 ^ b := Nat.pos_pow_of_pos _ (by norm_num)
  rw [Nat.mul_div_cancel_left q hp]
  constructor
  · intro h
    constructor
    · calc 2 ^ b * q = x / 2 ^ b * 2 ^ b := by rw [h]; ring
      _ ≤ x := Nat.div_mul_le_self x (2 ^ b)
    · have h2 : x / 2 ^ b < q + 1 := by omega
      have := (Nat.div_lt_iff_lt_mul hp).mp h2
      calc x < (q + 1) * 2 ^ b := this
      _ = 2 ^ b * q + 2 ^ b := by ring
  · rintro ⟨h1, h2⟩
    have hge : q ≤ x / 2 ^ b := by
      refine (Nat.le_div_iff_mul_le hp).mpr ?_
      rw [Nat.mul_comm]
      omega
    have hlt : x / 2 ^ b < q + 1 := by
      refine (Nat.div_lt_iff_lt_mul hp).mpr ?_
      rw [Nat.mul_comm, Nat.mul_add, Nat.mul_one]
      omega
    omega

theorem netContains_canon (L s0 b : Nat) (x : IPd)
    (hcs : Canon ⟨L, s0⟩) (hb : b ≤ 8 * L) (hx : Canon x) :
    (netContains ⟨L, s0, 8 * L - b⟩ x = true) ↔
      (x.len = L ∧ x.v / 2 ^ b = s0 / 2 ^ b) := by
  have h1 : to4norm ⟨L, s0⟩ = ⟨L, s0⟩ := to4norm_canon _ hcs.1
  have h2 : to4norm x = x := to4norm_canon _ hx.1
  have hsub : 8 * L - (8 * L - b) = b := by omega
  simp only [netContains, h1, h2, lt_irrefl, if_false, Bool.and_eq_true, beq_iff_eq]
  rw [hsub]

theorem trailingZeroBits_le (L s : Nat) (hs : s < 2 ^ (8 * L)) :
    trailingZeroBits ⟨L, s⟩ ≤ 8 * L := by
  have hv : (⟨L, s⟩ : IPd).v = s := rfl
  have hbits : (⟨L, s⟩ : IPd).bits = 8 * L := rfl
  unfold trailingZeroBits
  rw [hv, hbits]
  by_cases h0 : s = 0
  · rw [if_pos h0]
  · rw [if_neg h0]
    have hdvd := tzNat_dvd s
    have hle : 2 ^ tzNat s ≤ s := Nat.le_of_dvd (Nat.pos_of_ne_zero h0) hdvd
    by_contra hcon
    push_neg at hcon
    have : 2 ^ (8 * L) ≤ 2 ^ tzNat s := Nat.pow_le_pow_right (by norm_num) (by omega)
    omega

theorem range_eq_cons (n : Nat) (h1 : 1 ≤ n) :
    List.range n = 0 :: (List.range (n - 1)).map Nat.succ := by
  rcases Nat.exists_eq_add_of_le h1 with ⟨m, hm⟩
  subst hm
  rw [Nat.add_comm]
  simp [List.range_succ_eq_map]

theorem consecRun_length (L s n : Nat) : (consecRun L s n).length = n := by
  simp [consecRun]

theorem consecRun_cons (L s n : Nat) (hn : 1 ≤ n) :
    consecRun L s n = ⟨L, s⟩ :: consecRun L (s + 1) (n - 1) := by
  unfold consecRun
  rw [range_eq_cons n hn, List.map_cons, List.map_map]
  congr 1
  apply List.map_congr_left
  intro i _
  show (⟨L, s + (i + 1)⟩ : IPd) = ⟨L, s + 1 + i⟩
  congr 1
  omega

theorem consecRun_drop (L : Nat) :
    ∀ (k s n : Nat), (consecRun L s n).drop k = consecRun L (s + k) (n - k) := by
  intro k
  induction k with
  | zero => intro s n; simp
  | succ k ih =>
    intro s n
    rcases Nat.eq_zero_or_pos n with hn0 | hn1
    · subst hn0
      show ([] : List IPd).drop (k + 1) = consecRun L (s + (k + 1)) (0 - (k + 1))
      simp [consecRun]
    · rw [consecRun_cons L s n hn1, List.drop_succ_cons, ih]
      congr 1 <;> omega

theorem contigLoop_cons (tb : Nat) (ip : IPd) (rest : List IPd) :
    contigLoop tb (ip :: rest)
      = ⟨ip.len, ip.v, tb - pickBits (trailingZeroBits ip) (rest.length + 1)⟩ ::
        contigLoop tb (rest.drop (2 ^ pickBits (trailingZeroBits ip) (rest.length + 1) - 1)) := by
  rw [contigLoop]

theorem pow2_eq_pow2_add_pow2 (c b1 b2 : Nat) (h : 2 ^ c = 2 ^ b1 + 2 ^ b2) :
    b1 = b2 ∧ c = b1 + 1 := by
  have main : ∀ x y : Nat, x ≤ y → 2 ^ c = 2 ^ x + 2 ^ y → x = y := by
    intro x y hxy heq
    by_contra hne
    have hxy2 : x < y := lt_of_le_of_ne hxy hne
    have hyx : x + (y - x) = y := by omega
    have h2 : 2 ^ c = 2 ^ x * (1 + 2 ^ (y - x)) := by
      rw [Nat.mul_add, Nat.mul_one, ← pow_add, hyx]; exact heq
    have hone : 1 ≤ y - x := by omega
    have hoddrep : 2 ^ (y - x) = 2 * 2 ^ (y - x - 1) := by
      rw [← pow_succ']
      congr 1
      omega
    have hdvd : (1 + 2 ^ (y - x)) ∣ 2 ^ c := ⟨2 ^ x, by rw [h2]; ring⟩
    obtain ⟨k, hk, hkeq⟩ := (Nat.dvd_prime_pow Nat.prime_two).mp hdvd
    rcases Nat.eq_zero_or_pos k with hk0 | hk1
    · rw [hk0, pow_zero] at hkeq
      have h1p : 1 ≤ 2 ^ (y - x) := Nat.one_le_two_pow
      omega
    · have heven : (2:Nat) ∣ 2 ^ k := dvd_pow_self 2 (by omega)
      rw [← hkeq] at heven
      omega
  rcases le_total b1 b2 with hle | hle
  · have hb := main b1 b2 hle h
    subst hb
    refine ⟨rfl, ?_⟩
    have h2 : 2 ^ c = 2 ^ (b1 + 1) := by
      rw [pow_succ]
      omega
    exact Nat.pow_right_injective (le_refl 2) h2
  · have hb := (main b2 b1 hle (by rw [Nat.add_comm] at h; exact h)).symm
    subst hb
    refine ⟨rfl, ?_⟩
    have h2 : 2 ^ c = 2 ^ (b1 + 1) := by
      rw [pow_succ]
      omega
    exact Nat.pow_right_injective (le_refl 2) h2

/-! ## Greedy cover: the master correctness theorem -/

theorem contigLoop_master (L : Nat) :
    ∀ (n s : Nat), (∀ i, i < n → Canon ⟨L, s + i⟩) → s + n ≤ 2 ^ (8 * L) →
      NetsIntervals L (contigLoop (8 * L) (consecRun L s n)) ∧
      (∀ v : Nat, (∃ nt ∈ contigLoop (8 * L) (consecRun L s n),
          nt.base ≤ v ∧ v < nt.base + 2 ^ (8 * L - nt.ones)) ↔ (s ≤ v ∧ v < s + n)) ∧
      ((contigLoop (8 * L) (consecRun L s n)).Chain'
        fun n1 n2 => n2.base = n1.base + 2 ^ (8 * L - n1.ones)) ∧
      ((contigLoop (8 * L) (consecRun L s n)).Chain' fun n1 n2 => ¬ Mergeable L n1 n2) ∧
      (contigLoop (8 * L) (consecRun L s n) = [] ↔ n = 0) ∧
      (∀ nt0, (contigLoop (8 * L) (consecRun L s n)).head? = some nt0 → nt0.base = s) := by
  intro n
  induction n using Nat.strong_induction_on with
  | _ n ih =>
    intro s hcanon hrange
    rcases Nat.eq_zero_or_pos n with hn0 | hn1
    · subst hn0
      have hnil : consecRun L s 0 = [] := by simp [consecRun]
      rw [hnil]
      have hnil2 : contigLoop (8 * L) [] = [] := by rw [contigLoop]
      rw [hnil2]
      refine ⟨?_, ?_, ?_, ?_, ?_, ?_⟩
      · intro nt hnt; cases hnt
      · intro v
        constructor
        · rintro ⟨nt, hnt, _⟩; cases hnt
        · intro hv; omega
      · exact List.chain'_nil
      · exact List.chain'_nil
      · simp
      · intro nt0 h0; cases h0
    · -- n ≥ 1
      have hcons := consecRun_cons L s n hn1
      have hlen : (consecRun L (s + 1) (n - 1)).length + 1 = n := by
        rw [consecRun_length]; omega
      have hCs : Canon ⟨L, s⟩ := by
        have := hcanon 0 (by omega)
        simpa using this
      -- abbreviations
      have hsb : s < 2 ^ (8 * L) := by omega
      set a := trailingZeroBits ⟨L, s⟩ with ha
      set b := pickBits a n with hbdef
      obtain ⟨hba, h2bn, hgreedy⟩ := pickBits_spec a n hn1
      rw [← hbdef] at hba h2bn hgreedy
      have halign : 2 ^ b ∣ s := dvd_of_le_trailingZeroBits ⟨L, s⟩ b hba
      have hb8L : b ≤ 8 * L := le_trans hba (trailingZeroBits_le L s hsb)
      have h2b1 : 1 ≤ 2 ^ b := Nat.one_le_two_pow
      have hstep : contigLoop (8 * L) (consecRun L s n)
          = ⟨L, s, 8 * L - b⟩ :: contigLoop (8 * L) (consecRun L (s + 2 ^ b) (n - 2 ^ b)) := by
        rw [hcons, contigLoop_cons]
        rw [hlen]
        have hdrop : (consecRun L (s + 1) (n - 1)).drop (2 ^ b - 1)
            = consecRun L (s + 2 ^ b) (n - 2 ^ b) := by
          rw [consecRun_drop]
          congr 1 <;> omega
        rw [hdrop]
      have hIH := ih (n - 2 ^ b) (by omega) (s + 2 ^ b)
        (by
          intro i hi
          have := hcanon (2 ^ b + i) (by omega)
          have heq : s + (2 ^ b + i) = s + 2 ^ b + i := by omega
          rwa [heq] at this)
        (by omega)
      obtain ⟨ihInt, ihUnion, ihAdj, ihMerge, ihNil, ihHead⟩ := hIH
      set nets2 := contigLoop (8 * L) (consecRun L (s + 2 ^ b) (n - 2 ^ b)) with hnets2
      have hsubb : 8 * L - (8 * L - b) = b := by omega
      -- the head block's Contains is the interval [s, s + 2^b)
      have hheadInt : ∀ x : IPd, Canon x →
          (netContains ⟨L, s, 8 * L - b⟩ x = true ↔
            (x.len = L ∧ s ≤ x.v ∧ x.v < s + 2 ^ b)) := by
        intro x hx
        rw [netContains_canon L s b x hCs hb8L hx]
        constructor
        · rintro ⟨hxl, hdiv⟩
          exact ⟨hxl, (div_eq_div_iff_Ico b s x.v halign).mp hdiv⟩
        · rintro ⟨hxl, hiv⟩
          exact ⟨hxl, (div_eq_div_iff_Ico b s x.v halign).mpr hiv⟩
      rw [hstep]
      refine ⟨?_, ?_, ?_, ?_, ?_, ?_⟩
      · -- NetsIntervals
        intro nt hnt
        rcases List.mem_cons.mp hnt with hh1 | hh1
        · subst hh1
          refine ⟨rfl, by show 8 * L - b ≤ 8 * L; omega, ?_, ?_⟩
          · show 2 ^ (8 * L - (8 * L - b)) ∣ s
            rw [hsubb]; exact halign
          · intro x hx
            dsimp only
            rw [hsubb]
            exact hheadInt x hx
        · exact ihInt nt hh1
      · -- union of intervals
        intro v
        constructor
        · rintro ⟨nt, hnt, hv1, hv2⟩
          rcases List.mem_cons.mp hnt with hh1 | hh1
          · subst hh1
            dsimp only at hv1 hv2
            rw [hsubb] at hv2
            omega
          · have := (ihUnion v).mp ⟨nt, hh1, hv1, hv2⟩
            omega
        · intro hv
          by_cases hv3 : v < s + 2 ^ b
          · refine ⟨⟨L, s, 8 * L - b⟩, List.mem_cons_self _ _, by dsimp only; omega, ?_⟩
            dsimp only
            rw [hsubb]
            omega
          · obtain ⟨nt, hnt, hv4⟩ := (ihUnion v).mpr (by omega)
            exact ⟨nt, List.mem_cons_of_mem _ hnt, hv4⟩
      · -- adjacency chain
        cases hn2 : nets2 with
        | nil => simp [List.chain'_singleton]
        | cons nt2 rest2 =>
          rw [List.chain'_cons]
          constructor
          · have := ihHead nt2 (by rw [hn2]; rfl)
            simp only
            rw [hsubb]
            exact this
          · rw [← hn2]; exact ihAdj
      · -- no two adjacent blocks are mergeable
        cases hn2 : nets2 with
        | nil => simp [List.chain'_singleton]
        | cons nt2 rest2 =>
          rw [List.chain'_cons]
          constructor
          · -- head and nt2
            have hbase2 : nt2.base = s + 2 ^ b := ihHead nt2 (by rw [hn2]; rfl)
            have hnt2mem : nt2 ∈ nets2 := by rw [hn2]; exact List.mem_cons_self _ _
            obtain ⟨hlen2, hones2, halign2, hint2⟩ := ihInt nt2 hnt2mem
            set b2 := 8 * L - nt2.ones with hb2def
            have h1b2 : 1 ≤ 2 ^ b2 := Nat.one_le_two_pow
            have hinrange : nt2.base + 2 ^ b2 ≤ s + n := by
              have hm := (ihUnion (nt2.base + 2 ^ b2 - 1)).mp
                ⟨nt2, hnt2mem, by omega, by rw [← hb2def]; omega⟩
              omega
            rintro ⟨mbase, c, hc8, hcal, hico⟩
            have hido : Set.Ico nt2.base (nt2.base + 2 ^ b2)
                = Set.Ico (s + 2 ^ b) (s + 2 ^ b + 2 ^ b2) := by
              rw [hbase2]
            have hun : Set.Ico s (s + 2 ^ b) ∪ Set.Ico (s + 2 ^ b) (s + 2 ^ b + 2 ^ b2)
                = Set.Ico s (s + 2 ^ b + 2 ^ b2) :=
              Set.Ico_union_Ico_eq_Ico (by omega) (by omega)
            rw [hsubb] at hico
            rw [hido, hun] at hico
            have h1c : 1 ≤ 2 ^ c := Nat.one_le_two_pow
            have hends := (Set.Ico_eq_Ico_iff (Or.inl (by omega))).mp hico
            obtain ⟨hbeq, hceq⟩ := hends
            have h2ceq : 2 ^ c = 2 ^ b + 2 ^ b2 := by omega
            obtain ⟨hbb2, hcb1⟩ := pow2_eq_pow2_add_pow2 c b b2 h2ceq
            -- so 2^(b+1) divides s
            have hdvd1 : 2 ^ (b + 1) ∣ s := by
              rw [← hcb1, ← hbeq]
              exact hcal
            rcases hgreedy with heqa | hlt2
            · -- b = alignment
              by_cases hs0 : s = 0
              · -- alignment is the full width, the head block是 whole space
                have haL : a = 8 * L := by
                  rw [ha, hs0]
                  unfold trailingZeroBits
                  rfl
                have hb8 : b = 8 * L := by omega
                have : 2 ^ (8 * L) < 2 ^ (8 * L) := by
                  calc 2 ^ (8 * L) = 0 + 2 ^ b := by rw [hb8]; omega
                  _ ≤ nt2.base := by rw [hbase2, hs0]
                  _ < nt2.base + 2 ^ b2 := by omega
                  _ ≤ s + n := hinrange
                  _ ≤ 2 ^ (8 * L) := hrange
                omega
              · have htz : a = tzNat s := by
                  rw [ha]
                  unfold trailingZeroBits
                  rw [if_neg hs0]
                exact tzNat_not_dvd s hs0 (by rw [← htz, ← heqa]; exact hdvd1)
            · -- the budget limited the block: 2^(b+1) > n
              have : 2 ^ (b + 1) ≤ n := by
                have := hinrange
                rw [hbase2, ← hbb2] at this
                have hp : 2 ^ (b + 1) = 2 ^ b + 2 ^ b := by rw [pow_succ]; omega
                omega
              omega
          · rw [← hn2]; exact ihMerge
      · -- nonempty
        constructor
        · intro hfalse; cases hfalse
        · omega
      · intro nt0 h0
        cases h0
        rfl

/-! ## Contiguous runs -/

theorem consecRun_mem (L s n : Nat) (x : IPd) :
    x ∈ consecRun L s n ↔ (x.len = L ∧ s ≤ x.v ∧ x.v < s + n) := by
  simp only [consecRun, List.mem_map, List.mem_range]
  constructor
  · rintro ⟨i, hi, rfl⟩
    refine ⟨rfl, ?_, ?_⟩ <;> dsimp only <;> omega
  · rintro ⟨hl, h1, h2⟩
    refine ⟨x.v - s, by omega, ?_⟩
    obtain ⟨xl, xv⟩ := x
    simp only at hl h1 h2 ⊢
    subst hl
    congr 1
    omega

theorem findContiguousRuns_shape (z : IPd) :
    ∀ (zs : List IPd), ∃ run more, findContiguousRuns (z :: zs) = (z :: run) :: more := by
  intro zs
  induction zs generalizing z with
  | nil => exact ⟨[], [], rfl⟩
  | cons y rest ih =>
    obtain ⟨run, more, heq⟩ := ih y
    rw [findContiguousRuns, heq]
    dsimp only
    by_cases hip : ipEqual (incIP z) y
    · rw [if_pos hip]
      exact ⟨y :: run, more, rfl⟩
    · rw [if_neg hip]
      exact ⟨[], (y :: run) :: more, rfl⟩

theorem findContiguousRuns_flatten :
    ∀ l : List IPd, (findContiguousRuns l).flatten = l := by
  intro l
  induction l with
  | nil => rfl
  | cons x xs ih =>
    cases xs with
    | nil => rfl
    | cons y rest =>
      obtain ⟨run, more, heq⟩ := findContiguousRuns_shape y rest
      rw [findContiguousRuns, heq]
      dsimp only
      rw [heq] at ih
      simp only [List.flatten_cons] at ih
      by_cases hip : ipEqual (incIP x) y
      · rw [if_pos hip]
        simp only [List.flatten_cons, List.cons_append]
        exact congrArg (List.cons x) ih
      · rw [if_neg hip]
        simp only [List.flatten_cons, List.nil_append, List.cons_append]
        exact congrArg (List.cons x) ih

theorem findContiguousRuns_chain (R : IPd → IPd → Prop) :
    ∀ (l : List IPd), l.Chain' R → ∀ run ∈ findContiguousRuns l,
      run.Chain' (fun p q => R p q ∧ ipEqual (incIP p) q = true) := by
  intro l
  induction l with
  | nil => intro _ run hrun; cases hrun
  | cons x xs ih =>
    cases xs with
    | nil =>
      intro _ run hrun
      rcases List.mem_singleton.mp hrun with rfl
      exact List.chain'_singleton _
    | cons y rest =>
      intro hchain run hrun
      have hxy : R x y := (List.chain'_cons.mp hchain).1
      have htail : (y :: rest).Chain' R := (List.chain'_cons.mp hchain).2
      obtain ⟨run1, more, heq⟩ := findContiguousRuns_shape y rest
      rw [findContiguousRuns, heq] at hrun
      dsimp only at hrun
      have hihall := ih htail
      rw [heq] at hihall
      by_cases hip : ipEqual (incIP x) y
      · rw [if_pos hip] at hrun
        rcases List.mem_cons.mp hrun with rfl | hmem
        · have h1 := hihall (y :: run1) (List.mem_cons_self _ _)
          exact List.chain'_cons.mpr ⟨⟨hxy, hip⟩, h1⟩
        · exact hihall run (List.mem_cons_of_mem _ hmem)
      · rw [if_neg hip] at hrun
        rcases List.mem_cons.mp hrun with rfl | hmem
        · exact List.chain'_singleton _
        · exact hihall run hmem

theorem run_eq_consecRun (L : Nat) :
    ∀ (run : List IPd), (∀ x ∈ run, x.len = L) →
      run.Chain' (fun p q => q.v = p.v + 1) →
      ∀ x0 rest0, run = x0 :: rest0 → run = consecRun L x0.v run.length := by
  intro run
  induction run with
  | nil => intro _ _ x0 rest0 h; cases h
  | cons x xs ih =>
    intro hlen hchain x0 rest0 hx
    have hx0 : x = x0 := by injection hx
    subst hx0
    cases xs with
    | nil =>
      have hxl : x.len = L := hlen x (List.mem_singleton_self _)
      show [x] = consecRun L x.v 1
      have h1 : consecRun L x.v 1 = [⟨L, x.v + 0⟩] := rfl
      rw [h1]
      obtain ⟨xl, xv⟩ := x
      simp only at hxl
      simp [hxl]
    | cons y ys =>
      have hyy : y.v = x.v + 1 := (List.chain'_cons.mp hchain).1
      have htail := (List.chain'_cons.mp hchain).2
      have hih := ih (fun z hz => hlen z (List.mem_cons_of_mem _ hz)) htail y ys rfl
      have hxl : x.len = L := hlen x (List.mem_cons_self _ _)
      rw [consecRun_cons L x.v ((x :: y :: ys).length) (by simp)]
      congr 1
      · obtain ⟨xl, xv⟩ := x
        simp only at hxl
        rw [hxl]
      · have hl2 : (x :: y :: ys).length - 1 = (y :: ys).length := by simp
        rw [hl2, ← hyy]
        exact hih

theorem inc_equal_succ (L : Nat) (p q : IPd)
    (hpl : p.len = L) (hql : q.len = L) (hpb : p.v < 2 ^ (8 * L))
    (hqcanon : q.len = 4 ∨ (q.len = 16 ∧ ¬ isV4mapped q))
    (hlt : p.v < q.v) (heq : ipEqual (incIP p) q = true) : q.v = p.v + 1 := by
  have hinc : incIP p = ⟨L, (p.v + 1) % 2 ^ (8 * L)⟩ := by
    unfold incIP IPd.bits
    rw [hpl]
  set m := (p.v + 1) % 2 ^ (8 * L) with hm
  rw [hinc] at heq
  unfold ipEqual at heq
  have hqn : to4norm q = q := to4norm_canon q hqcanon
  rw [hqn] at heq
  have hmq : m = q.v := by
    rcases hqcanon with h4 | ⟨h16, hnm⟩
    · have hL4 : L = 4 := by rw [← hql]; exact h4
      subst hL4
      have hn : to4norm ⟨4, m⟩ = ⟨4, m⟩ := to4norm_canon _ (Or.inl rfl)
      rw [hn] at heq
      have h5 := eq_of_beq heq
      obtain ⟨ql, qv⟩ := q
      cases h5
      rfl
    · have hL16 : L = 16 := by rw [← hql]; exact h16
      subst hL16
      by_cases hmm : isV4mapped ⟨16, m⟩
      · exfalso
        have hto4 : to4norm ⟨(16:Nat), m⟩ = ⟨4, m % 2 ^ 32⟩ := by
          unfold to4norm to4
          rw [if_neg (by norm_num), if_pos hmm]
          rfl
        rw [hto4] at heq
        have h5 := eq_of_beq heq
        have hlen2 := congrArg IPd.len h5
        simp only at hlen2
        omega
      · have hto4 : to4norm ⟨(16:Nat), m⟩ = ⟨16, m⟩ :=
          to4norm_canon _ (Or.inr ⟨rfl, by simpa using hmm⟩)
        rw [hto4] at heq
        have h5 := eq_of_beq heq
        obtain ⟨ql, qv⟩ := q
        cases h5
        rfl
  by_cases hov : p.v + 1 < 2 ^ (8 * L)
  · rw [hm, Nat.mod_eq_of_lt hov] at hmq
    omega
  · exfalso
    have hpmax : p.v + 1 = 2 ^ (8 * L) := by omega
    have hm0 : m = 0 := by rw [hm, hpmax, Nat.mod_self]
    omega

theorem chain_imp_of_mem {α : Type} (R S : α → α → Prop) :
    ∀ (l : List α), (∀ p q, p ∈ l → q ∈ l → R p q → S p q) → l.Chain' R → l.Chain' S := by
  intro l
  induction l with
  | nil => intro _ _; exact List.chain'_nil
  | cons x xs ih =>
    cases xs with
    | nil => intro _ _; exact List.chain'_singleton _
    | cons y ys =>
      intro h hch
      rw [List.chain'_cons] at hch ⊢
      refine ⟨h x y (by simp) (by simp) hch.1, ?_⟩
      exact ih (fun p q hp hq => h p q (List.mem_cons_of_mem _ hp) (List.mem_cons_of_mem _ hq))
        hch.2

theorem findContiguousRuns_ne_nil :
    ∀ (l : List IPd), ∀ run ∈ findContiguousRuns l, run ≠ [] := by
  intro l
  induction l with
  | nil => intro run hrun; cases hrun
  | cons x xs ih =>
    cases xs with
    | nil =>
      intro run hrun
      rcases List.mem_singleton.mp hrun with rfl
      simp
    | cons y rest =>
      intro run hrun
      obtain ⟨run1, more, heq⟩ := findContiguousRuns_shape y rest
      rw [findContiguousRuns, heq] at hrun
      dsimp only at hrun
      by_cases hip : ipEqual (incIP x) y
      · rw [if_pos hip] at hrun
        rcases List.mem_cons.mp hrun with rfl | hmem
        · simp
        · exact ih run (by rw [heq]; exact List.mem_cons_of_mem _ hmem)
      · rw [if_neg hip] at hrun
        rcases List.mem_cons.mp hrun with rfl | hmem
        · simp
        · exact ih run (by rw [heq]; exact hmem)

/-- On a sorted list of distinct canonical same-family addresses, every run
found by `findContiguousRuns` is a consecutive value range. -/
theorem runs_are_consec (L : Nat) (A : List IPd)
    (hlen : ∀ x ∈ A, x.len = L)
    (hcanon : ∀ x ∈ A, Canon x)
    (hasc : A.Chain' fun x y => x.v < y.v) :
    ∀ run ∈ findContiguousRuns A, ∃ s n,
      run = consecRun L s n ∧ 1 ≤ n ∧ (∀ i, i < n → Canon ⟨L, s + i⟩) ∧
      s + n ≤ 2 ^ (8 * L) ∧
      ContiguousIPsToNetworks run = contigLoop (8 * L) (consecRun L s n) := by
  intro run hrun
  have hmem : ∀ x ∈ run, x ∈ A := by
    intro x hx
    rw [← findContiguousRuns_flatten A]
    exact List.mem_flatten.mpr ⟨run, hrun, hx⟩
  have hlenr : ∀ x ∈ run, x.len = L := fun x hx => hlen x (hmem x hx)
  have hcomb := findContiguousRuns_chain (fun x y => x.v < y.v) A hasc run hrun
  have hchain2 : run.Chain' fun p q => q.v = p.v + 1 := by
    refine chain_imp_of_mem _ _ run ?_ hcomb
    rintro p q hp hq ⟨hpq, hipe⟩
    have hpc := hcanon p (hmem p hp)
    have hqc := hcanon q (hmem q hq)
    refine inc_equal_succ L p q (hlenr p hp) (hlenr q hq) ?_ hqc.1 hpq hipe
    have := hpc.2
    unfold IPd.bits at this
    rwa [hlenr p hp] at this
  obtain ⟨x0, rest0, hx0⟩ : ∃ x0 rest0, run = x0 :: rest0 := by
    cases hr : run with
    | nil => exact absurd hr (findContiguousRuns_ne_nil A run hrun)
    | cons a b => exact ⟨a, b, rfl⟩
  have hconsec := run_eq_consecRun L run hlenr hchain2 x0 rest0 hx0
  refine ⟨x0.v, run.length, hconsec, ?_, ?_, ?_, ?_⟩
  · rw [hx0]; simp
  · intro i hi
    refine hcanon _ (hmem _ ?_)
    rw [hconsec]
    rw [consecRun_mem]
    refine ⟨rfl, ?_, ?_⟩ <;> dsimp only <;> omega
  · rcases Nat.eq_zero_or_pos run.length with h0 | h1
    · rw [hx0] at h0; simp at h0
    · have hlast : (⟨L, x0.v + (run.length - 1)⟩ : IPd) ∈ run := by
        rw [hconsec, consecRun_mem, consecRun_length]
        refine ⟨rfl, ?_, ?_⟩ <;> dsimp only <;> omega
      have hc := hcanon _ (hmem _ hlast)
      have := hc.2
      unfold IPd.bits at this
      dsimp only at this
      omega
  · rw [hx0]
    show contigLoop (8 * x0.len) (x0 :: rest0) = _
    rw [hlenr x0 (by rw [hx0]; exact List.mem_cons_self _ _), ← hx0, hconsec,
      consecRun_length]

/-- Claim C1: on a sorted list of distinct canonical same-family addresses,
the blocks of `IPsToNetworks` are aligned, the blocks of each contiguous run
are pairwise disjoint and in ascending base order, and the union of all
emitted blocks contains exactly the input addresses. -/
theorem ipsToNetworks_roundtrip (L : Nat) (A : List IPd)
    (hlen : ∀ x ∈ A, x.len = L)
    (hcanon : ∀ x ∈ A, Canon x)
    (hasc : A.Chain' fun x y => x.v < y.v) :
    (∀ nt ∈ IPsToNetworks A, nt.nlen = L ∧ nt.ones ≤ 8 * L ∧
      2 ^ (8 * L - nt.ones) ∣ nt.base) ∧
    (∀ run ∈ findContiguousRuns A,
      (ContiguousIPsToNetworks run).Pairwise NetDisjoint ∧
      (ContiguousIPsToNetworks run).Chain' fun n1 n2 => n1.base < n2.base) ∧
    (∀ x : IPd, Canon x →
      ((∃ nt ∈ IPsToNetworks A, netContains nt x = true) ↔ x ∈ A)) := by
  have hruns := runs_are_consec L A hlen hcanon hasc
  refine ⟨?_, ?_, ?_⟩
  · intro nt hnt
    obtain ⟨run, hrun, hntr⟩ := List.mem_flatMap.mp hnt
    obtain ⟨s, n, hconsec, hn1, hcan, hrange, hCN⟩ := hruns run hrun
    rw [hCN] at hntr
    obtain ⟨hInt, _, _, _, _, _⟩ := contigLoop_master L n s hcan hrange
    obtain ⟨h1, h2, h3, _⟩ := hInt nt hntr
    exact ⟨h1, h2, h3⟩
  · intro run hrun
    obtain ⟨s, n, hconsec, hn1, hcan, hrange, hCN⟩ := hruns run hrun
    rw [hCN]
    obtain ⟨hInt, hUnion, hAdj, _, _, _⟩ := contigLoop_master L n s hcan hrange
    constructor
    · -- pairwise disjoint from the interval semantics and adjacency
      have hord : (contigLoop (8 * L) (consecRun L s n)).Pairwise
          (fun n1 n2 => n1.base + 2 ^ (8 * L - n1.ones) ≤ n2.base) := by
        haveI : IsTrans NetB (fun n1 n2 => n1.base + 2 ^ (8 * L - n1.ones) ≤ n2.base) := by
          constructor
          intro a b c hab hbc
          have : 1 ≤ 2 ^ (8 * L - b.ones) := Nat.one_le_two_pow
          omega
        rw [← List.chain'_iff_pairwise]
        refine List.Chain'.imp ?_ hAdj
        intro n1 n2 h12
        omega
      refine hord.imp_of_mem ?_
      intro n1 n2 h1m h2m h12
      intro x hx hboth
      obtain ⟨hc1, hc2⟩ := hboth
      obtain ⟨_, _, _, hiv1⟩ := hInt n1 h1m
      obtain ⟨_, _, _, hiv2⟩ := hInt n2 h2m
      have hx1 := (hiv1 x hx).mp hc1
      have hx2 := (hiv2 x hx).mp hc2
      omega
    · refine List.Chain'.imp ?_ hAdj
      intro n1 n2 h12
      have : 1 ≤ 2 ^ (8 * L - n1.ones) := Nat.one_le_two_pow
      omega
  · intro x hx
    constructor
    · rintro ⟨nt, hnt, hcont⟩
      obtain ⟨run, hrun, hntr⟩ := List.mem_flatMap.mp hnt
      obtain ⟨s, n, hconsec, hn1, hcan, hrange, hCN⟩ := hruns run hrun
      rw [hCN] at hntr
      obtain ⟨hInt, hUnion, _, _, _, _⟩ := contigLoop_master L n s hcan hrange
      obtain ⟨h1, h2, h3, h4⟩ := hInt nt hntr
      have hxint := (h4 x hx).mp hcont
      have hvx := (hUnion x.v).mp ⟨nt, hntr, hxint.2.1, hxint.2.2⟩
      have hxmem : x ∈ run := by
        rw [hconsec, consecRun_mem]
        exact ⟨hxint.1, hvx.1, hvx.2⟩
      rw [← findContiguousRuns_flatten A]
      exact List.mem_flatten.mpr ⟨run, hrun, hxmem⟩
    · intro hxA
      rw [← findContiguousRuns_flatten A] at hxA
      obtain ⟨run, hrun, hxr⟩ := List.mem_flatten.mp hxA
      obtain ⟨s, n, hconsec, hn1, hcan, hrange, hCN⟩ := hruns run hrun
      have hxc : x.len = L ∧ s ≤ x.v ∧ x.v < s + n := by
        rw [hconsec, consecRun_mem] at hxr
        exact hxr
      obtain ⟨hInt, hUnion, _, _, _, _⟩ := contigLoop_master L n s hcan hrange
      obtain ⟨nt, hntm, hntv⟩ := (hUnion x.v).mpr ⟨hxc.2.1, hxc.2.2⟩
      refine ⟨nt, ?_, ?_⟩
      · refine List.mem_flatMap.mpr ⟨run, hrun, ?_⟩
        rw [hCN]
        exact hntm
      · obtain ⟨h1, h2, h3, h4⟩ := hInt nt hntm
        exact (h4 x hx).mpr ⟨hxc.1, hntv.1, hntv.2⟩

/-- Claim C1, witness at `{10.0.0.1, 10.0.0.2, 10.0.0.3, 10.0.0.5}`. -/
theorem ipsToNetworks_roundtrip_witness :
    ((∀ x ∈ [(⟨4, 0x0A000001⟩ : IPd), ⟨4, 0x0A000002⟩, ⟨4, 0x0A000003⟩, ⟨4, 0x0A000005⟩], x.len = 4) ∧
      (∀ x ∈ [(⟨4, 0x0A000001⟩ : IPd), ⟨4, 0x0A000002⟩, ⟨4, 0x0A000003⟩, ⟨4, 0x0A000005⟩], Canon x) ∧
      ([(⟨4, 0x0A000001⟩ : IPd), ⟨4, 0x0A000002⟩, ⟨4, 0x0A000003⟩, ⟨4, 0x0A000005⟩].Chain'
        fun x y => x.v < y.v)) ∧
    ((∀ nt ∈ IPsToNetworks [(⟨4, 0x0A000001⟩ : IPd), ⟨4, 0x0A000002⟩, ⟨4, 0x0A000003⟩, ⟨4, 0x0A000005⟩],
        nt.nlen = 4 ∧ nt.ones ≤ 8 * 4 ∧ 2 ^ (8 * 4 - nt.ones) ∣ nt.base) ∧
      (∀ run ∈ findContiguousRuns [(⟨4, 0x0A000001⟩ : IPd), ⟨4, 0x0A000002⟩, ⟨4, 0x0A000003⟩, ⟨4, 0x0A000005⟩],
        (ContiguousIPsToNetworks run).Pairwise NetDisjoint ∧
        (ContiguousIPsToNetworks run).Chain' fun n1 n2 => n1.base < n2.base) ∧
      (∀ x : IPd, Canon x →
        ((∃ nt ∈ IPsToNetworks [(⟨4, 0x0A000001⟩ : IPd), ⟨4, 0x0A000002⟩, ⟨4, 0x0A000003⟩, ⟨4, 0x0A000005⟩],
            netContains nt x = true) ↔
          x ∈ [(⟨4, 0x0A000001⟩ : IPd), ⟨4, 0x0A000002⟩, ⟨4, 0x0A000003⟩, ⟨4, 0x0A000005⟩]))) :=
  ⟨⟨by decide, by decide, by simp [List.chain'_cons, List.chain'_singleton]⟩,
    ipsToNetworks_roundtrip 4 [⟨4, 0x0A000001⟩, ⟨4, 0x0A000002⟩, ⟨4, 0x0A000003⟩, ⟨4, 0x0A000005⟩]
      (by decide) (by decide) (by simp [List.chain'_cons, List.chain'_singleton])⟩

/-- Claim C5: the greedy cover of a sorted contiguous run of canonical
same-family addresses is minimal — no two adjacent emitted blocks can be
merged into a single aligned block covering exactly their union. -/
theorem contiguousCover_minimal (L : Nat) (A : List IPd)
    (hlen : ∀ x ∈ A, x.len = L)
    (hcanon : ∀ x ∈ A, Canon x)
    (hchain : A.Chain' fun p q => q.v = p.v + 1) :
    (ContiguousIPsToNetworks A).Chain' fun n1 n2 => ¬ Mergeable L n1 n2 := by
  cases hA : A with
  | nil => exact List.chain'_nil
  | cons x0 rest0 =>
    have hconsec := run_eq_consecRun L A hlen hchain x0 rest0 hA
    have hcan : ∀ i, i < A.length → Canon ⟨L, x0.v + i⟩ := by
      intro i hi
      refine hcanon _ ?_
      rw [hconsec, consecRun_mem]
      refine ⟨rfl, ?_, ?_⟩ <;> dsimp only <;> omega
    have hrange : x0.v + A.length ≤ 2 ^ (8 * L) := by
      have h1 : 1 ≤ A.length := by rw [hA]; simp
      have hlast : (⟨L, x0.v + (A.length - 1)⟩ : IPd) ∈ A := by
        rw [hconsec, consecRun_mem, consecRun_length]
        refine ⟨rfl, ?_, ?_⟩ <;> dsimp only <;> omega
      have hc := hcanon _ hlast
      have := hc.2
      unfold IPd.bits at this
      dsimp only at this
      omega
    have hCN : ContiguousIPsToNetworks A = contigLoop (8 * L) (consecRun L x0.v A.length) := by
      rw [hA]
      show contigLoop (8 * x0.len) (x0 :: rest0) = _
      rw [hlen x0 (by rw [hA]; exact List.mem_cons_self _ _), ← hA, hconsec, consecRun_length]
    rw [← hA, hCN]
    obtain ⟨_, _, _, hMerge, _, _⟩ := contigLoop_master L A.length x0.v hcan hrange
    exact hMerge

/-- Claim C5, witness at the run `{10.0.0.1, 10.0.0.2, 10.0.0.3}` (whose
greedy cover is `10.0.0.1/32`, `10.0.0.2/31`). -/
theorem contiguousCover_minimal_witness :
    ((∀ x ∈ [(⟨4, 0x0A000001⟩ : IPd), ⟨4, 0x0A000002⟩, ⟨4, 0x0A000003⟩], x.len = 4) ∧
      (∀ x ∈ [(⟨4, 0x0A000001⟩ : IPd), ⟨4, 0x0A000002⟩, ⟨4, 0x0A000003⟩], Canon x) ∧
      ([(⟨4, 0x0A000001⟩ : IPd), ⟨4, 0x0A000002⟩, ⟨4, 0x0A000003⟩].Chain'
        fun p q => q.v = p.v + 1)) ∧
    ((ContiguousIPsToNetworks [(⟨4, 0x0A000001⟩ : IPd), ⟨4, 0x0A000002⟩, ⟨4, 0x0A000003⟩]).Chain'
      fun n1 n2 => ¬ Mergeable 4 n1 n2) :=
  ⟨⟨by decide, by decide, by simp [List.chain'_cons, List.chain'_singleton]⟩,
    contiguousCover_minimal 4 [⟨4, 0x0A000001⟩, ⟨4, 0x0A000002⟩, ⟨4, 0x0A000003⟩]
      (by decide) (by decide) (by simp [List.chain'_cons, List.chain'_singleton])⟩

/-! ## Byte-wise comparison -/

theorem bytesCmp_le_trans :
    ∀ (xs ys zs : List Nat), bytesCmp xs ys ≠ .gt → bytesCmp ys zs ≠ .gt →
      bytesCmp xs zs ≠ .gt := by
  intro xs
  induction xs with
  | nil =>
    intro ys zs _ _
    cases zs with
    | nil => simp [bytesCmp]
    | cons z zs2 => simp [bytesCmp]
  | cons x xs2 ih =>
    intro ys zs h1 h2
    cases ys with
    | nil => exact absurd rfl h1
    | cons y ys2 =>
      cases zs with
      | nil => exact absurd rfl h2
      | cons z zs2 =>
        unfold bytesCmp at h1 h2 ⊢
        rcases Nat.lt_trichotomy x y with hxy | hxy | hxy
        · rw [if_pos hxy] at h1
          rcases Nat.lt_trichotomy y z with hyz | hyz | hyz
          · rw [if_pos (by omega : x < z)]
            simp
          · rw [if_pos (by omega : x < z)]
            simp
          · rw [if_neg (by omega), if_pos hyz] at h2
            exact absurd rfl h2
        · rw [if_neg (by omega), if_neg (by omega)] at h1
          rcases Nat.lt_trichotomy y z with hyz | hyz | hyz
          · rw [if_pos (by omega : x < z)]
            simp
          · rw [if_neg (by omega), if_neg (by omega)] at h2 ⊢
            exact ih ys2 zs2 h1 h2
          · rw [if_neg (by omega), if_pos hyz] at h2
            exact absurd rfl h2
        · rw [if_neg (by omega), if_pos hxy] at h1
          exact absurd rfl h1

theorem bytesCmp_le_total :
    ∀ (xs ys : List Nat), bytesCmp xs ys ≠ .gt ∨ bytesCmp ys xs ≠ .gt := by
  intro xs
  induction xs with
  | nil =>
    intro ys
    cases ys with
    | nil => left; simp [bytesCmp]
    | cons y ys2 => left; simp [bytesCmp]
  | cons x xs2 ih =>
    intro ys
    cases ys with
    | nil => right; simp [bytesCmp]
    | cons y ys2 =>
      unfold bytesCmp
      rcases Nat.lt_trichotomy x y with hxy | hxy | hxy
      · left
        rw [if_pos hxy]
        simp
      · rw [if_neg (by omega), if_neg (by omega), if_neg (by omega), if_neg (by omega)]
        exact ih ys2
      · right
        rw [if_pos hxy]
        simp

theorem bne_gt_iff (o : Ordering) : (o != Ordering.gt) = true ↔ o ≠ Ordering.gt := by
  cases o <;> decide

theorem netIPLe_trans (a b c : ConsolidatedResult)
    (h1 : netIPLe a b = true) (h2 : netIPLe b c = true) : netIPLe a c = true := by
  unfold netIPLe at h1 h2 ⊢
  rw [bne_gt_iff] at h1 h2 ⊢
  exact bytesCmp_le_trans _ _ _ h1 h2

theorem netIPLe_total (a b : ConsolidatedResult) :
    (netIPLe a b || netIPLe b a) = true := by
  unfold netIPLe
  rw [Bool.or_eq_true, bne_gt_iff, bne_gt_iff]
  exact bytesCmp_le_total _ _

theorem ipBytes_succ (n v : Nat) :
    ipBytes (n + 1) v = (v / 256 ^ n % 256) :: ipBytes n (v % 256 ^ n) := by
  unfold ipBytes
  rw [List.range_succ_eq_map, List.map_cons, List.map_map]
  refine congrArg₂ List.cons rfl ?_
  apply List.map_congr_left
  intro j hj
  have hjn : j < n := List.mem_range.mp hj
  show v / 256 ^ (n + 1 - 1 - (j + 1)) % 256 = v % 256 ^ n / 256 ^ (n - 1 - j) % 256
  have he : n + 1 - 1 - (j + 1) = n - 1 - j := by omega
  rw [he]
  set e := n - 1 - j with hedef
  have hsplit : 256 ^ e * 256 ^ (n - e) = 256 ^ n := by
    rw [← pow_add]
    congr 1
    omega
  have hmoddiv : v / 256 ^ e % 256 ^ (n - e) = v % 256 ^ n / 256 ^ e := by
    rw [← hsplit, Nat.mod_mul_right_div_self]
  rw [← hmoddiv]
  have hdvd : (256:Nat) ∣ 256 ^ (n - e) := dvd_pow_self 256 (by omega)
  rw [Nat.mod_mod_of_dvd _ hdvd]

theorem bytesCmp_ipBytes_eq_compare :
    ∀ (n a b : Nat), a < 2 ^ (8 * n) → b < 2 ^ (8 * n) →
      bytesCmp (ipBytes n a) (ipBytes n b) = compare a b := by
  intro n
  induction n with
  | zero =>
    intro a b ha hb
    simp only [Nat.mul_zero, pow_zero, Nat.lt_one_iff] at ha hb
    subst ha
    subst hb
    rfl
  | succ n ih =>
    intro a b ha hb
    have hpow : (2:Nat) ^ (8 * (n + 1)) = 256 ^ (n + 1) := by
      rw [show (256:Nat) = 2 ^ 8 from rfl, ← pow_mul]
    have hpn : (2:Nat) ^ (8 * n) = 256 ^ n := by
      rw [show (256:Nat) = 2 ^ 8 from rfl, ← pow_mul]
    rw [hpow] at ha hb
    rw [ipBytes_succ, ipBytes_succ]
    have hp : 0 < (256:Nat) ^ n := pow_pos (by norm_num) n
    have h256 : (256:Nat) ^ (n + 1) = 256 * 256 ^ n := by ring
    have ha2 : a / 256 ^ n < 256 := by
      rw [Nat.div_lt_iff_lt_mul hp, ← h256]
      exact ha
    have hb2 : b / 256 ^ n < 256 := by
      rw [Nat.div_lt_iff_lt_mul hp, ← h256]
      exact hb
    have hma : a / 256 ^ n % 256 = a / 256 ^ n := Nat.mod_eq_of_lt ha2
    have hmb : b / 256 ^ n % 256 = b / 256 ^ n := Nat.mod_eq_of_lt hb2
    unfold bytesCmp
    rw [hma, hmb]
    have hdm_a := Nat.div_add_mod a (256 ^ n)
    have hdm_b := Nat.div_add_mod b (256 ^ n)
    have hra := Nat.mod_lt a hp
    have hrb := Nat.mod_lt b hp
    rcases Nat.lt_trichotomy (a / 256 ^ n) (b / 256 ^ n) with hd | hd | hd
    · rw [if_pos hd]
      have hmul : 256 ^ n * (a / 256 ^ n + 1) ≤ 256 ^ n * (b / 256 ^ n) :=
        Nat.mul_le_mul_left _ (by omega)
      rw [Nat.mul_add, Nat.mul_one] at hmul
      have hab : a < b := by omega
      rw [Nat.compare_eq_lt.mpr hab]
    · rw [if_neg (by omega), if_neg (by omega)]
      have hrec := ih (a % 256 ^ n) (b % 256 ^ n)
        (by rw [hpn]; exact hra) (by rw [hpn]; exact hrb)
      rw [hrec]
      rw [hd] at hdm_a
      rcases Nat.lt_trichotomy (a % 256 ^ n) (b % 256 ^ n) with hm | hm | hm
      · rw [Nat.compare_eq_lt.mpr hm, Nat.compare_eq_lt.mpr (by omega)]
      · rw [Nat.compare_eq_eq.mpr hm, Nat.compare_eq_eq.mpr (by omega)]
      · rw [Nat.compare_eq_gt.mpr hm, Nat.compare_eq_gt.mpr (by omega)]
    · rw [if_neg (by omega), if_pos hd]
      have hmul : 256 ^ n * (b / 256 ^ n + 1) ≤ 256 ^ n * (a / 256 ^ n) :=
        Nat.mul_le_mul_left _ (by omega)
      rw [Nat.mul_add, Nat.mul_one] at hmul
      have hab : b < a := by omega
      rw [Nat.compare_eq_gt.mpr hab]

theorem netIPLe_isTotal :
    IsTotal ConsolidatedResult (fun a b => netIPLe a b = true) :=
  ⟨fun a b => by
    rcases (Bool.or_eq_true _ _).mp (netIPLe_total a b) with h | h
    · exact Or.inl h
    · exact Or.inr h⟩

theorem netIPLe_isTrans :
    IsTrans ConsolidatedResult (fun a b => netIPLe a b = true) :=
  ⟨fun a b c => netIPLe_trans a b c⟩

theorem ConsolidateResults_sorted (results : List LookupResult) :
    (ConsolidateResults results).Pairwise fun e1 e2 => netIPLe e1 e2 = true := by
  have h : ∀ l : List ConsolidatedResult,
      (List.insertionSort (fun a b => netIPLe a b = true) l).Pairwise
        fun e1 e2 => netIPLe e1 e2 = true := by
    intro l
    exact @List.sorted_insertionSort ConsolidatedResult
      (fun a b => netIPLe a b = true) (fun a b => instDecidableEqBool _ _)
      netIPLe_isTotal netIPLe_isTrans l
  exact h _

/-- Claim C10: the consolidator's final sort compares network base addresses as
raw byte arrays of differing lengths (4 bytes for IPv4, 16 for IPv6): the output
of `ConsolidateResults` is always sorted by the comparator `netIPLe` (raw
`bytes.Compare`, no family-first rule); under it an entry based at 10.0.0.0
sorts strictly before one based at 2001:db8:: while an entry based at
192.168.0.0 sorts strictly after it; and within a single family (equal byte
length) the comparator orders entries by ascending base-address value. -/
theorem consolidate_raw_byte_sort :
    (∀ results : List LookupResult,
      (ConsolidateResults results).Pairwise fun e1 e2 => netIPLe e1 e2 = true) ∧
    netIPLe ⟨⟨4, 0x0A000000, 8⟩, "", none⟩ ⟨⟨16, 0x20010db8 * 2 ^ 96, 32⟩, "", none⟩ = true ∧
    netIPLe ⟨⟨16, 0x20010db8 * 2 ^ 96, 32⟩, "", none⟩ ⟨⟨4, 0x0A000000, 8⟩, "", none⟩ = false ∧
    netIPLe ⟨⟨4, 0xC0A80000, 16⟩, "", none⟩ ⟨⟨16, 0x20010db8 * 2 ^ 96, 32⟩, "", none⟩ = false ∧
    netIPLe ⟨⟨16, 0x20010db8 * 2 ^ 96, 32⟩, "", none⟩ ⟨⟨4, 0xC0A80000, 16⟩, "", none⟩ = true ∧
    ∀ (n a b : Nat) (pa pb : String) (ea eb : Option String) (oa ob : Nat),
      a < 2 ^ (8 * n) → b < 2 ^ (8 * n) →
      (netIPLe ⟨⟨n, a, oa⟩, pa, ea⟩ ⟨⟨n, b, ob⟩, pb, eb⟩ = true ↔ a ≤ b) := by
  refine ⟨ConsolidateResults_sorted, by decide, by decide, by decide, by decide, ?_⟩
  intro n a b pa pb ea eb oa ob ha hb
  unfold netIPLe
  dsimp only
  rw [bytesCmp_ipBytes_eq_compare n a b ha hb, bne_gt_iff]
  constructor
  · intro h
    by_contra hab
    exact h (Nat.compare_eq_gt.mpr (by omega))
  · intro h hgt
    have := Nat.compare_eq_gt.mp hgt
    omega

/-- Witness for C10: the empty result set is sorted, and two /24-based IPv4
entries compare by base value. -/
theorem consolidate_raw_byte_sort_witness :
    (ConsolidateResults []).Pairwise (fun e1 e2 => netIPLe e1 e2 = true) ∧
    netIPLe ⟨⟨4, 0x0A000000, 24⟩, "n1", none⟩ ⟨⟨4, 0x0A000500, 24⟩, "n2", none⟩ = true :=
  ⟨consolidate_raw_byte_sort.1 [],
   (consolidate_raw_byte_sort.2.2.2.2.2 4 0x0A000000 0x0A000500 "n1" "n2" none none 24 24
     (by decide) (by decide)).mpr (by decide)⟩

/-- Claim C7: in consolidation, a pattern bucket containing exactly one address
is emitted as a single-host entry carrying an original exact PTR taken from the
deferred singles list (the first whose address `Equal`s the bucket address),
never the wildcard form: the pattern string of a single-element bucket does not
reach the output. A full pipeline run on one pattern-bearing result keeps its
exact PTR. -/
theorem pattern_singleton_original_ptr
    (singles : List (IPd × String)) (pat : String) (ip : IPd) (s : IPd × String)
    (hfind : singles.find? (fun t => ipEqual t.1 ip) = some s) :
    pass2Emit singles [(pat, [ip])] = [⟨singleIPNet s.1, s.2, none⟩] ∧
    s ∈ singles ∧ ipEqual s.1 ip = true ∧
    ConsolidateResults [⟨⟨4, 0x0A000001⟩, "10-0-0-1.static.example.com", none⟩] =
      [⟨⟨4, 0x0A000001, 32⟩, "10-0-0-1.static.example.com", none⟩] := by
  have hps : ipEqual s.1 ip = true := by
    have h := List.find?_some hfind
    exact h
  refine ⟨?_, List.mem_of_find?_eq_some hfind, hps, by decide⟩
  unfold pass2Emit
  rw [List.foldl_cons, List.foldl_nil]
  unfold pass2EStep
  simp only [List.length_cons, List.length_nil, List.headD_cons]
  rw [if_pos (by norm_num)]
  rw [hfind]
  rfl

/-- Witness for C7: one deferred single `(10.0.0.1, host1.example.com)` whose
pattern bucket has exactly one address is emitted with the PTR
`host1.example.com`, not the wildcard. -/
theorem pattern_singleton_original_ptr_witness :
    pass2Emit [(⟨4, 0x0A000001⟩, "host1.example.com")]
        [("*.static.example.com", [⟨4, 0x0A000001⟩])] =
      [⟨singleIPNet ⟨4, 0x0A000001⟩, "host1.example.com", none⟩] ∧
    (⟨4, 0x0A000001⟩, "host1.example.com") ∈
      ([(⟨4, 0x0A000001⟩, "host1.example.com")] : List (IPd × String)) ∧
    ipEqual ⟨4, 0x0A000001⟩ ⟨4, 0x0A000001⟩ = true ∧
    ConsolidateResults [⟨⟨4, 0x0A000001⟩, "10-0-0-1.static.example.com", none⟩] =
      [⟨⟨4, 0x0A000001, 32⟩, "10-0-0-1.static.example.com", none⟩] :=
  pattern_singleton_original_ptr [(⟨4, 0x0A000001⟩, "host1.example.com")]
    "*.static.example.com" ⟨4, 0x0A000001⟩ (⟨4, 0x0A000001⟩, "host1.example.com")
    (by decide)

theorem splitFirstDot_append (first suffix : List Char) (h : '.' ∉ first) :
    splitFirstDot (first ++ '.' :: suffix) = some (first, suffix) := by
  induction first with
  | nil => simp [splitFirstDot]
  | cons c cs ih =>
    have hc : c ≠ '.' := by
      intro hc
      exact h (hc ▸ List.mem_cons_self c cs)
    have hmem : '.' ∉ cs := fun hm => h (List.mem_cons_of_mem c hm)
    simp only [List.cons_append]
    unfold splitFirstDot
    rw [if_neg hc, ih hmem]

/-- Claim C6 (spec-modelled, `extractIPv6PTRPattern` is absent from the
sources): for an IPv6 address (16 bytes, not v4-mapped) whose PTR's first
label, lowercased, is one of the three recognized encodings of the address —
full zero-padded dashed form, compressed dashed form, or reversed
nibble-dash form — or ends in `-<encoding>`, the extractor returns the
wildcard `*.<suffix>` of the part after the first dot whenever that suffix
has at least two labels (contains another dot).  Matching is on the
lowercased label, hence case-insensitive. -/
theorem ipv6_pattern_three_encodings
    (ip : IPd) (hlen : ip.len = 16) (hno4 : to4 ip = none)
    (first suffix : List Char) (hfirst : '.' ∉ first)
    (hsuf : suffix.contains '.' = true)
    (hform : first.map Char.toLower = (fullDashForm ip.v).data ∨
             first.map Char.toLower = (compDashForm ip.v).data ∨
             first.map Char.toLower = (revNibbleForm ip.v).data ∨
             ('-' :: (fullDashForm ip.v).data).isSuffixOf (first.map Char.toLower) = true ∨
             ('-' :: (compDashForm ip.v).data).isSuffixOf (first.map Char.toLower) = true ∨
             ('-' :: (revNibbleForm ip.v).data).isSuffixOf (first.map Char.toLower) = true) :
    extractIPv6PTRPattern ip (String.mk (first ++ '.' :: suffix)) =
      "*." ++ String.mk suffix := by
  unfold extractIPv6PTRPattern
  rw [hno4]
  rw [if_neg (by simp)]
  rw [if_neg (by simp [hlen])]
  have hne : String.mk (first ++ '.' :: suffix) ≠ "" := by
    intro hcontra
    have : first ++ '.' :: suffix = [] := congrArg String.data hcontra
    cases first with
    | nil => exact absurd this (by simp)
    | cons c cs => exact absurd this (by simp)
  rw [if_neg hne]
  show (match splitFirstDot (first ++ '.' :: suffix) with
    | none => ""
    | some (first, suffix) =>
      if ¬ suffix.contains '.' then ""
      else
        let fl := first.map Char.toLower
        let forms := [(fullDashForm ip.v).data, (compDashForm ip.v).data, (revNibbleForm ip.v).data]
        if forms.any (fun f => fl == f || ('-' :: f).isSuffixOf fl) then
          "*." ++ String.mk suffix
        else "") = "*." ++ String.mk suffix
  rw [splitFirstDot_append first suffix hfirst]
  show (if ¬ suffix.contains '.' then ""
    else
      if [(fullDashForm ip.v).data, (compDashForm ip.v).data, (revNibbleForm ip.v).data].any
          (fun f => first.map Char.toLower == f || ('-' :: f).isSuffixOf (first.map Char.toLower)) then
        "*." ++ String.mk suffix
      else "") = "*." ++ String.mk suffix
  rw [if_neg (not_not_intro hsuf)]
  have hany : [(fullDashForm ip.v).data, (compDashForm ip.v).data, (revNibbleForm ip.v).data].any
      (fun f => first.map Char.toLower == f || ('-' :: f).isSuffixOf (first.map Char.toLower)) = true := by
    simp only [List.any_cons, List.any_nil, Bool.or_eq_true, beq_iff_eq]
    rcases hform with h | h | h | h | h | h
    · exact Or.inl (Or.inl h)
    · exact Or.inr (Or.inl (Or.inl h))
    · exact Or.inr (Or.inr (Or.inl (Or.inl h)))
    · exact Or.inl (Or.inr h)
    · exact Or.inr (Or.inl (Or.inr h))
    · exact Or.inr (Or.inr (Or.inl (Or.inr h)))
  rw [if_pos hany]

/-- Witness for C6: PTR `2001-DB8--1.ipv6.example.com` (uppercase compressed
dashed form) for address `2001:db8::1` yields `*.ipv6.example.com`. -/
theorem ipv6_pattern_three_encodings_witness :
    extractIPv6PTRPattern ⟨16, 0x20010db8 * 2 ^ 96 + 1⟩
        (String.mk ("2001-DB8--1".data ++ '.' :: "ipv6.example.com".data)) =
      "*." ++ String.mk "ipv6.example.com".data :=
  ipv6_pattern_three_encodings ⟨16, 0x20010db8 * 2 ^ 96 + 1⟩ rfl (by decide)
    "2001-DB8--1".data "ipv6.example.com".data (by decide) (by decide)
    (Or.inr (Or.inl (by decide)))

/-! ## Worker pool theorems -/

theorem set_of_getElem?_eq {α : Type} :
    ∀ (l : List α) (i : Nat) (a : α), l[i]? = some a → l.set i a = l := by
  intro l
  induction l with
  | nil =>
    intro i a h
    simp at h
  | cons x xs ih =>
    intro i a h
    cases i with
    | zero =>
      rw [List.getElem?_cons_zero, Option.some.injEq] at h
      rw [List.set_cons_zero, h]
    | succ i2 =>
      rw [List.getElem?_cons_succ] at h
      rw [List.set_cons_succ, ih i2 a h]

theorem flatten_perm_cons_of_set {α : Type} :
    ∀ (G : List (List α)) (i : Nat) (t : List α) (x : α), G[i]? = some t →
      List.Perm ((G.set i (x :: t)).flatten) (x :: G.flatten) := by
  intro G
  induction G with
  | nil =>
    intro i t x h
    simp at h
  | cons g G2 ih =>
    intro i t x h
    cases i with
    | zero =>
      rw [List.getElem?_cons_zero, Option.some.injEq] at h
      rw [List.set_cons_zero, List.flatten_cons, List.flatten_cons, h]
      exact List.Perm.refl _
    | succ i2 =>
      rw [List.getElem?_cons_succ] at h
      rw [List.set_cons_succ, List.flatten_cons, List.flatten_cons]
      exact (List.Perm.append_left g (ih i2 t x h)).trans List.perm_middle

theorem interleaving_perm {α : Type} (ls : List (List α)) (out : List α)
    (h : Interleaving ls out) : List.Perm out ls.flatten := by
  induction h with
  | done ls2 hnil =>
    rw [List.flatten_eq_nil_iff.mpr hnil]
  | step ls2 i x rest out2 hi htail ih =>
    have hlen : i < ls2.length := by
      by_contra hlen
      rw [List.getElem?_eq_none (by omega)] at hi
      cases hi
    have hset : (ls2.set i rest).set i (x :: rest) = ls2 := by
      rw [List.set_set]
      exact set_of_getElem?_eq ls2 i (x :: rest) hi
    have hG : (ls2.set i rest)[i]? = some rest := List.getElem?_set_self hlen
    have hperm := flatten_perm_cons_of_set (ls2.set i rest) i rest x hG
    rw [hset] at hperm
    exact (List.Perm.cons x ih).trans hperm.symm

theorem workerJobs_partition (schedule : Nat → Nat) (K : Nat)
    (hs : ∀ j : Nat, schedule j < K) :
    ∀ (l : List IPd) (i : Nat),
      List.Perm ((List.range K).map fun w => workerJobs schedule w l i).flatten l := by
  intro l
  induction l with
  | nil =>
    intro i
    have hz : ∀ w ∈ (List.range K).map fun w => workerJobs schedule w [] i,
        w = ([] : List IPd) := by
      intro w hw
      rcases List.mem_map.mp hw with ⟨w2, _, hmap⟩
      rw [← hmap]
      rfl
    rw [List.flatten_eq_nil_iff.mpr hz]
  | cons ip rest ih =>
    intro i
    have hw0K : schedule i < K := hs i
    have hlenS : schedule i <
        ((List.range K).map fun w => workerJobs schedule w rest (i + 1)).length := by
      rw [List.length_map, List.length_range]
      exact hw0K
    have hmapeq : ((List.range K).map fun w => workerJobs schedule w (ip :: rest) i) =
        ((List.range K).map fun w => workerJobs schedule w rest (i + 1)).set (schedule i)
          (ip :: workerJobs schedule (schedule i) rest (i + 1)) := by
      apply List.ext_getElem?
      intro j
      by_cases hjK : j < K
      · by_cases hj : schedule i = j
        · rw [← hj]
          rw [List.getElem?_set_self hlenS]
          rw [List.getElem?_map, List.getElem?_range hw0K, Option.map_some']
          rw [show workerJobs schedule (schedule i) (ip :: rest) i =
            ip :: workerJobs schedule (schedule i) rest (i + 1) by
              simp [workerJobs]]
        · rw [List.getElem?_set_ne hj]
          rw [List.getElem?_map, List.getElem?_map, List.getElem?_range hjK, Option.map_some',
            Option.map_some']
          rw [show workerJobs schedule j (ip :: rest) i =
            workerJobs schedule j rest (i + 1) by simp only [workerJobs, if_neg hj]]
      · have hnone1 : ((List.range K).map fun w => workerJobs schedule w (ip :: rest) i)[j]? =
            none := by
          apply List.getElem?_eq_none
          rw [List.length_map, List.length_range]
          omega
        have hnone2 : (((List.range K).map fun w => workerJobs schedule w rest (i + 1)).set
            (schedule i) (ip :: workerJobs schedule (schedule i) rest (i + 1)))[j]? = none := by
          apply List.getElem?_eq_none
          rw [List.length_set, List.length_map, List.length_range]
          omega
        rw [hnone1, hnone2]
    rw [hmapeq]
    have hG : ((List.range K).map fun w => workerJobs schedule w rest (i + 1))[schedule i]? =
        some (workerJobs schedule (schedule i) rest (i + 1)) := by
      rw [List.getElem?_map, List.getElem?_range hw0K, Option.map_some']
    exact (flatten_perm_cons_of_set _ _ _ _ hG).trans (List.Perm.cons ip (ih (i + 1)))

theorem lookupIP_preserves_IP (resolve : IPd → ResolverOutcome) (ip : IPd) :
    (lookupIP resolve ip).IP = ip := by
  unfold lookupIP
  cases resolve ip with
  | ok names => rfl
  | notFound => rfl
  | fail e => rfl

/-- Claim C9 (spec-modelled, `lookup.go` is absent from the sources, only its
tests remain): for an ordered list of N addresses, concurrency K ≥ 1, a
resolver, and any job schedule assigning every job to one of the K workers,
every complete observed result stream of the worker pool — the stream is
closed only after all workers have exhausted their jobs, which is what
`Interleaving` requires — contains exactly N results and is a permutation of
the per-address lookup results: exactly one result per input address, each
carrying its input address. -/
theorem lookup_workers_results
    (resolve : IPd → ResolverOutcome) (ips : List IPd) (K : Nat)
    (schedule : Nat → Nat) (out : List LookupResult)
    (hK : 1 ≤ K) (hsched : ∀ j : Nat, schedule j < K)
    (hrun : LookupWorkersRun resolve ips K schedule out) :
    out.length = ips.length ∧
    List.Perm out (ips.map (lookupIP resolve)) ∧
    ∀ r ∈ out, ∃ ip ∈ ips, r = lookupIP resolve ip ∧ r.IP = ip := by
  have hp1 : List.Perm out ((List.range K).map (workerStream resolve schedule ips)).flatten :=
    interleaving_perm _ _ hrun
  have hflat : ((List.range K).map (workerStream resolve schedule ips)).flatten =
      ((List.range K).map fun w => workerJobs schedule w ips 0).flatten.map
        (lookupIP resolve) := by
    rw [List.map_flatten, List.map_map]
    rfl
  have hp2 : List.Perm out (ips.map (lookupIP resolve)) := by
    rw [hflat] at hp1
    exact hp1.trans
      (List.Perm.map (lookupIP resolve) (workerJobs_partition schedule K hsched ips 0))
  refine ⟨?_, hp2, ?_⟩
  · rw [hp2.length_eq, List.length_map]
  · intro r hr
    have hmem : r ∈ ips.map (lookupIP resolve) := hp2.mem_iff.mp hr
    rcases List.mem_map.mp hmem with ⟨ip, hip, hmap⟩
    refine ⟨ip, hip, hmap.symm, ?_⟩
    rw [← hmap]
    exact lookupIP_preserves_IP resolve ip

/-- Witness for C9: two addresses, two workers under a round-robin schedule,
an NXDOMAIN resolver; the stream observing worker 1 first is a valid complete
run with 2 results, a permutation of the per-address results. -/
theorem lookup_workers_results_witness :
    ([⟨⟨4, 2⟩, "", none⟩, ⟨⟨4, 1⟩, "", none⟩] : List LookupResult).length =
      ([⟨4, 1⟩, ⟨4, 2⟩] : List IPd).length ∧
    List.Perm ([⟨⟨4, 2⟩, "", none⟩, ⟨⟨4, 1⟩, "", none⟩] : List LookupResult)
      (([⟨4, 1⟩, ⟨4, 2⟩] : List IPd).map (lookupIP fun _ => ResolverOutcome.notFound)) := by
  have hrun : LookupWorkersRun (fun _ => ResolverOutcome.notFound) [⟨4, 1⟩, ⟨4, 2⟩] 2
      (fun j => j % 2) [⟨⟨4, 2⟩, "", none⟩, ⟨⟨4, 1⟩, "", none⟩] := by
    show Interleaving _ _
    have hst : (List.range 2).map (workerStream (fun _ => ResolverOutcome.notFound)
        (fun j => j % 2) [⟨4, 1⟩, ⟨4, 2⟩]) =
        [[⟨⟨4, 1⟩, "", none⟩], [⟨⟨4, 2⟩, "", none⟩]] := by decide
    rw [hst]
    exact Interleaving.step _ 1 _ _ _ rfl
      (Interleaving.step _ 0 _ _ _ rfl (Interleaving.done _ (by decide)))
  have h := lookup_workers_results (fun _ => ResolverOutcome.notFound) [⟨4, 1⟩, ⟨4, 2⟩] 2
    (fun j => j % 2) [⟨⟨4, 2⟩, "", none⟩, ⟨⟨4, 1⟩, "", none⟩] (by norm_num)
    (fun j => Nat.mod_lt j (by norm_num)) hrun
  exact ⟨h.1, h.2.1⟩

/-! ## Consolidation structure -/

theorem pass1Step_defer (acc : List ConsolidatedResult × List (IPd × String))
    (g : String × List IPd) (h : (dedupAdj (sortIPs g.2)).length = 1 ∧ g.1 ≠ "") :
    pass1Step acc g = (acc.1, acc.2 ++ [((dedupAdj (sortIPs g.2)).headD ⟨0, 0⟩, g.1)]) := by
  show (if (dedupAdj (sortIPs g.2)).length = 1 ∧ g.1 ≠ "" then
      (acc.1, acc.2 ++ [((dedupAdj (sortIPs g.2)).headD ⟨0, 0⟩, g.1)])
    else
      (acc.1 ++ (IPsToNetworks (dedupAdj (sortIPs g.2))).map fun n => ⟨n, g.1, none⟩,
        acc.2)) = _
  rw [if_pos h]

theorem pass1Step_emit (acc : List ConsolidatedResult × List (IPd × String))
    (g : String × List IPd) (h : ¬ ((dedupAdj (sortIPs g.2)).length = 1 ∧ g.1 ≠ "")) :
    pass1Step acc g =
      (acc.1 ++ (IPsToNetworks (dedupAdj (sortIPs g.2))).map fun n => ⟨n, g.1, none⟩,
        acc.2) := by
  show (if (dedupAdj (sortIPs g.2)).length = 1 ∧ g.1 ≠ "" then
      (acc.1, acc.2 ++ [((dedupAdj (sortIPs g.2)).headD ⟨0, 0⟩, g.1)])
    else
      (acc.1 ++ (IPsToNetworks (dedupAdj (sortIPs g.2))).map fun n => ⟨n, g.1, none⟩,
        acc.2)) = _
  rw [if_neg h]

theorem pass1_fold :
    ∀ (groups : List (String × List IPd)) (acc : List ConsolidatedResult × List (IPd × String)),
      groups.foldl pass1Step acc =
        (acc.1 ++ groups.flatMap fun g =>
          if (dedupAdj (sortIPs g.2)).length = 1 ∧ g.1 ≠ "" then []
          else (IPsToNetworks (dedupAdj (sortIPs g.2))).map fun n => ⟨n, g.1, none⟩,
         acc.2 ++ groups.flatMap fun g =>
          if (dedupAdj (sortIPs g.2)).length = 1 ∧ g.1 ≠ "" then
            [((dedupAdj (sortIPs g.2)).headD ⟨0, 0⟩, g.1)]
          else []) := by
  intro groups
  induction groups with
  | nil =>
    intro acc
    simp
  | cons g rest ih =>
    intro acc
    rw [List.foldl_cons, List.flatMap_cons, List.flatMap_cons]
    by_cases hc : (dedupAdj (sortIPs g.2)).length = 1 ∧ g.1 ≠ ""
    · rw [pass1Step_defer acc g hc, ih, if_pos hc, if_pos hc]
      simp [List.append_assoc]
    · rw [pass1Step_emit acc g hc, ih, if_neg hc, if_neg hc]
      simp [List.append_assoc]

theorem pass1_eq (groups : List (String × List IPd)) :
    pass1 groups =
      (groups.flatMap fun g =>
        if (dedupAdj (sortIPs g.2)).length = 1 ∧ g.1 ≠ "" then []
        else (IPsToNetworks (dedupAdj (sortIPs g.2))).map fun n => ⟨n, g.1, none⟩,
       groups.flatMap fun g =>
        if (dedupAdj (sortIPs g.2)).length = 1 ∧ g.1 ≠ "" then
          [((dedupAdj (sortIPs g.2)).headD ⟨0, 0⟩, g.1)]
        else []) := by
  unfold pass1
  rw [pass1_fold]
  simp

theorem pass2GStep_pat (acc : List (String × List IPd) × List (IPd × String))
    (s : IPd × String) (h : extractPTRPattern s.1 s.2 ≠ "") :
    pass2GStep acc s = (groupAdd acc.1 (extractPTRPattern s.1 s.2) s.1, acc.2) := by
  show (if extractPTRPattern s.1 s.2 ≠ "" then
      (groupAdd acc.1 (extractPTRPattern s.1 s.2) s.1, acc.2)
    else (acc.1, acc.2 ++ [s])) = _
  rw [if_pos h]

theorem pass2GStep_nopat (acc : List (String × List IPd) × List (IPd × String))
    (s : IPd × String) (h : ¬ extractPTRPattern s.1 s.2 ≠ "") :
    pass2GStep acc s = (acc.1, acc.2 ++ [s]) := by
  show (if extractPTRPattern s.1 s.2 ≠ "" then
      (groupAdd acc.1 (extractPTRPattern s.1 s.2) s.1, acc.2)
    else (acc.1, acc.2 ++ [s])) = _
  rw [if_neg h]

theorem pass2Groups_fold :
    ∀ (singles : List (IPd × String)) (acc : List (String × List IPd) × List (IPd × String)),
      singles.foldl pass2GStep acc =
        ((singles.filter fun s => extractPTRPattern s.1 s.2 != "").foldl
          (fun g s => groupAdd g (extractPTRPattern s.1 s.2) s.1) acc.1,
         acc.2 ++ singles.filter fun s => extractPTRPattern s.1 s.2 == "") := by
  intro singles
  induction singles with
  | nil =>
    intro acc
    simp
  | cons s rest ih =>
    intro acc
    rw [List.foldl_cons]
    by_cases hp : extractPTRPattern s.1 s.2 ≠ ""
    · rw [pass2GStep_pat acc s hp, ih]
      rw [List.filter_cons_of_pos (by simpa using hp), List.filter_cons_of_neg (by simpa using hp)]
      rw [List.foldl_cons]
    · rw [pass2GStep_nopat acc s hp, ih]
      rw [List.filter_cons_of_neg (by simpa using hp), List.filter_cons_of_pos (by simpa using hp)]
      simp [List.append_assoc]

theorem pass2Groups_eq (singles : List (IPd × String)) :
    pass2Groups singles =
      ((singles.filter fun s => extractPTRPattern s.1 s.2 != "").foldl
        (fun g s => groupAdd g (extractPTRPattern s.1 s.2) s.1) [],
       singles.filter fun s => extractPTRPattern s.1 s.2 == "") := by
  unfold pass2Groups
  rw [pass2Groups_fold]
  simp

theorem pass2Emit_fold (singles : List (IPd × String)) :
    ∀ (pgs : List (String × List IPd)) (acc : List ConsolidatedResult),
      pgs.foldl (pass2EStep singles) acc =
        acc ++ pgs.flatMap fun pg =>
          if pg.2.length < 2 then
            match singles.find? (fun s => ipEqual s.1 (pg.2.headD ⟨0, 0⟩)) with
            | some s => [⟨singleIPNet s.1, s.2, none⟩]
            | none => []
          else (IPsToNetworks (sortIPs pg.2)).map fun n => ⟨n, pg.1, none⟩ := by
  intro pgs
  induction pgs with
  | nil =>
    intro acc
    simp
  | cons pg rest ih =>
    intro acc
    rw [List.foldl_cons, List.flatMap_cons]
    by_cases hl : pg.2.length < 2
    · rw [if_pos hl]
      cases hf : singles.find? (fun s => ipEqual s.1 (pg.2.headD ⟨0, 0⟩)) with
      | some s =>
        have hstep : pass2EStep singles acc pg = acc ++ [⟨singleIPNet s.1, s.2, none⟩] := by
          show (if pg.2.length < 2 then
              match singles.find? (fun s => ipEqual s.1 (pg.2.headD ⟨0, 0⟩)) with
              | some s => acc ++ [⟨singleIPNet s.1, s.2, none⟩]
              | none => acc
            else acc ++ (IPsToNetworks (sortIPs pg.2)).map fun n => ⟨n, pg.1, none⟩) = _
          rw [if_pos hl, hf]
        rw [hstep, ih]
        simp [List.append_assoc]
      | none =>
        have hstep : pass2EStep singles acc pg = acc := by
          show (if pg.2.length < 2 then
              match singles.find? (fun s => ipEqual s.1 (pg.2.headD ⟨0, 0⟩)) with
              | some s => acc ++ [⟨singleIPNet s.1, s.2, none⟩]
              | none => acc
            else acc ++ (IPsToNetworks (sortIPs pg.2)).map fun n => ⟨n, pg.1, none⟩) = _
          rw [if_pos hl, hf]
        rw [hstep, ih]
        simp
    · rw [if_neg hl]
      have hstep : pass2EStep singles acc pg =
          acc ++ (IPsToNetworks (sortIPs pg.2)).map fun n => ⟨n, pg.1, none⟩ := by
        show (if pg.2.length < 2 then
            match singles.find? (fun s => ipEqual s.1 (pg.2.headD ⟨0, 0⟩)) with
            | some s => acc ++ [⟨singleIPNet s.1, s.2, none⟩]
            | none => acc
          else acc ++ (IPsToNetworks (sortIPs pg.2)).map fun n => ⟨n, pg.1, none⟩) = _
        rw [if_neg hl]
      rw [hstep, ih]
      simp [List.append_assoc]

theorem pass2Emit_eq (singles : List (IPd × String)) (pgs : List (String × List IPd)) :
    pass2Emit singles pgs =
      pgs.flatMap fun pg =>
        if pg.2.length < 2 then
          match singles.find? (fun s => ipEqual s.1 (pg.2.headD ⟨0, 0⟩)) with
          | some s => [⟨singleIPNet s.1, s.2, none⟩]
          | none => []
        else (IPsToNetworks (sortIPs pg.2)).map fun n => ⟨n, pg.1, none⟩ := by
  unfold pass2Emit
  rw [pass2Emit_fold]
  simp

theorem ipEqual_refl (a : IPd) : ipEqual a a = true := by
  unfold ipEqual
  exact beq_self_eq_true _

theorem ipEqual_comm (a b : IPd) : ipEqual a b = ipEqual b a := by
  unfold ipEqual
  by_cases h : to4norm a = to4norm b
  · rw [h]
  · rw [beq_eq_false_iff_ne.mpr h, beq_eq_false_iff_ne.mpr (Ne.symm h)]

theorem groupAdd_flatten_perm (G : List (String × List IPd)) (k : String) (ip : IPd) :
    List.Perm ((groupAdd G k ip).map Prod.snd).flatten (ip :: (G.map Prod.snd).flatten) := by
  induction G with
  | nil => simp [groupAdd]
  | cons g rest ih =>
    obtain ⟨k2, ips⟩ := g
    unfold groupAdd
    by_cases hk : k2 = k
    · rw [if_pos hk, List.map_cons, List.flatten_cons, List.map_cons, List.flatten_cons]
      dsimp only
      rw [List.append_assoc]
      exact List.perm_middle
    · rw [if_neg hk, List.map_cons, List.flatten_cons, List.map_cons, List.flatten_cons]
      dsimp only
      exact (List.Perm.append_left ips ih).trans List.perm_middle

theorem groupFold_flatten_perm {β : Type} (key : β → String) (val : β → IPd) :
    ∀ (rs : List β) (G : List (String × List IPd)),
      List.Perm ((rs.foldl (fun g r => groupAdd g (key r) (val r)) G).map Prod.snd).flatten
        ((G.map Prod.snd).flatten ++ rs.map val) := by
  intro rs
  induction rs with
  | nil =>
    intro G
    simp
  | cons r rest ih =>
    intro G
    rw [List.foldl_cons, List.map_cons]
    refine (ih (groupAdd G (key r) (val r))).trans ?_
    refine (List.Perm.append_right (rest.map val) (groupAdd_flatten_perm G (key r) (val r))).trans ?_
    exact List.perm_middle.symm

theorem groupAdd_prov (P : String → IPd → Prop) (k : String) (ip : IPd) (hk : P k ip) :
    ∀ (G : List (String × List IPd)), (∀ p ∈ G, ∀ y ∈ p.2, P p.1 y) →
      ∀ p ∈ groupAdd G k ip, ∀ y ∈ p.2, P p.1 y := by
  intro G
  induction G with
  | nil =>
    intro _ p hp y hy
    rcases List.mem_singleton.mp hp with rfl
    rcases List.mem_singleton.mp hy with rfl
    exact hk
  | cons g rest ih =>
    obtain ⟨k2, ips⟩ := g
    intro hG
    unfold groupAdd
    by_cases hkk : k2 = k
    · rw [if_pos hkk]
      intro p hp y hy
      rcases List.mem_cons.mp hp with rfl | hmem
      · rcases List.mem_append.mp hy with h1 | h2
        · exact hG (k2, ips) (List.mem_cons_self _ _) y h1
        · rcases List.mem_singleton.mp h2 with rfl
          show P k2 y
          rw [hkk]
          exact hk
      · exact hG p (List.mem_cons_of_mem _ hmem) y hy
    · rw [if_neg hkk]
      intro p hp y hy
      rcases List.mem_cons.mp hp with rfl | hmem
      · exact hG (k2, ips) (List.mem_cons_self _ _) y hy
      · exact ih (fun q hq => hG q (List.mem_cons_of_mem _ hq)) p hmem y hy

theorem groupFold_prov {β : Type} (key : β → String) (val : β → IPd) (P : String → IPd → Prop) :
    ∀ (rs : List β) (G : List (String × List IPd)),
      (∀ p ∈ G, ∀ y ∈ p.2, P p.1 y) → (∀ r ∈ rs, P (key r) (val r)) →
      ∀ p ∈ rs.foldl (fun g r => groupAdd g (key r) (val r)) G, ∀ y ∈ p.2, P p.1 y := by
  intro rs
  induction rs with
  | nil =>
    intro G hG _ p hp
    exact hG p hp
  | cons r rest ih =>
    intro G hG hr
    rw [List.foldl_cons]
    exact ih (groupAdd G (key r) (val r))
      (groupAdd_prov P (key r) (val r) (hr r (List.mem_cons_self _ _)) G hG)
      (fun q hq => hr q (List.mem_cons_of_mem _ hq))

theorem groupAdd_covers (G : List (String × List IPd)) (k : String) (ip : IPd) :
    ∃ p ∈ groupAdd G k ip, p.1 = k ∧ ip ∈ p.2 := by
  induction G with
  | nil => exact ⟨(k, [ip]), List.mem_singleton_self _, rfl, List.mem_singleton_self _⟩
  | cons g rest ih =>
    obtain ⟨k2, ips⟩ := g
    unfold groupAdd
    by_cases hkk : k2 = k
    · rw [if_pos hkk]
      exact ⟨(k2, ips ++ [ip]), List.mem_cons_self _ _, hkk,
        List.mem_append_right _ (List.mem_singleton_self _)⟩
    · rw [if_neg hkk]
      obtain ⟨p, hp, h1, h2⟩ := ih
      exact ⟨p, List.mem_cons_of_mem _ hp, h1, h2⟩

theorem groupAdd_preserves (G : List (String × List IPd)) (k : String) (ip : IPd)
    (p : String × List IPd) (hp : p ∈ G) :
    ∃ q ∈ groupAdd G k ip, q.1 = p.1 ∧ ∀ y ∈ p.2, y ∈ q.2 := by
  induction G with
  | nil => cases hp
  | cons g rest ih =>
    obtain ⟨k2, ips⟩ := g
    unfold groupAdd
    by_cases hkk : k2 = k
    · rw [if_pos hkk]
      rcases List.mem_cons.mp hp with rfl | hmem
      · exact ⟨(k2, ips ++ [ip]), List.mem_cons_self _ _, rfl,
          fun y hy => List.mem_append_left _ hy⟩
      · exact ⟨p, List.mem_cons_of_mem _ hmem, rfl, fun y hy => hy⟩
    · rw [if_neg hkk]
      rcases List.mem_cons.mp hp with rfl | hmem
      · exact ⟨(k2, ips), List.mem_cons_self _ _, rfl, fun y hy => hy⟩
      · obtain ⟨q, hq, h1, h2⟩ := ih hmem
        exact ⟨q, List.mem_cons_of_mem _ hq, h1, h2⟩

theorem groupFold_preserves {β : Type} (key : β → String) (val : β → IPd) :
    ∀ (rs : List β) (G : List (String × List IPd)) (p : String × List IPd), p ∈ G →
      ∃ q ∈ rs.foldl (fun g r => groupAdd g (key r) (val r)) G,
        q.1 = p.1 ∧ ∀ y ∈ p.2, y ∈ q.2 := by
  intro rs
  induction rs with
  | nil =>
    intro G p hp
    exact ⟨p, hp, rfl, fun y hy => hy⟩
  | cons r rest ih =>
    intro G p hp
    rw [List.foldl_cons]
    obtain ⟨q, hq, h1, h2⟩ := groupAdd_preserves G (key r) (val r) p hp
    obtain ⟨q2, hq2, h21, h22⟩ := ih (groupAdd G (key r) (val r)) q hq
    exact ⟨q2, hq2, h21.trans h1, fun y hy => h22 y (h2 y hy)⟩

theorem groupFold_covers {β : Type} (key : β → String) (val : β → IPd) :
    ∀ (rs : List β) (G : List (String × List IPd)) (r : β), r ∈ rs →
      ∃ p ∈ rs.foldl (fun g r => groupAdd g (key r) (val r)) G,
        p.1 = key r ∧ val r ∈ p.2 := by
  intro rs
  induction rs with
  | nil =>
    intro G r hr
    cases hr
  | cons r0 rest ih =>
    intro G r hr
    rw [List.foldl_cons]
    rcases List.mem_cons.mp hr with rfl | hmem
    · obtain ⟨p0, hp0, h1, h2⟩ := groupAdd_covers G (key r) (val r)
      obtain ⟨q, hq, hq1, hq2⟩ := groupFold_preserves key val rest _ p0 hp0
      exact ⟨q, hq, hq1.trans h1, hq2 _ h2⟩
    · exact ih _ r hmem

theorem dedupGo_id :
    ∀ (l : List IPd) (prev : IPd), (prev :: l).Chain' (fun a b => ipEqual b a = false) →
      dedupGo prev l = l := by
  intro l
  induction l with
  | nil =>
    intro prev _
    rfl
  | cons y ys ih =>
    intro prev hch
    rw [List.chain'_cons] at hch
    unfold dedupGo
    rw [if_neg (by rw [hch.1]; exact Bool.false_ne_true)]
    rw [ih y hch.2]

theorem dedupAdj_id (l : List IPd) (h : l.Chain' fun a b => ipEqual b a = false) :
    dedupAdj l = l := by
  cases l with
  | nil => rfl
  | cons x xs =>
    show x :: dedupGo x xs = x :: xs
    rw [dedupGo_id xs x h]

theorem ipLe_trans (a b c : IPd) (h1 : ipLe a b = true) (h2 : ipLe b c = true) :
    ipLe a c = true := by
  unfold ipLe ipCmp at h1 h2 ⊢
  rw [bne_gt_iff] at h1 h2 ⊢
  exact bytesCmp_le_trans _ _ _ h1 h2

theorem ipLe_total_pair (a b : IPd) : (ipLe a b || ipLe b a) = true := by
  unfold ipLe ipCmp
  rw [Bool.or_eq_true, bne_gt_iff, bne_gt_iff]
  exact bytesCmp_le_total _ _

theorem sortIPs_perm (l : List IPd) : List.Perm (sortIPs l) l :=
  List.perm_insertionSort _ l

theorem sortIPs_sorted (l : List IPd) : (sortIPs l).Pairwise fun a b => ipLe a b = true :=
  @List.sorted_insertionSort IPd (fun a b => ipLe a b = true)
    (fun a b => instDecidableEqBool _ _)
    ⟨fun a b => by
      rcases (Bool.or_eq_true _ _).mp (ipLe_total_pair a b) with h | h
      · exact Or.inl h
      · exact Or.inr h⟩
    ⟨fun a b c => ipLe_trans a b c⟩ l

theorem canon_value_lt (L : Nat) (a b : IPd) (hal : a.len = L) (hbl : b.len = L)
    (hac : Canon a) (hbc : Canon b) (hle : ipLe a b = true) (hne : ipEqual a b = false) :
    a.v < b.v := by
  have hav : a.v < 2 ^ (8 * L) := by
    have := hac.2
    unfold IPd.bits at this
    rwa [hal] at this
  have hbv : b.v < 2 ^ (8 * L) := by
    have := hbc.2
    unfold IPd.bits at this
    rwa [hbl] at this
  have hcmp : bytesCmp (ipBytes a.len a.v) (ipBytes b.len b.v) = compare a.v b.v := by
    rw [hal, hbl]
    exact bytesCmp_ipBytes_eq_compare L a.v b.v hav hbv
  unfold ipLe ipCmp at hle
  rw [bne_gt_iff, hcmp] at hle
  have hvle : a.v ≤ b.v := by
    by_contra hgt
    exact hle (Nat.compare_eq_gt.mpr (by omega))
  have hvne : a.v ≠ b.v := by
    intro hveq
    have hna : to4norm a = a := to4norm_canon a hac.1
    have hnb : to4norm b = b := to4norm_canon b hbc.1
    unfold ipEqual at hne
    rw [hna, hnb] at hne
    have hab : a = b := by
      obtain ⟨al, av⟩ := a
      obtain ⟨bl, bv⟩ := b
      simp only at hal hbl hveq
      rw [hal, hbl, hveq]
    rw [hab, beq_self_eq_true] at hne
    cases hne
  omega

theorem sorted_distinct_chain (L : Nat) (l : List IPd)
    (hlen : ∀ x ∈ l, x.len = L) (hcanon : ∀ x ∈ l, Canon x)
    (hsort : l.Pairwise fun a b => ipLe a b = true)
    (hdist : l.Pairwise fun a b => ipEqual a b = false) :
    l.Chain' fun x y => x.v < y.v := by
  have hpw : l.Pairwise fun x y => x.v < y.v := by
    refine (hsort.and hdist).imp_of_mem ?_
    intro a b ha hb hab
    exact canon_value_lt L a b (hlen a ha) (hlen b hb) (hcanon a ha) (hcanon b hb) hab.1 hab.2
  exact hpw.chain'

theorem sorted_inc_same_len (p q : IPd) (hpc : Canon p) (hqc : Canon q)
    (hle : ipLe p q = true) (hinc : ipEqual (incIP p) q = true) : p.len = q.len := by
  obtain ⟨pl, pv⟩ := p
  obtain ⟨ql, qv⟩ := q
  obtain ⟨hpk, hpv⟩ := hpc
  obtain ⟨hqk, hqv⟩ := hqc
  rcases hpk with hp4 | ⟨hp16, hpnm⟩ <;> rcases hqk with hq4 | ⟨hq16, hqnm⟩
  · simp only at hp4 hq4
    subst hp4; subst hq4
    rfl
  · -- p is 4-byte, q is canonical 16-byte: incIP p is 4-byte, never Equal to q
    exfalso
    simp only at hp4 hq16
    subst hp4; subst hq16
    have hinc2 : incIP ⟨4, pv⟩ = ⟨4, (pv + 1) % 2 ^ 32⟩ := rfl
    unfold ipEqual at hinc
    rw [hinc2] at hinc
    have h1 : to4norm ⟨4, (pv + 1) % 2 ^ 32⟩ = ⟨4, (pv + 1) % 2 ^ 32⟩ :=
      to4norm_canon _ (Or.inl rfl)
    have h2 : to4norm ⟨16, qv⟩ = ⟨16, qv⟩ :=
      to4norm_canon _ (Or.inr ⟨rfl, by simpa using hqnm⟩)
    rw [h1, h2] at hinc
    have h5 := eq_of_beq hinc
    injection h5 with hl hv
    omega
  · -- p is canonical 16-byte, q is 4-byte: only across ::fffe:ffff:ffff / 0.0.0.0,
    -- where the byte order contradicts sortedness
    exfalso
    simp only at hp16 hq4
    subst hp16; subst hq4
    unfold IPd.bits at hpv hqv
    simp only at hpv hqv
    have hpv2 : pv < 2 ^ 128 := by
      have h : (8:Nat) * 16 = 128 := by norm_num
      rwa [h] at hpv
    have hqv2 : qv < 2 ^ 32 := by
      have h : (8:Nat) * 4 = 32 := by norm_num
      rwa [h] at hqv
    have hinc2 : incIP ⟨16, pv⟩ = ⟨16, (pv + 1) % 2 ^ 128⟩ := rfl
    set m := (pv + 1) % 2 ^ 128 with hm
    unfold ipEqual at hinc
    rw [hinc2] at hinc
    have h2 : to4norm ⟨4, qv⟩ = ⟨4, qv⟩ := to4norm_canon _ (Or.inl rfl)
    rw [h2] at hinc
    by_cases hmm : isV4mapped ⟨16, m⟩
    · have hto4 : to4norm ⟨(16:Nat), m⟩ = ⟨4, m % 2 ^ 32⟩ := by
        unfold to4norm to4
        rw [if_neg (by norm_num), if_pos hmm]
        rfl
      rw [hto4] at hinc
      have h5 := eq_of_beq hinc
      injection h5 with hl hv
      have hdiv : m / 2 ^ 32 = 0xffff := by
        unfold isV4mapped at hmm
        simp only [Bool.and_eq_true, beq_iff_eq] at hmm
        exact hmm.2
      have hmval : m = 0xffff * 2 ^ 32 + qv := by
        have h6 := Nat.div_add_mod m (2 ^ 32)
        rw [hdiv, hv] at h6
        omega
      by_cases hov : pv + 1 < 2 ^ 128
    
      · have hmp : m = pv + 1 := by rw [hm]; exact Nat.mod_eq_of_lt hov
        have hqv0 : qv = 0 := by
          by_contra hq0
          have hpvval : pv = 2 ^ 32 * 0xffff + (qv - 1) := by omega
          have hgoal : pv / 2 ^ 32 = 0xffff := by
            rw [hpvval, Nat.mul_add_div (by positivity),
              Nat.div_eq_of_lt (by omega : qv - 1 < 2 ^ 32)]
          have hmapped : isV4mapped ⟨16, pv⟩ = true := by
            unfold isV4mapped
            show ((16:Nat) == 16 && pv / 2 ^ 32 == 0xffff) = true
            rw [hgoal]
            decide
          exact hpnm hmapped
        subst hqv0
        have hpvv : pv = 0xffff * 2 ^ 32 - 1 := by omega
        subst hpvv
        exact absurd hle (by decide)
      · have hm0 : m = 0 := by
          have h7 : pv + 1 = 2 ^ 128 := by omega
          rw [hm, h7, Nat.mod_self]
        omega
    · have hto4 : to4norm ⟨(16:Nat), m⟩ = ⟨16, m⟩ :=
        to4norm_canon _ (Or.inr ⟨rfl, by simpa using hmm⟩)
      rw [hto4] at hinc
      have h5 := eq_of_beq hinc
      injection h5 with hl hv
      omega
  · simp only at hp16 hq16
    subst hp16; subst hq16
    rfl

theorem chain_len_const :
    ∀ (x0 : IPd) (rest : List IPd), (x0 :: rest).Chain' (fun p q => p.len = q.len) →
      ∀ x ∈ x0 :: rest, x.len = x0.len := by
  intro x0 rest
  induction rest generalizing x0 with
  | nil =>
    intro _ x hx
    rcases List.mem_singleton.mp hx with rfl
    rfl
  | cons y ys ih =>
    intro hch x hx
    have h1 : x0.len = y.len := (List.chain'_cons.mp hch).1
    have h2 := (List.chain'_cons.mp hch).2
    rcases List.mem_cons.mp hx with rfl | hmem
    · rfl
    · rw [ih y h2 x hmem, h1]


/-- On a sorted list of pairwise-distinct canonical addresses of possibly
mixed families, every run found by `findContiguousRuns` stays within one
family (the `::fffe:ffff:ffff → 0.0.0.0` wrap contradicts the byte order)
and is a consecutive value range. -/
theorem runs_are_consec_sorted (A : List IPd)
    (hcanon : ∀ x ∈ A, Canon x)
    (hsort : A.Pairwise fun a b => ipLe a b = true)
    (hdist : A.Pairwise fun a b => ipEqual a b = false) :
    ∀ run ∈ findContiguousRuns A, ∃ L s n,
      (∀ x ∈ run, x.len = L) ∧
      run = consecRun L s n ∧ 1 ≤ n ∧ (∀ i, i < n → Canon ⟨L, s + i⟩) ∧
      s + n ≤ 2 ^ (8 * L) ∧
      ContiguousIPsToNetworks run = contigLoop (8 * L) (consecRun L s n) := by
  intro run hrun
  have hmem : ∀ x ∈ run, x ∈ A := by
    intro x hx
    rw [← findContiguousRuns_flatten A]
    exact List.mem_flatten.mpr ⟨run, hrun, hx⟩
  have hchA : A.Chain' (fun p q => ipLe p q = true ∧ ipEqual p q = false) :=
    (hsort.and hdist).chain'
  have hcomb := findContiguousRuns_chain
    (fun p q => ipLe p q = true ∧ ipEqual p q = false) A hchA run hrun
  obtain ⟨x0, rest0, hx0⟩ : ∃ x0 rest0, run = x0 :: rest0 := by
    cases hr : run with
    | nil => exact absurd hr (findContiguousRuns_ne_nil A run hrun)
    | cons a b => exact ⟨a, b, rfl⟩
  set L := x0.len with hL
  have hlenchain : run.Chain' (fun p q => p.len = q.len) := by
    refine chain_imp_of_mem _ _ run ?_ hcomb
    rintro p q hp hq ⟨⟨hle2, hne2⟩, hipe⟩
    exact sorted_inc_same_len p q (hcanon p (hmem p hp)) (hcanon q (hmem q hq)) hle2 hipe
  have hlenr : ∀ x ∈ run, x.len = L := by
    rw [hx0] at hlenchain
    rw [hx0]
    exact chain_len_const x0 rest0 hlenchain
  have hchain2 : run.Chain' fun p q => q.v = p.v + 1 := by
    refine chain_imp_of_mem _ _ run ?_ hcomb
    rintro p q hp hq ⟨⟨hle2, hne2⟩, hipe⟩
    have hplen := hlenr p hp
    have hqlen := hlenr q hq
    have hlt : p.v < q.v := canon_value_lt L p q hplen hqlen
      (hcanon p (hmem p hp)) (hcanon q (hmem q hq)) hle2 hne2
    refine inc_equal_succ L p q hplen hqlen ?_ (hcanon q (hmem q hq)).1 hlt hipe
    have := (hcanon p (hmem p hp)).2
    unfold IPd.bits at this
    rwa [hplen] at this
  have hconsec := run_eq_consecRun L run hlenr hchain2 x0 rest0 hx0
  refine ⟨L, x0.v, run.length, hlenr, hconsec, ?_, ?_, ?_, ?_⟩
  · rw [hx0]; simp
  · intro i hi
    refine hcanon _ (hmem _ ?_)
    rw [hconsec]
    rw [consecRun_mem]
    refine ⟨rfl, ?_, ?_⟩ <;> dsimp only <;> omega
  · rcases Nat.eq_zero_or_pos run.length with h0 | h1
    · rw [hx0] at h0; simp at h0
    · have hlast : (⟨L, x0.v + (run.length - 1)⟩ : IPd) ∈ run := by
        rw [hconsec, consecRun_mem, consecRun_length]
        refine ⟨rfl, ?_, ?_⟩ <;> dsimp only <;> omega
      have hc := hcanon _ (hmem _ hlast)
      have := hc.2
      unfold IPd.bits at this
      dsimp only at this
      omega
  · rw [hx0]
    show contigLoop (8 * x0.len) (x0 :: rest0) = _
    rw [hlenr x0 (by rw [hx0]; exact List.mem_cons_self _ _), ← hx0, hconsec,
      consecRun_length]

theorem IPd_eq_iff (a b : IPd) : a = b ↔ (a.len = b.len ∧ a.v = b.v) := by
  obtain ⟨al, av⟩ := a
  obtain ⟨bl, bv⟩ := b
  simp

theorem singleIPNet_contains (ip x : IPd) (hip : Canon ip) :
    (netContains (singleIPNet ip) x = true) ↔ ipEqual x ip = true := by
  obtain ⟨l, v⟩ := ip
  have hnip : to4norm ⟨l, v⟩ = ⟨l, v⟩ := to4norm_canon _ hip.1
  unfold ipEqual
  rw [hnip]
  rcases hip.1 with h4 | ⟨h16, hnm⟩
  · simp only at h4
    subst h4
    have hs : singleIPNet ⟨4, v⟩ = ⟨4, v, 32⟩ := by
      unfold singleIPNet to4
      rw [if_pos rfl]
    rw [hs]
    unfold netContains
    dsimp only
    rw [hnip, if_neg (lt_irrefl 4)]
    rw [Bool.and_eq_true, beq_iff_eq, beq_iff_eq, beq_iff_eq, IPd_eq_iff]
    norm_num
  · simp only at h16
    subst h16
    have hs : singleIPNet ⟨16, v⟩ = ⟨16, v, 128⟩ := by
      unfold singleIPNet to4
      rw [if_neg (by norm_num), if_neg (by simpa using hnm)]
    rw [hs]
    unfold netContains
    dsimp only
    rw [hnip, if_neg (lt_irrefl 16)]
    rw [Bool.and_eq_true, beq_iff_eq, beq_iff_eq, beq_iff_eq, IPd_eq_iff]
    norm_num

theorem ipsToNetworks_exact (A : List IPd)
    (hcanon : ∀ x ∈ A, Canon x)
    (hsort : A.Pairwise fun a b => ipLe a b = true)
    (hdist : A.Pairwise fun a b => ipEqual a b = false) :
    (IPsToNetworks A).Pairwise NetDisjoint ∧
    (∀ x : IPd, Canon x →
      ((∃ nt ∈ IPsToNetworks A, netContains nt x = true) ↔ x ∈ A)) := by
  have hruns := runs_are_consec_sorted A hcanon hsort hdist
  have hflat : (findContiguousRuns A).flatten = A := findContiguousRuns_flatten A
  have hcrossNE : (findContiguousRuns A).Pairwise
      (fun r1 r2 => ∀ p ∈ r1, ∀ q ∈ r2, ipEqual p q = false) :=
    (List.pairwise_flatten.mp (by rw [hflat]; exact hdist)).2
  constructor
  · show ((findContiguousRuns A).flatMap ContiguousIPsToNetworks).Pairwise NetDisjoint
    rw [List.flatMap_def, List.pairwise_flatten]
    constructor
    · intro nets hnets
      rcases List.mem_map.mp hnets with ⟨run, hrun, hmap⟩
      obtain ⟨L, s, n, hlenr, hconsec, hn1, hcan, hrange, hCN⟩ := hruns run hrun
      rw [← hmap, hCN]
      obtain ⟨hInt, hUnion, hAdj, _, _, _⟩ := contigLoop_master L n s hcan hrange
      have hord : (contigLoop (8 * L) (consecRun L s n)).Pairwise
          (fun n1 n2 => n1.base + 2 ^ (8 * L - n1.ones) ≤ n2.base) := by
        haveI : IsTrans NetB (fun n1 n2 => n1.base + 2 ^ (8 * L - n1.ones) ≤ n2.base) := by
          constructor
          intro a b c hab hbc
          have : 1 ≤ 2 ^ (8 * L - b.ones) := Nat.one_le_two_pow
          omega
        rw [← List.chain'_iff_pairwise]
        refine List.Chain'.imp ?_ hAdj
        intro n1 n2 h12
        omega
      refine hord.imp_of_mem ?_
      intro n1 n2 h1m h2m h12
      intro x hx hboth
      obtain ⟨hc1, hc2⟩ := hboth
      obtain ⟨_, _, _, hiv1⟩ := hInt n1 h1m
      obtain ⟨_, _, _, hiv2⟩ := hInt n2 h2m
      have hx1 := (hiv1 x hx).mp hc1
      have hx2 := (hiv2 x hx).mp hc2
      omega
    · rw [List.pairwise_map]
      refine hcrossNE.imp_of_mem ?_
      intro r1 r2 h1 h2 hne n1 hn1 n2 hn2
      obtain ⟨L1, s1, m1, hlenr1, hconsec1, _, hcan1, hrange1, hCN1⟩ := hruns r1 h1
      obtain ⟨L2, s2, m2, hlenr2, hconsec2, _, hcan2, hrange2, hCN2⟩ := hruns r2 h2
      rw [hCN1] at hn1
      rw [hCN2] at hn2
      obtain ⟨hInt1, hUnion1, _, _, _, _⟩ := contigLoop_master L1 m1 s1 hcan1 hrange1
      obtain ⟨hInt2, hUnion2, _, _, _, _⟩ := contigLoop_master L2 m2 s2 hcan2 hrange2
      intro x hx hboth
      obtain ⟨hc1, hc2⟩ := hboth
      obtain ⟨_, _, _, hiv1⟩ := hInt1 n1 hn1
      obtain ⟨_, _, _, hiv2⟩ := hInt2 n2 hn2
      have hx1 := (hiv1 x hx).mp hc1
      have hx2 := (hiv2 x hx).mp hc2
      have hm1 : x ∈ r1 := by
        have hv1 := (hUnion1 x.v).mp ⟨n1, hn1, hx1.2.1, hx1.2.2⟩
        have hmm : (⟨L1, x.v⟩ : IPd) ∈ r1 := by
          rw [hconsec1, consecRun_mem]
          exact ⟨rfl, hv1.1, hv1.2⟩
        have hxe : (⟨L1, x.v⟩ : IPd) = x := by
          rw [← hx1.1]
        rwa [hxe] at hmm
      have hm2 : x ∈ r2 := by
        have hv2 := (hUnion2 x.v).mp ⟨n2, hn2, hx2.2.1, hx2.2.2⟩
        have hmm : (⟨L2, x.v⟩ : IPd) ∈ r2 := by
          rw [hconsec2, consecRun_mem]
          exact ⟨rfl, hv2.1, hv2.2⟩
        have hxe : (⟨L2, x.v⟩ : IPd) = x := by
          rw [← hx2.1]
        rwa [hxe] at hmm
      have hfalse := hne x hm1 x hm2
      rw [ipEqual_refl x] at hfalse
      cases hfalse
  · intro x hx
    constructor
    · rintro ⟨nt, hnt, hcont⟩
      obtain ⟨run, hrun, hntr⟩ := List.mem_flatMap.mp hnt
      obtain ⟨L, s, n, hlenr, hconsec, hn1, hcan, hrange, hCN⟩ := hruns run hrun
      rw [hCN] at hntr
      obtain ⟨hInt, hUnion, _, _, _, _⟩ := contigLoop_master L n s hcan hrange
      obtain ⟨h1, h2, h3, h4⟩ := hInt nt hntr
      have hxint := (h4 x hx).mp hcont
      have hvx := (hUnion x.v).mp ⟨nt, hntr, hxint.2.1, hxint.2.2⟩
      have hxmem : x ∈ run := by
        rw [hconsec, consecRun_mem]
        exact ⟨hxint.1, hvx.1, hvx.2⟩
      rw [← findContiguousRuns_flatten A]
      exact List.mem_flatten.mpr ⟨run, hrun, hxmem⟩
    · intro hxA
      rw [← findContiguousRuns_flatten A] at hxA
      obtain ⟨run, hrun, hxr⟩ := List.mem_flatten.mp hxA
      obtain ⟨L, s, n, hlenr, hconsec, hn1, hcan, hrange, hCN⟩ := hruns run hrun
      have hxc : x.len = L ∧ s ≤ x.v ∧ x.v < s + n := by
        rw [hconsec, consecRun_mem] at hxr
        exact hxr
      obtain ⟨hInt, hUnion, _, _, _, _⟩ := contigLoop_master L n s hcan hrange
      obtain ⟨nt, hntm, hntv⟩ := (hUnion x.v).mpr ⟨hxc.2.1, hxc.2.2⟩
      refine ⟨nt, ?_, ?_⟩
      · refine List.mem_flatMap.mpr ⟨run, hrun, ?_⟩
        rw [hCN]
        exact hntm
      · obtain ⟨h1, h2, h3, h4⟩ := hInt nt hntm
        exact (h4 x hx).mpr ⟨hxc.1, hntv.1, hntv.2⟩

theorem ipEqual_trans (a b c : IPd) (h1 : ipEqual a b = true) (h2 : ipEqual b c = true) :
    ipEqual a c = true := by
  unfold ipEqual at h1 h2 ⊢
  rw [beq_iff_eq] at h1 h2 ⊢
  exact h1.trans h2

theorem ipEqual_symm (a b : IPd) (h : ipEqual a b = true) : ipEqual b a = true := by
  rwa [ipEqual_comm] at h

theorem noneq_symm {a b : IPd} (h : ipEqual a b = false) : ipEqual b a = false := by
  rwa [ipEqual_comm] at h

theorem flatMap_map_singleton {α β : Type} (f : α → β) :
    ∀ l : List α, (l.flatMap fun x => [f x]) = l.map f := by
  intro l
  induction l with
  | nil => rfl
  | cons x xs ih => simp [List.flatMap_cons, ih]

theorem flatMap_congr {α β : Type} (f g : α → List β) :
    ∀ l : List α, (∀ a ∈ l, f a = g a) → l.flatMap f = l.flatMap g := by
  intro l
  induction l with
  | nil => intro _; rfl
  | cons a rest ih =>
    intro h
    rw [List.flatMap_cons, List.flatMap_cons, h a (List.mem_cons_self _ _),
      ih (fun b hb => h b (List.mem_cons_of_mem _ hb))]

theorem length_one_mem_eq {α : Type} (l : List α) (a : α) (h1 : l.length = 1) (h2 : a ∈ l) :
    l = [a] := by
  cases l with
  | nil => cases h2
  | cons x xs =>
    cases xs with
    | nil => rw [List.mem_singleton.mp h2]
    | cons y ys => simp at h1

theorem flatMap_if_filter {α β : Type} (p : α → Prop) [DecidablePred p] (f : α → List β) :
    ∀ l : List α,
      (l.flatMap fun a => if p a then [] else f a) =
        (l.filter fun a => decide (¬ p a)).flatMap f := by
  intro l
  induction l with
  | nil => rfl
  | cons a rest ih =>
    rw [List.flatMap_cons]
    by_cases hp : p a
    · rw [if_pos hp, List.filter_cons_of_neg (by simp [hp]), ih, List.nil_append]
    · rw [if_neg hp, List.filter_cons_of_pos (by simp [hp]), List.flatMap_cons, ih]

theorem flatMap_if_filter_pos {α β : Type} (p : α → Prop) [DecidablePred p] (f : α → List β) :
    ∀ l : List α,
      (l.flatMap fun a => if p a then f a else []) =
        (l.filter fun a => decide (p a)).flatMap f := by
  intro l
  induction l with
  | nil => rfl
  | cons a rest ih =>
    rw [List.flatMap_cons]
    by_cases hp : p a
    · rw [if_pos hp, List.filter_cons_of_pos (by simp [hp]), List.flatMap_cons, ih]
    · rw [if_neg hp, List.filter_cons_of_neg (by simp [hp]), ih, List.nil_append]

theorem groupAdd_nonempty (G : List (String × List IPd)) (k : String) (ip : IPd)
    (hG : ∀ p ∈ G, p.2 ≠ []) : ∀ p ∈ groupAdd G k ip, p.2 ≠ [] := by
  induction G with
  | nil =>
    intro p hp
    rcases List.mem_singleton.mp hp with rfl
    simp
  | cons g rest ih =>
    obtain ⟨k2, ips⟩ := g
    unfold groupAdd
    by_cases hkk : k2 = k
    · rw [if_pos hkk]
      intro p hp
      rcases List.mem_cons.mp hp with rfl | hmem
      · simp
      · exact hG p (List.mem_cons_of_mem _ hmem)
    · rw [if_neg hkk]
      intro p hp
      rcases List.mem_cons.mp hp with rfl | hmem
      · exact hG (k2, ips) (List.mem_cons_self _ _)
      · exact ih (fun q hq => hG q (List.mem_cons_of_mem _ hq)) p hmem

theorem groupFold_nonempty {β : Type} (key : β → String) (val : β → IPd) :
    ∀ (rs : List β) (G : List (String × List IPd)), (∀ p ∈ G, p.2 ≠ []) →
      ∀ p ∈ rs.foldl (fun g r => groupAdd g (key r) (val r)) G, p.2 ≠ [] := by
  intro rs
  induction rs with
  | nil =>
    intro G hG p hp
    exact hG p hp
  | cons r rest ih =>
    intro G hG
    rw [List.foldl_cons]
    exact ih _ (groupAdd_nonempty G (key r) (val r) hG)

theorem consGroups_eq (R : List LookupResult) (herr : ∀ r ∈ R, r.Error = none) :
    consGroups R = R.foldl (fun g r => groupAdd g r.PTR r.IP) [] := by
  unfold consGroups
  rw [List.filter_eq_self.mpr]
  intro r hr
  rw [herr r hr]
  rfl

theorem consGroups_flatten_perm (R : List LookupResult) (herr : ∀ r ∈ R, r.Error = none) :
    List.Perm ((consGroups R).map Prod.snd).flatten (R.map fun r => r.IP) := by
  rw [consGroups_eq R herr]
  have h := groupFold_flatten_perm (fun r : LookupResult => r.PTR)
    (fun r : LookupResult => r.IP) R []
  simpa using h

theorem consGroups_prov (R : List LookupResult) (herr : ∀ r ∈ R, r.Error = none) :
    ∀ p ∈ consGroups R, ∀ y ∈ p.2, ∃ r ∈ R, r.PTR = p.1 ∧ r.IP = y := by
  rw [consGroups_eq R herr]
  intro p hp y hy
  have h := groupFold_prov (fun r : LookupResult => r.PTR) (fun r : LookupResult => r.IP)
    (fun k ip => ∃ r ∈ R, r.PTR = k ∧ r.IP = ip) R []
    (by intro q hq; cases hq) (fun r hr => ⟨r, hr, rfl, rfl⟩) p hp y hy
  exact h

theorem consGroups_covers (R : List LookupResult) (herr : ∀ r ∈ R, r.Error = none) :
    ∀ r ∈ R, ∃ p ∈ consGroups R, p.1 = r.PTR ∧ r.IP ∈ p.2 := by
  rw [consGroups_eq R herr]
  intro r hr
  exact groupFold_covers (fun r : LookupResult => r.PTR) (fun r : LookupResult => r.IP)
    R [] r hr

theorem consGroups_nonempty (R : List LookupResult) (herr : ∀ r ∈ R, r.Error = none) :
    ∀ p ∈ consGroups R, p.2 ≠ [] := by
  rw [consGroups_eq R herr]
  exact groupFold_nonempty _ _ R [] (by intro p hp; cases hp)

theorem bucket_sorted_facts (R : List LookupResult)
    (hcanon : ∀ r ∈ R, Canon r.IP)
    (K : List IPd) (hprov : ∀ y ∈ K, ∃ r ∈ R, r.IP = y)
    (hKpw : K.Pairwise fun a b => ipEqual a b = false) :
    dedupAdj (sortIPs K) = sortIPs K ∧
    (∀ y ∈ sortIPs K, Canon y) ∧
    (sortIPs K).Pairwise (fun a b => ipLe a b = true) ∧
    (sortIPs K).Pairwise (fun a b => ipEqual a b = false) ∧
    List.Perm (sortIPs K) K := by
  have hKfacts : ∀ y ∈ K, Canon y := by
    intro y hy
    obtain ⟨r, hr, hr2⟩ := hprov y hy
    rw [← hr2]
    exact hcanon r hr
  have hsperm : List.Perm (sortIPs K) K := sortIPs_perm K
  have hsfacts : ∀ y ∈ sortIPs K, Canon y :=
    fun y hy => hKfacts y (hsperm.mem_iff.mp hy)
  have hspw : (sortIPs K).Pairwise fun a b => ipEqual a b = false :=
    (hsperm.pairwise_iff fun h => noneq_symm h).mpr hKpw
  refine ⟨?_, hsfacts, sortIPs_sorted K, hspw, hsperm⟩
  exact dedupAdj_id _ ((hspw.imp fun h => noneq_symm h).chain')

theorem NetDisjoint_symm {n1 n2 : NetB} (h : NetDisjoint n1 n2) : NetDisjoint n2 n1 :=
  fun x hx hb => h x hx ⟨hb.2, hb.1⟩

theorem ConsolidateResults_partition_core (R : List LookupResult)
    (hcanon : ∀ r ∈ R, Canon r.IP)
    (hdist : R.Pairwise fun r1 r2 => ipEqual r1.IP r2.IP = false) :
    (∀ r ∈ R, ∃ e ∈ ConsolidateResults R, netContains e.Network r.IP = true) ∧
    (∀ e ∈ ConsolidateResults R, ∀ x : IPd, Canon x → netContains e.Network x = true →
      ∃ r ∈ R, ipEqual r.IP x = true ∧
        (r.PTR = e.PTR ∨ extractPTRPattern r.IP r.PTR = e.PTR ∨
          (e.Error = r.Error ∧ r.Error ≠ none))) ∧
    (ConsolidateResults R).Pairwise fun e1 e2 => NetDisjoint e1.Network e2.Network := by
  classical
  set Rn := R.filter (fun r => r.Error.isNone) with hRndef
  set Re := consErrors R with hRedef
  have hRnsub : Rn.Sublist R := List.filter_sublist R
  have hResub : Re.Sublist R := List.filter_sublist R
  have hReErr : ∀ r ∈ Re, r.Error ≠ none := by
    intro r hr
    have h := List.of_mem_filter hr
    intro h0
    rw [h0] at h
    cases h
  have hout : ConsolidateResults R = List.insertionSort (fun a b => netIPLe a b = true)
      ((pass1 (consGroups R)).1 ++
        pass2Emit (pass1 (consGroups R)).2 (pass2Groups (pass1 (consGroups R)).2).1 ++
        ((pass2Groups (pass1 (consGroups R)).2).2.map fun s =>
          (⟨singleIPNet s.1, s.2, none⟩ : ConsolidatedResult)) ++
        (Re.map fun r => (⟨singleIPNet r.IP, "", r.Error⟩ : ConsolidatedResult))) :=
    rfl
  have houtPerm : List.Perm (ConsolidateResults R)
      ((pass1 (consGroups R)).1 ++
        pass2Emit (pass1 (consGroups R)).2 (pass2Groups (pass1 (consGroups R)).2).1 ++
        ((pass2Groups (pass1 (consGroups R)).2).2.map fun s =>
          (⟨singleIPNet s.1, s.2, none⟩ : ConsolidatedResult)) ++
        (Re.map fun r => (⟨singleIPNet r.IP, "", r.Error⟩ : ConsolidatedResult))) := by
    rw [hout]
    exact List.perm_insertionSort _ _
  set G := consGroups R with hGdef
  set S := (pass1 G).2 with hSdef
  set PG := (pass2Groups S).1 with hPGdef
  set U := (pass2Groups S).2 with hUdef
  have hGeq : G = Rn.foldl (fun g r => groupAdd g r.PTR r.IP) [] := rfl
  -- bucket provenance and coverage over the non-error results
  have hGperm : List.Perm ((G.map Prod.snd).flatten) (Rn.map fun r => r.IP) := by
    rw [hGeq]
    have h := groupFold_flatten_perm (fun r : LookupResult => r.PTR)
      (fun r : LookupResult => r.IP) Rn []
    simpa using h
  have hprovB : ∀ p ∈ G, ∀ y ∈ p.2, ∃ r ∈ R, r.PTR = p.1 ∧ r.IP = y := by
    rw [hGeq]
    intro p hp y hy
    exact groupFold_prov (fun r : LookupResult => r.PTR) (fun r : LookupResult => r.IP)
      (fun k ip => ∃ r ∈ R, r.PTR = k ∧ r.IP = ip) Rn []
      (by intro q hq; cases hq)
      (fun r hr => ⟨r, hRnsub.mem hr, rfl, rfl⟩) p hp y hy
  have hprovB2 : ∀ p ∈ G, ∀ y ∈ p.2, ∃ r ∈ R, r.IP = y := by
    intro p hp y hy
    obtain ⟨r, hr, _, h2⟩ := hprovB p hp y hy
    exact ⟨r, hr, h2⟩
  have hcoverB : ∀ r ∈ Rn, ∃ p ∈ G, p.1 = r.PTR ∧ r.IP ∈ p.2 := by
    rw [hGeq]
    intro r hr
    exact groupFold_covers (fun r : LookupResult => r.PTR) (fun r : LookupResult => r.IP)
      Rn [] r hr
  -- global distinctness transported to the buckets
  have hmapPW : (R.map fun r => r.IP).Pairwise (fun a b => ipEqual a b = false) :=
    List.pairwise_map.mpr hdist
  have hmapPWn : (Rn.map fun r => r.IP).Pairwise (fun a b => ipEqual a b = false) :=
    hmapPW.sublist (hRnsub.map _)
  have hflatPW : ((G.map Prod.snd).flatten).Pairwise (fun a b => ipEqual a b = false) :=
    (hGperm.pairwise_iff (fun h => noneq_symm h)).mpr hmapPWn
  have hbPW : ∀ p ∈ G, p.2.Pairwise (fun a b => ipEqual a b = false) :=
    fun p hp => (List.pairwise_flatten.mp hflatPW).1 p.2 (List.mem_map_of_mem Prod.snd hp)
  have hBF := fun (p : String × List IPd) (hp : p ∈ G) =>
    bucket_sorted_facts R hcanon p.2 (hprovB2 p hp) (hbPW p hp)
  -- pass-1 shapes with the dedup removed
  have hp1 := pass1_eq G
  have hE1eq : (pass1 G).1 = G.flatMap fun g =>
      if (sortIPs g.2).length = 1 ∧ g.1 ≠ "" then []
      else (IPsToNetworks (sortIPs g.2)).map fun n => (⟨n, g.1, none⟩ : ConsolidatedResult) := by
    rw [hp1]
    dsimp only
    refine flatMap_congr _ _ G ?_
    intro g hg
    simp only [(hBF g hg).1]
  have hSeq : S = G.flatMap fun g =>
      if (sortIPs g.2).length = 1 ∧ g.1 ≠ "" then [((sortIPs g.2).headD ⟨0, 0⟩, g.1)]
      else [] := by
    rw [hSdef, hp1]
    dsimp only
    refine flatMap_congr _ _ G ?_
    intro g hg
    simp only [(hBF g hg).1]
  -- deferred buckets are singletons
  have hdefbucket : ∀ g ∈ G, ((sortIPs g.2).length = 1 ∧ g.1 ≠ "") →
      g.2 = [(sortIPs g.2).headD ⟨0, 0⟩] := by
    intro g hg hc
    obtain ⟨d, hd⟩ : ∃ d, sortIPs g.2 = [d] := by
      cases hl : sortIPs g.2 with
      | nil => rw [hl] at hc; simp at hc
      | cons a as =>
        cases as with
        | nil => exact ⟨a, rfl⟩
        | cons b bs => rw [hl] at hc; simp at hc
    have hperm := (hBF g hg).2.2.2.2
    rw [hd] at hperm
    have hdg : d ∈ g.2 := hperm.mem_iff.mp (List.mem_singleton_self d)
    have hg2 : g.2 = [d] := by
      refine length_one_mem_eq g.2 d ?_ hdg
      have := hperm.length_eq
      simpa using this.symm
    rw [hd, List.headD_cons]
    exact hg2
  have hSchar : ∀ s ∈ S, ∃ g ∈ G, g.1 = s.2 ∧ g.2 = [s.1] := by
    intro s hs
    rw [hSeq] at hs
    obtain ⟨g, hg, hsg⟩ := List.mem_flatMap.mp hs
    by_cases hc : (sortIPs g.2).length = 1 ∧ g.1 ≠ ""
    · rw [if_pos hc] at hsg
      rcases List.mem_singleton.mp hsg with rfl
      exact ⟨g, hg, rfl, hdefbucket g hg hc⟩
    · rw [if_neg hc] at hsg
      cases hsg
  have hSprov : ∀ s ∈ S, ∃ r ∈ R, r.PTR = s.2 ∧ r.IP = s.1 := by
    intro s hs
    obtain ⟨g, hg, h1, h2⟩ := hSchar s hs
    have hmem : s.1 ∈ g.2 := by
      rw [h2]
      exact List.mem_singleton_self _
    obtain ⟨r, hr, hrp, hri⟩ := hprovB g hg s.1 hmem
    exact ⟨r, hr, by rw [hrp, h1], hri⟩
  -- the deferred singles are exactly the single-address buckets
  have hSfst : S.map Prod.fst =
      (G.filter fun g => decide ((sortIPs g.2).length = 1 ∧ g.1 ≠ "")).flatMap Prod.snd := by
    rw [hSeq, flatMap_if_filter_pos, List.map_flatMap]
    refine flatMap_congr _ _ _ ?_
    intro g hg
    have hgG : g ∈ G := List.mem_of_mem_filter hg
    have hcond : (sortIPs g.2).length = 1 ∧ g.1 ≠ "" := by
      have := List.of_mem_filter hg
      simpa using this
    show [(sortIPs g.2).headD ⟨0, 0⟩] = g.2
    exact (hdefbucket g hgG hcond).symm
  -- pass-2 shapes
  have hp2 := pass2Groups_eq S
  have hPGeq : PG = (S.filter fun s => extractPTRPattern s.1 s.2 != "").foldl
      (fun g s => groupAdd g (extractPTRPattern s.1 s.2) s.1) [] := by
    rw [hPGdef, hp2]
  have hUeq : U = S.filter fun s => extractPTRPattern s.1 s.2 == "" := by
    rw [hUdef, hp2]
  set Sp := S.filter (fun s => extractPTRPattern s.1 s.2 != "") with hSpdef
  have hPGperm : List.Perm ((PG.map Prod.snd).flatten) (Sp.map Prod.fst) := by
    rw [hPGeq]
    have := groupFold_flatten_perm (fun s : IPd × String => extractPTRPattern s.1 s.2)
      Prod.fst Sp []
    simpa using this
  have hPGprov : ∀ pg ∈ PG, ∀ y ∈ pg.2,
      ∃ s ∈ Sp, s.1 = y ∧ extractPTRPattern s.1 s.2 = pg.1 := by
    rw [hPGeq]
    intro pg hpg y hy
    exact groupFold_prov _ _ (fun k ip => ∃ s ∈ Sp, s.1 = ip ∧ extractPTRPattern s.1 s.2 = k)
      Sp [] (by intro q hq; cases hq) (fun s hs => ⟨s, hs, rfl, rfl⟩) pg hpg y hy
  have hPGcov : ∀ s ∈ Sp, ∃ pg ∈ PG, pg.1 = extractPTRPattern s.1 s.2 ∧ s.1 ∈ pg.2 := by
    rw [hPGeq]
    intro s hs
    exact groupFold_covers _ _ Sp [] s hs
  have hPGne : ∀ pg ∈ PG, pg.2 ≠ [] := by
    rw [hPGeq]
    exact groupFold_nonempty _ _ Sp [] (by intro p hp; cases hp)
  -- distinctness among the singles and among pattern-bucket members
  set Gd := G.filter (fun g => decide ((sortIPs g.2).length = 1 ∧ g.1 ≠ "")) with hGddef
  set Gn := G.filter (fun g => decide (¬ ((sortIPs g.2).length = 1 ∧ g.1 ≠ ""))) with hGndef
  have hGdPW : ((Gd.map Prod.snd).flatten).Pairwise (fun a b => ipEqual a b = false) := by
    rw [List.pairwise_flatten]
    obtain ⟨hin, hcross⟩ := List.pairwise_flatten.mp hflatPW
    constructor
    · intro l2 hl2
      rcases List.mem_map.mp hl2 with ⟨g, hg, rfl⟩
      exact hin g.2 (List.mem_map_of_mem Prod.snd (List.mem_of_mem_filter hg))
    · exact hcross.sublist ((List.filter_sublist G).map Prod.snd)
  have hSfstPW : (S.map Prod.fst).Pairwise (fun a b => ipEqual a b = false) := by
    rw [hSfst]
    rw [List.flatMap_def]
    exact hGdPW
  have hSpSub : Sp.Sublist S := List.filter_sublist S
  have hUSub : U.Sublist S := by
    rw [hUeq]
    exact List.filter_sublist S
  have hSpPW : (Sp.map Prod.fst).Pairwise (fun a b => ipEqual a b = false) :=
    hSfstPW.sublist (hSpSub.map Prod.fst)
  have hSmem : ∀ s ∈ Sp, s ∈ S := fun s hs => hSpSub.mem hs
  have hUmem : ∀ s ∈ U, s ∈ S := fun s hs => hUSub.mem hs
  have hPGbucketPW : ∀ pg ∈ PG, pg.2.Pairwise (fun a b => ipEqual a b = false) := by
    intro pg hpg
    have hflat2 : ((PG.map Prod.snd).flatten).Pairwise (fun a b => ipEqual a b = false) :=
      (hPGperm.pairwise_iff (fun h => noneq_symm h)).mpr hSpPW
    exact (List.pairwise_flatten.mp hflat2).1 pg.2 (List.mem_map_of_mem Prod.snd hpg)
  have hPGprovR : ∀ pg ∈ PG, ∀ y ∈ pg.2, ∃ r ∈ R, r.IP = y := by
    intro pg hpg y hy
    obtain ⟨s, hs, h1, _⟩ := hPGprov pg hpg y hy
    obtain ⟨r, hr, _, hri⟩ := hSprov s (hSmem s hs)
    exact ⟨r, hr, by rw [hri, h1]⟩
  have hPBF := fun (pg : String × List IPd) (hpg : pg ∈ PG) =>
    bucket_sorted_facts R hcanon pg.2 (hPGprovR pg hpg) (hPGbucketPW pg hpg)
  have hE1f : (pass1 G).1 = Gn.flatMap
      (fun g => (IPsToNetworks (sortIPs g.2)).map fun n =>
        (⟨n, g.1, none⟩ : ConsolidatedResult)) := by
    rw [hE1eq, flatMap_if_filter]
  have hexactG := fun (g : String × List IPd) (hg : g ∈ G) =>
    ipsToNetworks_exact (sortIPs g.2) (hBF g hg).2.1 (hBF g hg).2.2.1 (hBF g hg).2.2.2.1
  have hexactP := fun (pg : String × List IPd) (hpg : pg ∈ PG) =>
    ipsToNetworks_exact (sortIPs pg.2) (hPBF pg hpg).2.1 (hPBF pg hpg).2.2.1
      (hPBF pg hpg).2.2.2.1
  -- the family of (member list, emitted entries), one per consolidation class
  set fam : List (List IPd × List ConsolidatedResult) :=
    (Gn.map fun g => (sortIPs g.2,
      (IPsToNetworks (sortIPs g.2)).map fun n => (⟨n, g.1, none⟩ : ConsolidatedResult))) ++
    (PG.map fun pg => (sortIPs pg.2,
      if pg.2.length < 2 then
        match S.find? (fun s => ipEqual s.1 (pg.2.headD ⟨0, 0⟩)) with
        | some s => [(⟨singleIPNet s.1, s.2, none⟩ : ConsolidatedResult)]
        | none => []
      else (IPsToNetworks (sortIPs pg.2)).map fun n => (⟨n, pg.1, none⟩ : ConsolidatedResult))) ++
    (U.map fun s => ([s.1], [(⟨singleIPNet s.1, s.2, none⟩ : ConsolidatedResult)])) ++
    (Re.map fun r => ([r.IP], [(⟨singleIPNet r.IP, "", r.Error⟩ : ConsolidatedResult)]))
    with hfamdef
  have hKeyEq : fam.map Prod.fst =
      (Gn.map fun g => sortIPs g.2) ++ (PG.map fun pg => sortIPs pg.2) ++
        (U.map fun s => [s.1]) ++ (Re.map fun r => [r.IP]) := by
    rw [hfamdef]
    simp only [List.map_append, List.map_map]
    rfl
  have hEntEq : fam.map Prod.snd =
      (Gn.map fun g => (IPsToNetworks (sortIPs g.2)).map fun n =>
        (⟨n, g.1, none⟩ : ConsolidatedResult)) ++
      (PG.map fun pg =>
        if pg.2.length < 2 then
          match S.find? (fun s => ipEqual s.1 (pg.2.headD ⟨0, 0⟩)) with
          | some s => [(⟨singleIPNet s.1, s.2, none⟩ : ConsolidatedResult)]
          | none => []
        else (IPsToNetworks (sortIPs pg.2)).map fun n =>
          (⟨n, pg.1, none⟩ : ConsolidatedResult)) ++
      (U.map fun s => [(⟨singleIPNet s.1, s.2, none⟩ : ConsolidatedResult)]) ++
      (Re.map fun r => [(⟨singleIPNet r.IP, "", r.Error⟩ : ConsolidatedResult)]) := by
    rw [hfamdef]
    simp only [List.map_append, List.map_map]
    rfl
  have hEnt : (pass1 G).1 ++ pass2Emit S PG ++ (U.map fun s =>
      (⟨singleIPNet s.1, s.2, none⟩ : ConsolidatedResult)) ++
      (Re.map fun r => (⟨singleIPNet r.IP, "", r.Error⟩ : ConsolidatedResult))
      = (fam.map Prod.snd).flatten := by
    have h1 : (pass1 G).1 = (Gn.map fun g => (IPsToNetworks (sortIPs g.2)).map fun n =>
        (⟨n, g.1, none⟩ : ConsolidatedResult)).flatten := by
      rw [hE1f, List.flatMap_def]
    have h2 : pass2Emit S PG = (PG.map fun pg =>
        if pg.2.length < 2 then
          match S.find? (fun s => ipEqual s.1 (pg.2.headD ⟨0, 0⟩)) with
          | some s => [(⟨singleIPNet s.1, s.2, none⟩ : ConsolidatedResult)]
          | none => []
        else (IPsToNetworks (sortIPs pg.2)).map fun n =>
          (⟨n, pg.1, none⟩ : ConsolidatedResult)).flatten := by
      rw [pass2Emit_eq, List.flatMap_def]
    have h3 : (U.map fun s => (⟨singleIPNet s.1, s.2, none⟩ : ConsolidatedResult)) =
        (U.map fun s => [(⟨singleIPNet s.1, s.2, none⟩ : ConsolidatedResult)]).flatten := by
      rw [← List.flatMap_def, flatMap_map_singleton]
    have h4 : (Re.map fun r => (⟨singleIPNet r.IP, "", r.Error⟩ : ConsolidatedResult)) =
        (Re.map fun r => [(⟨singleIPNet r.IP, "", r.Error⟩ : ConsolidatedResult)]).flatten := by
      rw [← List.flatMap_def, flatMap_map_singleton]
    rw [hEntEq, List.flatten_append, List.flatten_append, List.flatten_append, h1, h2, h3, h4]
  -- the keys cover the addresses of R exactly
  have hP3 : ((U.map fun s => [s.1]).flatten) = U.map Prod.fst := by
    rw [← List.flatMap_def]
    exact flatMap_map_singleton Prod.fst U
  have hP4 : ((Re.map fun r => [r.IP]).flatten) = Re.map fun r => r.IP := by
    rw [← List.flatMap_def]
    exact flatMap_map_singleton _ Re
  have hKey123 : List.Perm ((Gn.map fun g => sortIPs g.2).flatten ++
      ((PG.map fun pg => sortIPs pg.2).flatten ++ U.map Prod.fst))
      (Rn.map fun r => r.IP) := by
    have hP1 : List.Perm ((Gn.map fun g => sortIPs g.2).flatten) (Gn.flatMap Prod.snd) := by
      rw [← List.flatMap_def]
      exact List.Perm.flatMap_left Gn (fun g _ => sortIPs_perm g.2)
    have hP2 : List.Perm ((PG.map fun pg => sortIPs pg.2).flatten) (Sp.map Prod.fst) := by
      rw [← List.flatMap_def]
      refine (List.Perm.flatMap_left PG (fun pg _ => sortIPs_perm pg.2)).trans ?_
      rw [List.flatMap_def]
      exact hPGperm
    refine (hP1.append (hP2.append (List.Perm.refl (U.map Prod.fst)))).trans ?_
    have hSU : List.Perm (Sp.map Prod.fst ++ U.map Prod.fst) (S.map Prod.fst) := by
      have hfiltereq : U = S.filter (fun s => !(extractPTRPattern s.1 s.2 != "")) := by
        rw [hUeq]
        refine List.filter_congr ?_
        intro s _
        simp [bne]
      have hpart : List.Perm (Sp ++ U) S := by
        rw [hSpdef, hfiltereq]
        exact List.filter_append_perm _ S
      rw [← List.map_append]
      exact hpart.map Prod.fst
    refine (List.Perm.append_left _ hSU).trans ?_
    rw [hSfst]
    rw [← List.flatMap_append]
    have hGnGd : List.Perm (Gn ++ Gd) G := by
      rw [hGndef, hGddef]
      have hGdeq : G.filter (fun g => decide ((sortIPs g.2).length = 1 ∧ g.1 ≠ "")) =
          G.filter (fun g => !(decide (¬ ((sortIPs g.2).length = 1 ∧ g.1 ≠ "")))) := by
        refine List.filter_congr ?_
        intro g _
        rw [decide_not, Bool.not_not]
      rw [hGdeq]
      exact List.filter_append_perm _ G
    refine (hGnGd.flatMap_right Prod.snd).trans ?_
    rw [List.flatMap_def]
    exact hGperm
  have hRnRe : List.Perm ((Rn.map fun r => r.IP) ++ (Re.map fun r => r.IP))
      (R.map fun r => r.IP) := by
    have hfiltereq : Re = R.filter (fun r => !(r.Error.isNone)) := by
      rw [hRedef]
      unfold consErrors
      refine List.filter_congr ?_
      intro r _
      cases r.Error <;> rfl
    have hpart : List.Perm (Rn ++ Re) R := by
      rw [hRndef, hfiltereq]
      exact List.filter_append_perm _ R
    rw [← List.map_append]
    exact hpart.map _
  have hKeyPerm : List.Perm ((fam.map Prod.fst).flatten) (R.map fun r => r.IP) := by
    rw [hKeyEq, List.flatten_append, List.flatten_append, List.flatten_append, hP3, hP4]
    refine List.Perm.trans ?_ hRnRe
    refine List.Perm.append ?_ (List.Perm.refl _)
    refine List.Perm.trans ?_ hKey123
    rw [List.append_assoc]
  have hKeyPW : ((fam.map Prod.fst).flatten).Pairwise (fun a b => ipEqual a b = false) :=
    (hKeyPerm.pairwise_iff (fun h => noneq_symm h)).mpr hmapPW
  have hfamFacts : ∀ q ∈ fam,
      q.2.Pairwise (fun e1 e2 => NetDisjoint e1.Network e2.Network) ∧
      (∀ e ∈ q.2, ∀ x : IPd, Canon x → netContains e.Network x = true →
        ∃ m ∈ q.1, ipEqual m x = true) := by
    intro q hq
    rw [hfamdef] at hq
    rcases List.mem_append.mp hq with hq123 | hq4
    rotate_left
    · rcases List.mem_map.mp hq4 with ⟨r, hr, rfl⟩
      dsimp only
      constructor
      · exact List.pairwise_singleton _ _
      · intro e he x hx hcont
        rcases List.mem_singleton.mp he with rfl
        have hrc : Canon r.IP := hcanon r (hResub.mem hr)
        have hxeq := (singleIPNet_contains r.IP x hrc).mp hcont
        exact ⟨r.IP, List.mem_singleton_self _, ipEqual_symm _ _ hxeq⟩
    rcases List.mem_append.mp hq123 with hq12 | hq3
    · rcases List.mem_append.mp hq12 with hq1 | hq2
      · rcases List.mem_map.mp hq1 with ⟨g, hg, rfl⟩
        have hgG : g ∈ G := List.mem_of_mem_filter hg
        have hex := hexactG g hgG
        dsimp only
        constructor
        · exact List.pairwise_map.mpr hex.1
        · intro e he x hx hcont
          rcases List.mem_map.mp he with ⟨nt, hnt, rfl⟩
          have hxmem := (hex.2 x hx).mp ⟨nt, hnt, hcont⟩
          exact ⟨x, hxmem, ipEqual_refl x⟩
      · rcases List.mem_map.mp hq2 with ⟨pg, hpg, rfl⟩
        dsimp only
        by_cases hlt : pg.2.length < 2
        · rw [if_pos hlt]
          cases hfind : S.find? (fun s => ipEqual s.1 (pg.2.headD ⟨0, 0⟩)) with
          | some s =>
            dsimp only
            constructor
            · exact List.pairwise_singleton _ _
            · intro e he x hx hcont
              rcases List.mem_singleton.mp he with rfl
              have hsS : s ∈ S := List.mem_of_find?_eq_some hfind
              have hsc : Canon s.1 := by
                obtain ⟨r, hr, _, hri⟩ := hSprov s hsS
                rw [← hri]
                exact hcanon r hr
              have hxeq : ipEqual x s.1 = true := (singleIPNet_contains s.1 x hsc).mp hcont
              have hps : ipEqual s.1 (pg.2.headD ⟨0, 0⟩) = true := by
                have h := List.find?_some hfind
                exact h
              have hhead : pg.2.headD ⟨0, 0⟩ ∈ pg.2 := by
                cases hpg2 : pg.2 with
                | nil => exact absurd hpg2 (hPGne pg hpg)
                | cons a as =>
                  rw [List.headD_cons]
                  exact List.mem_cons_self _ _
              have hheadK : pg.2.headD ⟨0, 0⟩ ∈ sortIPs pg.2 :=
                (sortIPs_perm pg.2).mem_iff.mpr hhead
              exact ⟨pg.2.headD ⟨0, 0⟩, hheadK,
                ipEqual_trans _ _ _ (ipEqual_symm _ _ hps) (ipEqual_symm _ _ hxeq)⟩
          | none =>
            exact ⟨List.Pairwise.nil, by intro e he; cases he⟩
        · rw [if_neg hlt]
          have hex := hexactP pg hpg
          constructor
          · exact List.pairwise_map.mpr hex.1
          · intro e he x hx hcont
            rcases List.mem_map.mp he with ⟨nt, hnt, rfl⟩
            have hxmem := (hex.2 x hx).mp ⟨nt, hnt, hcont⟩
            exact ⟨x, hxmem, ipEqual_refl x⟩
    · rcases List.mem_map.mp hq3 with ⟨s, hs, rfl⟩
      dsimp only
      constructor
      · exact List.pairwise_singleton _ _
      · intro e he x hx hcont
        rcases List.mem_singleton.mp he with rfl
        have hsc : Canon s.1 := by
          obtain ⟨r, hr, _, hri⟩ := hSprov s (hUmem s hs)
          rw [← hri]
          exact hcanon r hr
        have hxeq := (singleIPNet_contains s.1 x hsc).mp hcont
        exact ⟨s.1, List.mem_singleton_self _, ipEqual_symm _ _ hxeq⟩
  have hcover : ∀ r ∈ R, ∃ e ∈ ((pass1 G).1 ++ pass2Emit S PG ++ (U.map fun s =>
      (⟨singleIPNet s.1, s.2, none⟩ : ConsolidatedResult)) ++
      (Re.map fun r => (⟨singleIPNet r.IP, "", r.Error⟩ : ConsolidatedResult))),
      netContains e.Network r.IP = true := by
    intro r hr
    by_cases hrerr : r.Error = none
    · have hrRn : r ∈ Rn := by
        rw [hRndef]
        refine List.mem_filter.mpr ⟨hr, ?_⟩
        rw [hrerr]
        rfl
      obtain ⟨p, hp, hp1, hp2mem⟩ := hcoverB r hrRn
      by_cases hc : (sortIPs p.2).length = 1 ∧ p.1 ≠ ""
      · have hg2 : p.2 = [(sortIPs p.2).headD ⟨0, 0⟩] := hdefbucket p hp hc
        have hhead : (sortIPs p.2).headD ⟨0, 0⟩ = r.IP := by
          rw [hg2] at hp2mem
          exact (List.mem_singleton.mp hp2mem).symm
        have hsS : ((sortIPs p.2).headD ⟨0, 0⟩, p.1) ∈ S := by
          rw [hSeq]
          refine List.mem_flatMap.mpr ⟨p, hp, ?_⟩
          rw [if_pos hc]
          exact List.mem_singleton_self _
        rw [hhead] at hsS
        by_cases hpat : extractPTRPattern r.IP p.1 ≠ ""
        · have hSp : (r.IP, p.1) ∈ Sp := by
            rw [hSpdef]
            refine List.mem_filter.mpr ⟨hsS, ?_⟩
            exact bne_iff_ne.mpr hpat
          obtain ⟨pg, hpg, hpg1, hpgmem⟩ := hPGcov (r.IP, p.1) hSp
          by_cases hlt : pg.2.length < 2
          · have hpg2 : pg.2 = [r.IP] := by
              refine length_one_mem_eq pg.2 r.IP ?_ hpgmem
              have hne := hPGne pg hpg
              cases hl : pg.2 with
              | nil => exact absurd hl hne
              | cons a as =>
                cases as with
                | nil => rfl
                | cons b bs =>
                  exfalso
                  rw [hl] at hlt
                  simp only [List.length_cons] at hlt
                  omega
            have hfindSome : (S.find? fun s => ipEqual s.1 (pg.2.headD ⟨0, 0⟩)).isSome := by
              rw [hpg2, List.headD_cons]
              refine List.find?_isSome.mpr ⟨(r.IP, p.1), hsS, ?_⟩
              exact ipEqual_refl r.IP
            cases hfind : S.find? (fun s => ipEqual s.1 (pg.2.headD ⟨0, 0⟩)) with
            | none =>
              rw [hfind] at hfindSome
              cases hfindSome
            | some s2 =>
              have hsS2 : s2 ∈ S := List.mem_of_find?_eq_some hfind
              have hc2 : Canon s2.1 := by
                obtain ⟨r2, hr2, _, hri⟩ := hSprov s2 hsS2
                rw [← hri]
                exact hcanon r2 hr2
              have hpred : ipEqual s2.1 (pg.2.headD ⟨0, 0⟩) = true := by
                have h := List.find?_some hfind
                exact h
              rw [hpg2, List.headD_cons] at hpred
              refine ⟨⟨singleIPNet s2.1, s2.2, none⟩, ?_, ?_⟩
              · refine List.mem_append_left _ (List.mem_append_left _
                  (List.mem_append_right _ ?_))
                rw [pass2Emit_eq]
                refine List.mem_flatMap.mpr ⟨pg, hpg, ?_⟩
                rw [if_pos hlt, hfind]
                exact List.mem_singleton_self _
              · exact (singleIPNet_contains s2.1 r.IP hc2).mpr (ipEqual_symm _ _ hpred)
          · have hex := hexactP pg hpg
            have hmemK : r.IP ∈ sortIPs pg.2 := (sortIPs_perm pg.2).mem_iff.mpr hpgmem
            obtain ⟨nt, hnt, hcont⟩ := (hex.2 r.IP (hcanon r hr)).mpr hmemK
            refine ⟨⟨nt, pg.1, none⟩, ?_, hcont⟩
            refine List.mem_append_left _ (List.mem_append_left _
              (List.mem_append_right _ ?_))
            rw [pass2Emit_eq]
            refine List.mem_flatMap.mpr ⟨pg, hpg, ?_⟩
            rw [if_neg hlt]
            exact List.mem_map_of_mem _ hnt
        · have hUmem2 : (r.IP, p.1) ∈ U := by
            rw [hUeq]
            refine List.mem_filter.mpr ⟨hsS, ?_⟩
            simp only [ne_eq, not_not] at hpat
            exact beq_iff_eq.mpr hpat
          refine ⟨⟨singleIPNet r.IP, p.1, none⟩, ?_, ?_⟩
          · exact List.mem_append_left _
              (List.mem_append_right _ (List.mem_map_of_mem _ hUmem2))
          · exact (singleIPNet_contains r.IP r.IP (hcanon r hr)).mpr (ipEqual_refl r.IP)
      · have hgGn : p ∈ Gn := by
          rw [hGndef]
          refine List.mem_filter.mpr ⟨hp, ?_⟩
          exact decide_eq_true hc
        have hex := hexactG p hp
        have hmemK : r.IP ∈ sortIPs p.2 := (sortIPs_perm p.2).mem_iff.mpr hp2mem
        obtain ⟨nt, hnt, hcont⟩ := (hex.2 r.IP (hcanon r hr)).mpr hmemK
        refine ⟨⟨nt, p.1, none⟩, ?_, hcont⟩
        refine List.mem_append_left _ (List.mem_append_left _ (List.mem_append_left _ ?_))
        rw [hE1f]
        refine List.mem_flatMap.mpr ⟨p, hgGn, ?_⟩
        exact List.mem_map_of_mem _ hnt
    · have hrRe : r ∈ Re := by
        rw [hRedef]
        unfold consErrors
        refine List.mem_filter.mpr ⟨hr, ?_⟩
        cases hE : r.Error with
        | none => exact absurd hE hrerr
        | some e => rfl
      refine ⟨⟨singleIPNet r.IP, "", r.Error⟩, ?_, ?_⟩
      · exact List.mem_append_right _ (List.mem_map_of_mem _ hrRe)
      · exact (singleIPNet_contains r.IP r.IP (hcanon r hr)).mpr (ipEqual_refl r.IP)
  have hpure : ∀ e ∈ ((pass1 G).1 ++ pass2Emit S PG ++ (U.map fun s =>
      (⟨singleIPNet s.1, s.2, none⟩ : ConsolidatedResult)) ++
      (Re.map fun r => (⟨singleIPNet r.IP, "", r.Error⟩ : ConsolidatedResult))),
      ∀ x : IPd, Canon x → netContains e.Network x = true →
      ∃ r ∈ R, ipEqual r.IP x = true ∧
        (r.PTR = e.PTR ∨ extractPTRPattern r.IP r.PTR = e.PTR ∨
          (e.Error = r.Error ∧ r.Error ≠ none)) := by
    intro e he x hx hcont
    rcases List.mem_append.mp he with he123 | he4
    rotate_left
    · obtain ⟨r, hrRe, rfl⟩ := List.mem_map.mp he4
      have hrR : r ∈ R := hResub.mem hrRe
      have hrc : Canon r.IP := hcanon r hrR
      have hxeq := (singleIPNet_contains r.IP x hrc).mp hcont
      refine ⟨r, hrR, ipEqual_symm _ _ hxeq, Or.inr (Or.inr ⟨rfl, hReErr r hrRe⟩)⟩
    rcases List.mem_append.mp he123 with he12 | he3
    · rcases List.mem_append.mp he12 with he1 | he2
      · rw [hE1f] at he1
        obtain ⟨g, hg, hge⟩ := List.mem_flatMap.mp he1
        obtain ⟨nt, hnt, rfl⟩ := List.mem_map.mp hge
        have hgG := List.mem_of_mem_filter hg
        have hex := hexactG g hgG
        have hxmem := (hex.2 x hx).mp ⟨nt, hnt, hcont⟩
        have hxg : x ∈ g.2 := ((hBF g hgG).2.2.2.2).mem_iff.mp hxmem
        obtain ⟨r, hr, hrp, hri⟩ := hprovB g hgG x hxg
        refine ⟨r, hr, ?_, Or.inl hrp⟩
        rw [hri]
        exact ipEqual_refl x
      · rw [pass2Emit_eq] at he2
        obtain ⟨pg, hpg, hbe⟩ := List.mem_flatMap.mp he2
        by_cases hlt : pg.2.length < 2
        · rw [if_pos hlt] at hbe
          cases hfind : S.find? (fun s => ipEqual s.1 (pg.2.headD ⟨0, 0⟩)) with
          | none =>
            rw [hfind] at hbe
            cases hbe
          | some s =>
            rw [hfind] at hbe
            rcases List.mem_singleton.mp hbe with rfl
            have hsS := List.mem_of_find?_eq_some hfind
            obtain ⟨r, hr, hrp, hri⟩ := hSprov s hsS
            have hsc : Canon s.1 := by
              rw [← hri]
              exact hcanon r hr
            have hxeq := (singleIPNet_contains s.1 x hsc).mp hcont
            refine ⟨r, hr, ?_, Or.inl hrp⟩
            rw [hri]
            exact ipEqual_symm _ _ hxeq
        · rw [if_neg hlt] at hbe
          obtain ⟨nt, hnt, rfl⟩ := List.mem_map.mp hbe
          have hex := hexactP pg hpg
          have hxmem := (hex.2 x hx).mp ⟨nt, hnt, hcont⟩
          have hxpg : x ∈ pg.2 := ((hPBF pg hpg).2.2.2.2).mem_iff.mp hxmem
          obtain ⟨s, hsSp, hs1, hs2⟩ := hPGprov pg hpg x hxpg
          obtain ⟨r, hr, hrp, hri⟩ := hSprov s (hSmem s hsSp)
          refine ⟨r, hr, ?_, Or.inr (Or.inl ?_)⟩
          · rw [hri, hs1]
            exact ipEqual_refl x
          · rw [hri, hrp]
            exact hs2
    · obtain ⟨s, hsU, rfl⟩ := List.mem_map.mp he3
      obtain ⟨r, hr, hrp, hri⟩ := hSprov s (hUmem s hsU)
      have hsc : Canon s.1 := by
        rw [← hri]
        exact hcanon r hr
      have hxeq := (singleIPNet_contains s.1 x hsc).mp hcont
      refine ⟨r, hr, ?_, Or.inl hrp⟩
      rw [hri]
      exact ipEqual_symm _ _ hxeq
  have hdisj : ((pass1 G).1 ++ pass2Emit S PG ++ (U.map fun s =>
      (⟨singleIPNet s.1, s.2, none⟩ : ConsolidatedResult)) ++
      (Re.map fun r => (⟨singleIPNet r.IP, "", r.Error⟩ : ConsolidatedResult))).Pairwise
      (fun e1 e2 => NetDisjoint e1.Network e2.Network) := by
    rw [hEnt, List.pairwise_flatten]
    refine ⟨?_, ?_⟩
    · intro ents hents
      rcases List.mem_map.mp hents with ⟨q, hq, rfl⟩
      exact (hfamFacts q hq).1
    · rw [List.pairwise_map]
      have hcross := (List.pairwise_flatten.mp hKeyPW).2
      rw [List.pairwise_map] at hcross
      refine hcross.imp_of_mem ?_
      intro q1 q2 hq1 hq2 hcr e1 he1 e2 he2
      intro x hx hboth
      obtain ⟨m1, hm1, hem1⟩ := (hfamFacts q1 hq1).2 e1 he1 x hx hboth.1
      obtain ⟨m2, hm2, hem2⟩ := (hfamFacts q2 hq2).2 e2 he2 x hx hboth.2
      have heq12 : ipEqual m1 m2 = true := ipEqual_trans _ _ _ hem1 (ipEqual_symm _ _ hem2)
      rw [hcr m1 hm1 m2 hm2] at heq12
      cases heq12
  refine ⟨?_, ?_, ?_⟩
  · intro r hr
    obtain ⟨e, he, hc⟩ := hcover r hr
    exact ⟨e, houtPerm.mem_iff.mpr he, hc⟩
  · intro e he x hx hc
    exact hpure e (houtPerm.mem_iff.mp he) x hx hc
  · exact (houtPerm.pairwise_iff (fun h => NetDisjoint_symm h)).mpr hdisj

/-- Counterexample to the partition claim as stated: two results with the same
address under different PTRs yield two distinct single-host entries covering
the same canonical address, so distinct consolidated entries do not always
cover disjoint address sets. -/
theorem consolidate_partition_ctrex :
    ConsolidateResults
        [⟨⟨4, 0x0A000001⟩, "a.example.com", none⟩,
         ⟨⟨4, 0x0A000001⟩, "b.example.com", none⟩] =
      [⟨⟨4, 0x0A000001, 32⟩, "a.example.com", none⟩,
       ⟨⟨4, 0x0A000001, 32⟩, "b.example.com", none⟩] ∧
    (⟨⟨4, 0x0A000001, 32⟩, "a.example.com", none⟩ : ConsolidatedResult) ≠
      ⟨⟨4, 0x0A000001, 32⟩, "b.example.com", none⟩ ∧
    Canon (⟨4, 0x0A000001⟩ : IPd) ∧
    netContains ⟨4, 0x0A000001, 32⟩ ⟨4, 0x0A000001⟩ = true :=
  ⟨by decide, by decide, by decide, by decide⟩

/-- Claim C2 (corrected): with duplicate addresses in the result set the
emitted entries need not be disjoint (see the counterexample); for canonical
pairwise-distinct addresses — error results and mixed IPv4/IPv6 families
allowed — consolidation of the filtered results partitions the filtered
address set exactly: every filtered address lies in some emitted network,
every canonical address covered by an emitted network is `net.IP.Equal` to
the address of a filtered result of the entry's own class — equal PTR, a PTR
whose extracted pattern is the entry's PTR, or (for single-address error
entries) the entry's own error — and distinct consolidated entries cover
pairwise disjoint address sets. -/
theorem consolidate_partition (results : List LookupResult) (opts : OutputOptions)
    (hcanon : ∀ r ∈ results, Canon r.IP)
    (hdist : results.Pairwise fun r1 r2 => ipEqual r1.IP r2.IP = false) :
    (∀ r ∈ FilterResults results opts,
      ∃ e ∈ ConsolidateResults (FilterResults results opts),
        netContains e.Network r.IP = true) ∧
    (∀ e ∈ ConsolidateResults (FilterResults results opts), ∀ x : IPd, Canon x →
      netContains e.Network x = true →
      ∃ r ∈ FilterResults results opts, ipEqual r.IP x = true ∧
        (r.PTR = e.PTR ∨ extractPTRPattern r.IP r.PTR = e.PTR ∨
          (e.Error = r.Error ∧ r.Error ≠ none))) ∧
    (ConsolidateResults (FilterResults results opts)).Pairwise
      fun e1 e2 => NetDisjoint e1.Network e2.Network := by
  have hsub : (FilterResults results opts).Sublist results := by
    unfold FilterResults
    by_cases h : ¬ opts.ResolvedOnly ∧ ¬ opts.NXDomainOnly
    · rw [if_pos h]
    · rw [if_neg h]
      exact List.filter_sublist results
  have hmem : ∀ r ∈ FilterResults results opts, r ∈ results := fun r hr => hsub.mem hr
  exact ConsolidateResults_partition_core (FilterResults results opts)
    (fun r hr => hcanon r (hmem r hr)) (hdist.sublist hsub)

/-- Witness for C2 at a resolved IPv4 address, a resolved IPv6 address and a
failed IPv4 lookup, under default options. -/
theorem consolidate_partition_witness :
    (∀ r ∈ FilterResults
        [⟨⟨4, 0x0A000001⟩, "a.example.com", none⟩,
         ⟨⟨16, 0x20010db8 * 2 ^ 96 + 1⟩, "h6.example.com", none⟩,
         ⟨⟨4, 0x0A000002⟩, "", some "lookup failed"⟩]
        ⟨"text", false, false, false, false⟩,
      ∃ e ∈ ConsolidateResults (FilterResults
        [⟨⟨4, 0x0A000001⟩, "a.example.com", none⟩,
         ⟨⟨16, 0x20010db8 * 2 ^ 96 + 1⟩, "h6.example.com", none⟩,
         ⟨⟨4, 0x0A000002⟩, "", some "lookup failed"⟩]
        ⟨"text", false, false, false, false⟩),
        netContains e.Network r.IP = true) ∧
    (∀ e ∈ ConsolidateResults (FilterResults
        [⟨⟨4, 0x0A000001⟩, "a.example.com", none⟩,
         ⟨⟨16, 0x20010db8 * 2 ^ 96 + 1⟩, "h6.example.com", none⟩,
         ⟨⟨4, 0x0A000002⟩, "", some "lookup failed"⟩]
        ⟨"text", false, false, false, false⟩), ∀ x : IPd, Canon x →
      netContains e.Network x = true →
      ∃ r ∈ FilterResults
        [⟨⟨4, 0x0A000001⟩, "a.example.com", none⟩,
         ⟨⟨16, 0x20010db8 * 2 ^ 96 + 1⟩, "h6.example.com", none⟩,
         ⟨⟨4, 0x0A000002⟩, "", some "lookup failed"⟩]
        ⟨"text", false, false, false, false⟩, ipEqual r.IP x = true ∧
        (r.PTR = e.PTR ∨ extractPTRPattern r.IP r.PTR = e.PTR ∨
          (e.Error = r.Error ∧ r.Error ≠ none))) ∧
    (ConsolidateResults (FilterResults
        [⟨⟨4, 0x0A000001⟩, "a.example.com", none⟩,
         ⟨⟨16, 0x20010db8 * 2 ^ 96 + 1⟩, "h6.example.com", none⟩,
         ⟨⟨4, 0x0A000002⟩, "", some "lookup failed"⟩]
        ⟨"text", false, false, false, false⟩)).Pairwise
      fun e1 e2 => NetDisjoint e1.Network e2.Network :=
  consolidate_partition
    [⟨⟨4, 0x0A000001⟩, "a.example.com", none⟩,
     ⟨⟨16, 0x20010db8 * 2 ^ 96 + 1⟩, "h6.example.com", none⟩,
     ⟨⟨4, 0x0A000002⟩, "", some "lookup failed"⟩]
    ⟨"text", false, false, false, false⟩ (by decide) (by decide)
end SR
